import Mathlib

/-!
# Profiny: a shallow embedding of `Profiny.h`

The header is compiled in one of two modes (`PROFINY_FLAT_PROFILER`,
`PROFINY_CALL_GRAPH_PROFILER`); the preprocessor branches become a `Mode`
argument.  `Profile` objects live on the free store and are referred to by
`Profile*`; the free store is a list of records and a pointer is an index
into it (`new Profile(name)` appends a record, nothing is ever released by
the operations modelled here).  The operations only produce indices inside
the free store; an index outside it reads as no record and a write through
it changes nothing.  `std::map<std::string, Profile*>` is an association
list from names to indices, kept in ascending order of the names.  Every
operation that reads the clock receives the reading (the value `getTime()`
returns) as an argument.  Clock readings and durations are `double`s.  A time
value is written as an integer that stands for a `double` (0 stands for
`0.0`), and the addition and the subtraction the code performs on time values
are the operations `add` and `sub` of `TimeArith`.  Nothing is assumed about
the two operations, so that what is proved holds whatever `double` arithmetic
returns; the code only stores, adds, subtracts and prints time values.
Concrete executions are evaluated at `doubleArith`, where the integer `n`
stands for the whole number `n` and the two operations round to the nearest
`double` as IEEE 754 arithmetic does.  `unsigned int` is a natural number
reduced modulo `2 ^ 32`.
-/

namespace profiny

set_option linter.unusedSectionVars false

/-- Build-time mode selection (`#ifdef PROFINY_CALL_GRAPH_PROFILER` / `#else`). -/
inductive Mode where
  | flat
  | callGraph
deriving DecidableEq, Repr

/-- Number of values of an `unsigned int` (32 bits on the supported platforms). -/
def UINT_RANGE : Nat := 4294967296

/-! ## The arithmetic of time values -/

/-- The arithmetic of the number type of the clock (`double` in the code):
`add` is the `+` of `m_wallTime += ...` and `sub` the `-` of
`getTime() - m_startTime`.  Nothing is assumed about the two operations. -/
class TimeArith where
  add : Int → Int → Int
  sub : Int → Int → Int

section

variable [TimeArith]

/-! ## Timer -/

/-- Fields of `class Timer`. -/
structure Timer where
  m_startTime : Int
  m_stopTime : Int
  m_running : Bool
deriving DecidableEq, Repr

/-- `Timer::Timer()`. -/
def Timer.ctor : Timer :=
  { m_startTime := 0, m_stopTime := 0, m_running := false }

/-- `Timer::start()`; `now` is the value returned by `getTime()`. -/
def Timer.start (t : Timer) (now : Int) : Timer :=
  { t with m_running := true, m_startTime := now }

/-- `Timer::stop()`; `now` is the value returned by `getTime()`, and
`m_stopTime = getTime() - m_startTime` is a subtraction of `double`s. -/
def Timer.stop (t : Timer) (now : Int) : Timer :=
  { t with m_running := false, m_stopTime := TimeArith.sub now t.m_startTime }

/-- `Timer::getElapsedTime()`; `now` is what `getTime()` returns if it is called,
and `getTime() - m_startTime` is a subtraction of `double`s. -/
def Timer.getElapsedTime (t : Timer) (now : Int) : Int :=
  if t.m_running then TimeArith.sub now t.m_startTime else t.m_stopTime

/-! ## The name-to-record maps -/

/-- A `std::map<std::string, Profile*>`: names with the index of their record. -/
abbrev ProfileMap := List (String × Nat)

/-- `std::map::find`: the record stored under `name`, if any. -/
def ProfileMap.find : ProfileMap → String → Option Nat
  | [], _ => none
  | (k, v) :: rest, name => if k = name then some v else ProfileMap.find rest name

/-- `profiles[name] = result`: store `result` under `name`, keeping the keys in
ascending order (the iteration order of `std::map`).  Names are compared as
`std::less<std::string>` does, lexicographically character by character. -/
def ProfileMap.insert : ProfileMap → String → Nat → ProfileMap
  | [], name, result => [(name, result)]
  | (k, v) :: rest, name, result =>
    if name.data < k.data then (name, result) :: (k, v) :: rest
    else if k = name then (name, result) :: rest
    else (k, v) :: ProfileMap.insert rest name result

/-! ## Profile -/

/-- Fields of `class Profile`.  `m_subProfiles` is used in call-graph mode only
and `m_timeStarted` in flat mode only. -/
structure Profile where
  m_subProfiles : ProfileMap
  m_timeStarted : Bool
  m_name : String
  m_callCount : Nat
  m_wallTime : Int
  m_timer : Timer
deriving DecidableEq, Repr

/-- `Profile::Profile(name)`. -/
def Profile.ctor (name : String) : Profile :=
  { m_subProfiles := [], m_timeStarted := false, m_name := name,
    m_callCount := 0, m_wallTime := 0, m_timer := Timer.ctor }

/-- `Profile::getCallCount()`. -/
def Profile.getCallCount (r : Profile) : Nat := r.m_callCount

/-- `Profile::getName()`. -/
def Profile.getName (r : Profile) : String := r.m_name

/-- `Profile::getTimes(wall)`. -/
def Profile.getTimes (r : Profile) : Int := r.m_wallTime

/-- `Profile::getSubProfiles()`. -/
def Profile.getSubProfiles (r : Profile) : ProfileMap := r.m_subProfiles

/-! ## Profiler -/

/-- Fields of `class Profiler` together with the free store holding every
`Profile` allocated so far.  `m_profileStack` is in `std::vector` order: the
outermost record first, `back()` last.  The stack and the flag are used in
call-graph mode only. -/
structure Profiler where
  heap : List Profile
  m_profiles : ProfileMap
  m_profileStack : List Nat
  m_omitRecursiveCalls : Bool
deriving DecidableEq, Repr

/-- `Profiler::Profiler()`: the state of the singleton at first use. -/
def Profiler.ctor : Profiler :=
  { heap := [], m_profiles := [], m_profileStack := [], m_omitRecursiveCalls := true }

/-- Apply `f` to the element at index `p`; indices outside the list change nothing. -/
def modifyAt {α : Type} (f : α → α) : List α → Nat → List α
  | [], _ => []
  | x :: xs, 0 => f x :: xs
  | x :: xs, p + 1 => x :: modifyAt f xs p

/-- Write through a `Profile*`: update the record at index `p`. -/
def Profiler.modifyProfile (P : Profiler) (p : Nat) (f : Profile → Profile) : Profiler :=
  { P with heap := modifyAt f P.heap p }

/-- `Profiler::setOmitRecursiveCalls(b)`. -/
def Profiler.setOmitRecursiveCalls (P : Profiler) (b : Bool) : Profiler :=
  { P with m_omitRecursiveCalls := b }

/-- `Profiler::getOmitRecursiveCalls()`. -/
def Profiler.getOmitRecursiveCalls (P : Profiler) : Bool := P.m_omitRecursiveCalls

/-- `Profiler::pushProfile(p)`. -/
def Profiler.pushProfile (P : Profiler) (p : Nat) : Profiler :=
  { P with m_profileStack := P.m_profileStack ++ [p] }

/-- `Profiler::popProfile()`. -/
def Profiler.popProfile (P : Profiler) : Profiler :=
  if P.m_profileStack.isEmpty then P
  else { P with m_profileStack := P.m_profileStack.dropLast }

/-- The name read through a `Profile*`. -/
def Profiler.nameOf (P : Profiler) (p : Nat) : Option String :=
  (P.heap[p]?).map Profile.getName

/-- `Profiler::isInStack(name)`: linear scan of the stack by name. -/
def Profiler.isInStack (P : Profiler) (name : String) : Bool :=
  P.m_profileStack.any (fun p => P.nameOf p == some name)

/-- `Profiler::getCurrentProfilesRoot()`.  The map reference it returns is
represented by its owner: `none` for `m_profiles`, `some p` for the
`m_subProfiles` of record `p` (the `back()` of the stack). -/
def Profiler.getCurrentProfilesRoot (P : Profiler) : Option Nat :=
  P.m_profileStack.getLast?

/-- Read the map behind a map reference. -/
def Profiler.readMap (P : Profiler) : Option Nat → ProfileMap
  | none => P.m_profiles
  | some p => match P.heap[p]? with
    | some r => r.getSubProfiles
    | none => []

/-- Assign to the map behind a map reference. -/
def Profiler.writeMap (P : Profiler) (m : ProfileMap) : Option Nat → Profiler
  | none => { P with m_profiles := m }
  | some p => P.modifyProfile p (fun r => { r with m_subProfiles := m })

/-- `Profiler::getProfile(name)`: find the record in the current map or
allocate it there.  The result is the `Profile*` (never `NULL`). -/
def Profiler.getProfile (mode : Mode) (P : Profiler) (name : String) :
    Option Nat × Profiler :=
  let profiles : Option Nat :=
    match mode with
    | .callGraph => P.getCurrentProfilesRoot
    | .flat => none
  match (P.readMap profiles).find name with
  | some it => (some it, P)
  | none =>
    let result := P.heap.length
    let P1 := { P with heap := P.heap ++ [Profile.ctor name] }
    (some result, P1.writeMap ((P.readMap profiles).insert name result) profiles)

/-- `Profile::start()` on the record `self`; `now` is the clock reading taken
by `m_timer.start()`. -/
def Profile.start (mode : Mode) (P : Profiler) (self : Nat) (now : Int) : Bool × Profiler :=
  match mode with
  | .callGraph =>
    let P1 := P.pushProfile self
    (true, P1.modifyProfile self (fun r => { r with m_timer := r.m_timer.start now }))
  | .flat =>
    if (P.heap[self]?).any (fun r => r.m_timeStarted) then (false, P)
    else
      (true, P.modifyProfile self
        (fun r => { r with m_timeStarted := true, m_timer := r.m_timer.start now }))

/-- The tail of `Profile::stop()`: `m_timer.stop()`, `m_wallTime += m_timer.getElapsedTime()`,
`++m_callCount`.  The timer has just been stopped, so `getElapsedTime` does not
read the clock again; `+=` is the addition of `double`s. -/
def Profile.accumulate (r : Profile) (now : Int) : Profile :=
  let tm := r.m_timer.stop now
  { r with m_timer := tm,
           m_wallTime := TimeArith.add r.m_wallTime (tm.getElapsedTime now),
           m_callCount := (r.m_callCount + 1) % UINT_RANGE }

/-- `Profile::stop()` on the record `self`; `now` is the clock reading taken
by `m_timer.stop()`. -/
def Profile.stop (mode : Mode) (P : Profiler) (self : Nat) (now : Int) : Bool × Profiler :=
  match mode with
  | .callGraph =>
    let P1 := P.popProfile
    (true, P1.modifyProfile self (fun r => r.accumulate now))
  | .flat =>
    if (P.heap[self]?).any (fun r => r.m_timeStarted) then
      (true, P.modifyProfile self
        (fun r => { r with m_timeStarted := false }.accumulate now))
    else (false, P)

/-! ## ScopedProfile -/

/-- Fields of `class ScopedProfile`; `none` is `NULL`. -/
structure ScopedProfile where
  m_profile : Option Nat
deriving DecidableEq, Repr

/-- The marker put in front of the name of a recursive activation. -/
def RECURSIVE_MARK : String := "RECURSIVE@"

/-- `ScopedProfile::ScopedProfile(name)`; `now` is the clock reading taken if
the record is started. -/
def ScopedProfile.ctor (mode : Mode) (P : Profiler) (name : String) (now : Int) :
    ScopedProfile × Profiler :=
  let inStack : Bool :=
    match mode with
    | .callGraph => P.isInStack name
    | .flat => false
  if inStack && P.getOmitRecursiveCalls then ({ m_profile := none }, P)
  else
    let n := if inStack then RECURSIVE_MARK ++ name else name
    match P.getProfile mode n with
    | (some p, P1) =>
      match Profile.start mode P1 p now with
      | (true, P2) => ({ m_profile := some p }, P2)
      | (false, P2) => ({ m_profile := none }, P2)
    | (none, P1) => ({ m_profile := none }, P1)

/-- `ScopedProfile::~ScopedProfile()`; `now` is the clock reading taken if the
record is stopped. -/
def ScopedProfile.dtor (mode : Mode) (g : ScopedProfile) (P : Profiler) (now : Int) : Profiler :=
  match g.m_profile with
  | some p => (Profile.stop mode P p now).2
  | none => P

/-! ## Instrumented executions -/

/-- What an instrumented program does to the profiler: a scope with a
`PROFINY_..._SCOPE` macro is entered, the innermost such scope is left, or
`SET_OMIT_RECURSIVE_CALLS` is called.  `now` is the clock reading at that moment. -/
inductive Event where
  | enter (name : String) (now : Int)
  | leave (now : Int)
  | setOmit (b : Bool)
deriving DecidableEq, Repr

/-- The profiler together with the guards that are alive, innermost first
(automatic objects are destroyed in reverse order of construction). -/
structure Exec where
  profiler : Profiler
  guards : List ScopedProfile
deriving DecidableEq, Repr

/-- The state before the first instrumented scope is entered. -/
def Exec.init : Exec := { profiler := Profiler.ctor, guards := [] }

/-- One event.  Leaving with no live guard does nothing; in flat mode
`SET_OMIT_RECURSIVE_CALLS` expands to nothing. -/
def step (mode : Mode) (s : Exec) : Event → Exec
  | .enter name now =>
    let r := ScopedProfile.ctor mode s.profiler name now
    { profiler := r.2, guards := r.1 :: s.guards }
  | .leave now =>
    match s.guards with
    | [] => s
    | g :: rest => { profiler := g.dtor mode s.profiler now, guards := rest }
  | .setOmit b =>
    match mode with
    | .callGraph => { s with profiler := s.profiler.setOmitRecursiveCalls b }
    | .flat => s

/-- Run a sequence of events. -/
def run (mode : Mode) (s : Exec) (tr : List Event) : Exec :=
  tr.foldl (step mode) s

/-! ## Auxiliary notions used to state the properties -/

/-- A guard is active when it holds a record (`m_profile != NULL`); an inert
guard does nothing when it is destroyed. -/
def ScopedProfile.active (g : ScopedProfile) : Bool := g.m_profile.isSome

/-- A call of `Profile::start()` or `Profile::stop()` on the record `self` at
clock reading `now`. -/
inductive Call where
  | start (self : Nat) (now : Int)
  | stop (self : Nat) (now : Int)
deriving DecidableEq, Repr

/-- The record a call is made on. -/
def Call.target : Call → Nat
  | .start self _ => self
  | .stop self _ => self

/-- The profiler after a call. -/
def Call.apply (mode : Mode) (P : Profiler) : Call → Profiler
  | .start self now => (Profile.start mode P self now).2
  | .stop self now => (Profile.stop mode P self now).2

/-- The profiler after a sequence of calls. -/
def applyCalls (mode : Mode) (P : Profiler) (cs : List Call) : Profiler :=
  cs.foldl (Call.apply mode) P

/-- A profiler whose only record, `g`, is on the stack. -/
def witnessOnStack : Profiler :=
  { heap := [Profile.ctor "g"], m_profiles := [("g", 0)], m_profileStack := [0],
    m_omitRecursiveCalls := true }

/-- A flat-mode profiler whose only record, `g`, is running since clock reading 3. -/
def witnessRunning : Profiler :=
  { heap := [{ Profile.ctor "g" with m_timeStarted := true, m_timer := Timer.ctor.start 3 }],
    m_profiles := [("g", 0)], m_profileStack := [], m_omitRecursiveCalls := true }

/-- A flat-mode profiler with a stopped record `f` and a second record `g`. -/
def witnessTwoRecords : Profiler :=
  { heap := [{ Profile.ctor "f" with m_callCount := 4, m_wallTime := 10 }, Profile.ctor "g"],
    m_profiles := [("f", 0), ("g", 1)], m_profileStack := [], m_omitRecursiveCalls := true }

/-- Shape of the profiler while a region `g` recurses with recursive calls
marked: `k` records form a chain (`g`, then `RECURSIVE@g` nested in it, and so
on), the first `m` of them are on the stack and the others have completed one
activation. -/
def RecChain (g : String) (k m : Nat) (P : Profiler) : Prop :=
  P.heap.length = k ∧ P.m_profileStack = List.range m ∧ P.m_profiles = [(g, 0)] ∧
  P.m_omitRecursiveCalls = false ∧
  ∀ i, i < k → ∃ r, P.heap[i]? = some r ∧
    r.m_name = (if i = 0 then g else RECURSIVE_MARK ++ g) ∧
    r.m_subProfiles = (if i + 1 < k then [(RECURSIVE_MARK ++ g, i + 1)] else []) ∧
    r.m_callCount = (if i < m then 0 else 1)

/-- The shape of the execution: the profiler as in `RecChain` and one active
guard for each record on the stack. -/
def RecExec (g : String) (k m : Nat) (s : Exec) : Prop :=
  RecChain g k m s.profiler ∧
  s.guards = (List.range m).reverse.map (fun i => { m_profile := some i })

/-- The record of region `name` in flat mode: the one stored under `name` in
`m_profiles`. -/
def Profiler.lookup (P : Profiler) (name : String) : Option Profile :=
  match P.m_profiles.find name with
  | some p => P.heap[p]?
  | none => none

/-- The call count reported for region `name` in flat mode (0 when the region
has no record). -/
def Profiler.callCountOf (P : Profiler) (name : String) : Nat :=
  match P.lookup name with
  | some r => r.getCallCount
  | none => 0

/-- The wall time reported for region `name` in flat mode (0 when the region
has no record). -/
def Profiler.wallTimeOf (P : Profiler) (name : String) : Int :=
  match P.lookup name with
  | some r => r.getTimes
  | none => 0

/-- Activations of one region that do not overlap: each pair is the clock
reading at the construction of a guard and the reading at its destruction,
and every guard is destroyed before the next one is constructed. -/
def sequentialCalls (name : String) : List (Int × Int) → List Event
  | [] => []
  | (t0, t1) :: rest => Event.enter name t0 :: Event.leave t1 :: sequentialCalls name rest

/-- The wall time a record with wall time `w` has after the activations
`acts` (pairs of the clock readings at start and at stop):
`m_wallTime += m_timer.getElapsedTime()` once per activation, in order, where
the elapsed time is the reading at stop minus the reading at start; both
operations are those of the clock's number type. -/
def totalElapsed (w : Int) (acts : List (Int × Int)) : Int :=
  acts.foldl (fun w a => TimeArith.add w (TimeArith.sub a.2 a.1)) w

/-- A sequence of events is well nested and fully closed when every `leave`
closes a scope opened before it and no scope is left open; `depth` is the
number of scopes open at the start. -/
def closes : Nat → List Event → Bool
  | depth, [] => depth == 0
  | depth, .enter _ _ :: tr => closes (depth + 1) tr
  | 0, .leave _ :: _ => false
  | depth + 1, .leave _ :: tr => closes depth tr
  | depth, .setOmit _ :: tr => closes depth tr

/-- The number of activations of `name` in `tr` that are opened while no other
activation of `name` is open; `opened` holds the names of the scopes open at
the start, innermost first. -/
def outermostOpens (name : String) : List String → List Event → Nat
  | _, [] => 0
  | opened, .enter n _ :: tr =>
    (if n = name ∧ name ∉ opened then 1 else 0) + outermostOpens name (n :: opened) tr
  | opened, .leave _ :: tr => outermostOpens name opened.tail tr
  | opened, .setOmit _ :: tr => outermostOpens name opened tr

/-- The demo program `main.cpp`: `main` calls `f` twice, then `g(9)`, then
`h1(9)`; scopes are named by `PROFINY_SCOPE` (function and line) and the
`i`-th event happens at clock reading `clock i`. -/
def demoMain (clock : Nat → Int) : List Event :=
  [ .enter "main:53" (clock 0), .setOmit false,
    .enter "f:8" (clock 1), .leave (clock 2),
    .enter "f:8" (clock 3), .leave (clock 4),
    .enter "g:23" (clock 5), .enter "g:23" (clock 6), .enter "g:23" (clock 7),
    .enter "g:23" (clock 8), .enter "g:23" (clock 9), .enter "g:23" (clock 10),
    .enter "g:23" (clock 11), .enter "g:23" (clock 12), .enter "g:23" (clock 13),
    .leave (clock 14), .leave (clock 15), .leave (clock 16), .leave (clock 17),
    .leave (clock 18), .leave (clock 19), .leave (clock 20), .leave (clock 21),
    .leave (clock 22),
    .enter "h1:37" (clock 23), .enter "h2:45" (clock 24), .enter "h1:37" (clock 25),
    .enter "h2:45" (clock 26), .enter "h1:37" (clock 27), .enter "h2:45" (clock 28),
    .enter "h1:37" (clock 29), .enter "h2:45" (clock 30), .enter "h1:37" (clock 31),
    .leave (clock 32), .leave (clock 33), .leave (clock 34), .leave (clock 35),
    .leave (clock 36), .leave (clock 37), .leave (clock 38), .leave (clock 39),
    .leave (clock 40),
    .leave (clock 41) ]

/-- In flat mode the guard of an open scope holds the record of its region
exactly when no enclosing open scope has the same name; `names` are the names
of the open scopes, innermost first, parallel to the guards. -/
def FlatGuards (m : ProfileMap) : List ScopedProfile → List String → Prop
  | [], [] => True
  | g :: G, n :: ns => g.m_profile = (if n ∈ ns then none else m.find n) ∧ FlatGuards m G ns
  | [], _ :: _ => False
  | _ :: _, [] => False

/-- The invariant of flat-mode executions; `opened` are the names of the open
scopes, innermost first. -/
structure FlatInv (P : Profiler) (G : List ScopedProfile) (opened : List String) : Prop where
  valid : ∀ name p, P.m_profiles.find name = some p →
    ∃ r, P.heap[p]? = some r ∧ r.m_name = name
  present : ∀ name, name ∈ opened → P.m_profiles.find name ≠ none
  running : ∀ name p r, P.m_profiles.find name = some p → P.heap[p]? = some r →
    (r.m_timeStarted = true ↔ name ∈ opened)
  bounded : ∀ (p : Nat) r, P.heap[p]? = some r → r.m_callCount < UINT_RANGE
  guards : FlatGuards P.m_profiles G opened

/-- The names of the open scopes after an event. -/
def openedStep (opened : List String) : Event → List String
  | .enter n _ => n :: opened
  | .leave _ => opened.tail
  | .setOmit _ => opened

/-- The call count of a region plus one if one of its activations is being timed. -/
def pendingCount (P : Profiler) (opened : List String) (name : String) : Nat :=
  P.callCountOf name + (if name ∈ opened then 1 else 0)

/-- The events of `g(9)` in the demo: nine nested activations of `g`; the
`i`-th event happens at clock reading `clock i`. -/
def demoG (clock : Nat → Int) : List Event :=
  [ .enter "g:23" (clock 0), .enter "g:23" (clock 1), .enter "g:23" (clock 2),
    .enter "g:23" (clock 3), .enter "g:23" (clock 4), .enter "g:23" (clock 5),
    .enter "g:23" (clock 6), .enter "g:23" (clock 7), .enter "g:23" (clock 8),
    .leave (clock 9), .leave (clock 10), .leave (clock 11), .leave (clock 12),
    .leave (clock 13), .leave (clock 14), .leave (clock 15), .leave (clock 16),
    .leave (clock 17) ]

/-- The events of `h1(9)` in the demo: `h1(9)` calls `h2(8)`, which calls
`h1(7)`, and so on down to `h1(1)`. -/
def demoH (clock : Nat → Int) : List Event :=
  [ .enter "h1:37" (clock 0), .enter "h2:45" (clock 1), .enter "h1:37" (clock 2),
    .enter "h2:45" (clock 3), .enter "h1:37" (clock 4), .enter "h2:45" (clock 5),
    .enter "h1:37" (clock 6), .enter "h2:45" (clock 7), .enter "h1:37" (clock 8),
    .leave (clock 9), .leave (clock 10), .leave (clock 11), .leave (clock 12),
    .leave (clock 13), .leave (clock 14), .leave (clock 15), .leave (clock 16),
    .leave (clock 17) ]

/-- An event that destroys a guard. -/
def Event.isLeave : Event → Bool
  | .leave _ => true
  | _ => false

/-- The number of guard destructions in a sequence of events. -/
def destructions (tr : List Event) : Nat := (tr.filter Event.isLeave).length

/-- Every record of the free store `h'` has the call count and wall time it
has in `h`, or is a new record with call count 0 and wall time 0. -/
def CountsKept (h h' : List Profile) : Prop :=
  ∀ (p : Nat) (r' : Profile), h'[p]? = some r' →
    (∃ r, h[p]? = some r ∧ r'.m_callCount = r.m_callCount ∧ r'.m_wallTime = r.m_wallTime) ∨
    (r'.m_callCount = 0 ∧ r'.m_wallTime = 0)

/-- No record has completed more than `k` activations, and a record with call
count 0 has wall time 0. -/
def CountsSound (h : List Profile) (k : Nat) : Prop :=
  ∀ (p : Nat) (r : Profile), h[p]? = some r →
    r.m_callCount ≤ k ∧ (r.m_callCount = 0 → r.m_wallTime = 0)

/-! ## Call-graph mode: the record tree and the call paths -/

/-- The record reached from the map `m` by following the names of `path`
through the child maps. -/
def Profiler.walk (P : Profiler) : ProfileMap → List String → Option Nat
  | _, [] => none
  | m, n :: rest =>
    match m.find n with
    | none => none
    | some a =>
      match rest with
      | [] => some a
      | _ :: _ =>
        match P.heap[a]? with
        | none => none
        | some r => P.walk r.m_subProfiles rest

/-- The node of the record tree at a call path: the path is followed from the
root map `m_profiles`. -/
def Profiler.nodeAt (P : Profiler) (path : List String) : Option Nat :=
  P.walk P.m_profiles path

/-- The call paths of the activations opened in `tr`, in order; the call path
of an activation is the sequence of names from the outermost open guard down
to the activation, and `cur` holds the names of the guards open at the start,
outermost first. -/
def callPaths : List String → List Event → List (List String)
  | _, [] => []
  | cur, .enter n _ :: tr => (cur ++ [n]) :: callPaths (cur ++ [n]) tr
  | cur, .leave _ :: tr => callPaths cur.dropLast tr
  | cur, .setOmit _ :: tr => callPaths cur tr

/-- No region is opened in `tr` while an activation of the same name is open;
`cur` holds the names of the guards open at the start. -/
def nonRecursive : List String → List Event → Bool
  | _, [] => true
  | cur, .enter n _ :: tr => !(cur.contains n) && nonRecursive (cur ++ [n]) tr
  | cur, .leave _ :: tr => nonRecursive cur.dropLast tr
  | cur, .setOmit _ :: tr => nonRecursive cur tr

/-- The names of the open guards after the events of `tr`. -/
def openAfter : List String → List Event → List String
  | cur, [] => cur
  | cur, .enter n _ :: tr => openAfter (cur ++ [n]) tr
  | cur, .leave _ :: tr => openAfter cur.dropLast tr
  | cur, .setOmit _ :: tr => openAfter cur tr

/-- The free store and the maps represent a set of call paths: `paths` lists
the call path of every record, in order of allocation. -/
structure TreeRep (P : Profiler) (paths : List (List String)) : Prop where
  len : paths.length = P.heap.length
  names : ∀ (a : Nat) (r : Profile) (π : List String),
    P.heap[a]? = some r → paths[a]? = some π → π.getLast? = some r.m_name
  root : ∀ (n : String) (b : Nat), P.m_profiles.find n = some b ↔ paths[b]? = some [n]
  subs : ∀ (a : Nat) (r : Profile) (π : List String),
    P.heap[a]? = some r → paths[a]? = some π →
    ∀ (n : String) (b : Nat), r.m_subProfiles.find n = some b ↔ paths[b]? = some (π ++ [n])
  closed : ∀ (b : Nat) (π : List String) (n : String),
    paths[b]? = some (π ++ [n]) → π ≠ [] → ∃ a : Nat, paths[a]? = some π
  inj : ∀ (a b : Nat) (π : List String), paths[a]? = some π → paths[b]? = some π → a = b

/-- The activation stack `stack` holds the records of the nonempty initial
segments of the current call path `cur`, outermost first. -/
inductive StackOn (paths : List (List String)) : List Nat → List String → Prop
  | nil : StackOn paths [] []
  | snoc {st : List Nat} {cur : List String} (a : Nat) (n : String) :
      StackOn paths st cur → paths[a]? = some (cur ++ [n]) →
      StackOn paths (st ++ [a]) (cur ++ [n])

/-- The invariant of call-graph executions: the free store and the maps
represent the call paths `paths`; the stack holds the records along the
current call path `cur`; the active guards hold the records of the stack,
innermost first; `hist` lists the call paths of the activations started so
far, and the call count of a record plus one if it is on the stack is the
number of activations on its call path, modulo `2 ^ 32`. -/
structure GraphInv (s : Exec) (paths hist : List (List String)) (cur : List String) :
    Prop where
  rep : TreeRep s.profiler paths
  stack : StackOn paths s.profiler.m_profileStack cur
  guards : s.guards.filterMap (fun g => g.m_profile) = s.profiler.m_profileStack.reverse
  hist_iff : ∀ π : List String, π ∈ paths ↔ π ∈ hist
  counts : ∀ (a : Nat) (r : Profile) (π : List String),
    s.profiler.heap[a]? = some r → paths[a]? = some π →
    (r.m_callCount + (if a ∈ s.profiler.m_profileStack then 1 else 0)) % UINT_RANGE =
      hist.count π % UINT_RANGE
  bounded : ∀ (a : Nat) (r : Profile), s.profiler.heap[a]? = some r →
    r.m_callCount < UINT_RANGE

/-- A call-graph profiler with the record `main` on the stack and one child `f`. -/
def witnessResolve : Profiler :=
  { heap := [{ Profile.ctor "main" with m_subProfiles := [("f", 1)] }, Profile.ctor "f"],
    m_profiles := [("main", 0)], m_profileStack := [0], m_omitRecursiveCalls := true }

/-- Every entry of the root map and of the child maps of `P` is still there in
`P'`, and every record of `P` is a record of `P'` with the same name. -/
def MapsGrow (P P' : Profiler) : Prop :=
  (∀ (k : String) (v : Nat), P.m_profiles.find k = some v → P'.m_profiles.find k = some v) ∧
  (∀ (a : Nat) (r : Profile), P.heap[a]? = some r →
    ∃ r', P'.heap[a]? = some r' ∧ r'.m_name = r.m_name ∧
      ∀ (k : String) (v : Nat), r.m_subProfiles.find k = some v →
        r'.m_subProfiles.find k = some v)

/-- The invariant behind the balance of flat-mode executions: `N` are the
guards constructed since a state in which no record was running; every
pointer of the root map and of these guards is inside the free store; a
record is running exactly when one of these guards holds it, and no two of
them hold the same record. -/
structure FlatBalance (P : Profiler) (N : List ScopedProfile) : Prop where
  valid : ∀ (name : String) (p : Nat), P.m_profiles.find name = some p → p < P.heap.length
  held : ∀ p : Nat, p ∈ N.filterMap (fun g => g.m_profile) → p < P.heap.length
  running : ∀ (a : Nat) (r : Profile), P.heap[a]? = some r →
    (r.m_timeStarted = true ↔ a ∈ N.filterMap (fun g => g.m_profile))
  nodup : (N.filterMap (fun g => g.m_profile)).Nodup

/-- The nested activations of two mutually recursive regions, as `h1` and `h2`
of the demo: `h1` is entered, inside it `h2`, inside it `h1` again, and so on;
`ts` holds the clock readings of the guard constructions. -/
def alternating (h1 h2 : String) : List Int → List Event
  | [] => []
  | t :: ts => Event.enter h1 t :: alternating h2 h1 ts

/-- The region entered at nesting depth `i` of `alternating h1 h2`. -/
def altName (h1 h2 : String) (i : Nat) : String := if i % 2 = 0 then h1 else h2

/-- The names along the chain of records of `alternating h1 h2` when recursive
calls are marked: the first two activations keep their names, the later ones
carry the mark. -/
def chainPath (h1 h2 : String) (k : Nat) : List String :=
  (List.range k).map
    (fun i => if i < 2 then altName h1 h2 i else RECURSIVE_MARK ++ altName h1 h2 i)

/-! ## The report -/

/-- One line of the report: `oss.str()` (the indentation), the name, then
`T(s):` with the wall time, `#:` with the call count and `A(ms):` with
`wall * 1000 / cc`.  The average is kept as the two operands of the division
the code evaluates. -/
structure ReportLine where
  indent : String
  name : String
  wall : Int
  cc : Nat
  dividend : Int
  divisor : Nat
deriving DecidableEq, Repr

/-- What `printStats` has done so far: the lines sent to the stream `fs`, in
order, and the records destroyed with `delete`, in order. -/
structure PrintState where
  fs : List ReportLine
  freed : List Nat
deriving DecidableEq, Repr

/-- The loop that fills `oss` with `depth` tab characters. -/
def tabs (depth : Nat) : String :=
  (List.range depth).foldl (fun oss _ => oss ++ "\t") ""

/-- The line written for the record `r` by `printStats(fs, p, depth)`; in flat
mode there is no `oss`. -/
def Profiler.printLine (mode : Mode) (r : Profile) (depth : Nat) : ReportLine :=
  let cc := r.getCallCount
  let wall := r.getTimes
  { indent :=
      match mode with
      | .callGraph => tabs depth
      | .flat => "",
    name := r.getName, wall := wall, cc := cc, dividend := wall * 1000, divisor := cc }

/-- The loop `for (it = p->begin(); it != p->end(); ++it)`: the body is run
on the entries in the order of the map; `none` is undefined behaviour. -/
def forEntries (body : PrintState → String × Nat → Option PrintState) :
    ProfileMap → PrintState → Option PrintState
  | [], st => some st
  | it :: rest, st =>
    match body st it with
    | none => none
    | some st1 => forEntries body rest st1

/-- The body of the loop of `printStats(fs, p, depth)` for the entry `it`:
the line of the record, in call-graph mode the report of its child map
(`sub`, the recursive call) one level deeper, then `delete it->second`.
Reading a record that has been deleted, or through a pointer outside the free
store, is undefined behaviour (`none`). -/
def Profiler.printEntry (mode : Mode) (P : Profiler)
    (sub : ProfileMap → Nat → PrintState → Option PrintState) (depth : Nat)
    (st : PrintState) (it : String × Nat) : Option PrintState :=
  if it.2 ∈ st.freed then none
  else
    match P.heap[it.2]? with
    | none => none
    | some r =>
      let st1 : PrintState := { st with fs := st.fs ++ [Profiler.printLine mode r depth] }
      let st2 : Option PrintState :=
        match mode with
        | .callGraph => sub r.getSubProfiles (depth + 1) st1
        | .flat => some st1
      match st2 with
      | none => none
      | some st3 => some { st3 with freed := st3.freed ++ [it.2] }

/-- `Profiler::printStats(fs, p, depth)`.  The first argument bounds the depth
of the recursion (the result is `none` when it is used up). -/
def Profiler.printStatsMap (mode : Mode) (P : Profiler) :
    Nat → ProfileMap → Nat → PrintState → Option PrintState
  | 0, _, _, _ => none
  | fuel + 1, p, depth, st =>
    forEntries (P.printEntry mode (P.printStatsMap mode fuel) depth) p st

/-- `Profiler::printStats(filename)`: `isOpen` tells whether the file could be
opened (if not, nothing is written and no record is touched); `freed` are the
records deleted before the call.  The recursion can go as deep as there are
records. -/
def Profiler.printStats (mode : Mode) (P : Profiler) (isOpen : Bool) (freed : List Nat) :
    Option PrintState :=
  if !isOpen then some { fs := [], freed := freed }
  else P.printStatsMap mode (P.heap.length + 1) P.m_profiles 0 { fs := [], freed := freed }

/-- The keys of a map are in strictly ascending order, compared as
`std::less<std::string>` does: the order in which a `std::map` is iterated. -/
def ProfileMap.Sorted (m : ProfileMap) : Prop :=
  m.Pairwise (fun a b => a.1.data < b.1.data)

/-- The root map and the child map of every record list their entries in
ascending order of name. -/
def SortedMaps (P : Profiler) : Prop :=
  P.m_profiles.Sorted ∧
  ∀ (a : Nat) (r : Profile), P.heap[a]? = some r → r.m_subProfiles.Sorted

/-- The records form a tree that `printStats` can report: the free store and
the maps represent the call paths `paths`, the maps are in ascending order of
name, and in flat mode no record has children. -/
structure ReportInv (mode : Mode) (P : Profiler) (paths : List (List String)) : Prop where
  rep : TreeRep P paths
  sorted : SortedMaps P
  flat : mode = .flat → ∀ (a : Nat) (r : Profile), P.heap[a]? = some r → r.m_subProfiles = []

/-- The line expected for the record `b` of a tree: its depth is the length
of its call path minus one. -/
def Profiler.lineOf (mode : Mode) (P : Profiler) (paths : List (List String)) (b : Nat) :
    Option ReportLine :=
  match P.heap[b]?, paths[b]? with
  | some r, some π => some (Profiler.printLine mode r (π.length - 1))
  | _, _ => none

/-- The lines `printStats(fs, p, depth)` writes for the map `m` when no record
has been deleted (no line when the behaviour is undefined). -/
def Profiler.report (mode : Mode) (P : Profiler) (m : ProfileMap) (depth : Nat) :
    List ReportLine :=
  match P.printStatsMap mode (P.heap.length + 1) m depth { fs := [], freed := [] } with
  | some st => st.fs
  | none => []

/-- The policy flag stays true throughout `tr`: no event sets
`omitRecursiveCalls` to false (the flag is true initially). -/
def keepsOmitting : List Event → Bool
  | [] => true
  | .setOmit b :: tr => b && keepsOmitting tr
  | _ :: tr => keepsOmitting tr

/-- A flat-mode profiler whose record `f` is running since clock reading 0,
after `2 ^ 32 - 1` completed activations with a total wall time of `2 ^ 53`. -/
def witnessSaturated : Profiler :=
  { heap := [{ Profile.ctor "f" with
                m_timeStarted := true, m_callCount := 4294967295,
                m_wallTime := 9007199254740992, m_timer := Timer.ctor.start 0 }],
    m_profiles := [("f", 0)], m_profileStack := [], m_omitRecursiveCalls := true }

/-- The events that lead into a skipped recursive activation of `f` after the
region `k` has completed `n` activations inside `f`: `f` is entered, `k` is
entered and left `n` times, and `f` is entered again. -/
def skippedAfter (n : Nat) : List Event :=
  Event.enter "f" 0 :: (sequentialCalls "k" (List.replicate n (0, 1)) ++ [Event.enter "f" 1])

end

/-! ## The arithmetic of `double` on whole numbers -/

/-- The number of bits the natural number `n` has beyond the 53 bits of the
significand of a `double`; `fuel` bounds the count. -/
def excessBits : Nat → Nat → Nat
  | 0, _ => 0
  | fuel + 1, n => if n < 2 ^ 53 then 0 else excessBits fuel (n / 2) + 1

/-- The `double` nearest to the natural number `n` (round to nearest, ties to
even, the rounding of IEEE 754 arithmetic): `n` keeps its 53 leading bits.
Finite `double`s are below `2 ^ 1024`; overflow is not modelled. -/
def roundNat (n : Nat) : Nat :=
  let e := excessBits 1100 n
  let q := n / 2 ^ e
  let rem := n % 2 ^ e
  if 2 * rem < 2 ^ e then q * 2 ^ e
  else if 2 * rem = 2 ^ e ∧ q % 2 = 0 then q * 2 ^ e
  else (q + 1) * 2 ^ e

/-- The `double` nearest to the integer `x`. -/
def roundDouble (x : Int) : Int :=
  if 0 ≤ x then (roundNat x.toNat : Int) else - (roundNat (-x).toNat : Int)

/-- The arithmetic of `double` on readings that are whole numbers: the exact
result, correctly rounded.  It is the instance at which concrete executions
are evaluated. -/
instance (priority := low) doubleArith : TimeArith :=
  { add := fun a b => roundDouble (a + b), sub := fun a b => roundDouble (a - b) }

section

variable [TimeArith]

/-! ## Basic facts about the free store and the maps -/

theorem length_modifyAt {α : Type} (f : α → α) (l : List α) (p : Nat) :
    (modifyAt f l p).length = l.length := by
  induction l generalizing p with
  | nil => rfl
  | cons x xs ih => cases p <;> simp [modifyAt, ih]

theorem getElem?_modifyAt {α : Type} (f : α → α) (l : List α) (p q : Nat) :
    (modifyAt f l p)[q]? = if q = p then (l[q]?).map f else l[q]? := by
  induction l generalizing p q with
  | nil => simp [modifyAt]
  | cons x xs ih =>
    cases p with
    | zero => cases q <;> simp [modifyAt]
    | succ p => cases q <;> simp [modifyAt, ih]

theorem getElem?_modifyAt_self {α : Type} (f : α → α) (l : List α) (p : Nat) :
    (modifyAt f l p)[p]? = (l[p]?).map f := by
  simp [getElem?_modifyAt]

theorem getElem?_modifyAt_ne {α : Type} (f : α → α) (l : List α) {p q : Nat} (h : q ≠ p) :
    (modifyAt f l p)[q]? = l[q]? := by
  simp [getElem?_modifyAt, h]

theorem find_insert (m : ProfileMap) (name : String) (result : Nat) (k : String) :
    (m.insert name result).find k = if name = k then some result else m.find k := by
  induction m with
  | nil => simp [ProfileMap.insert, ProfileMap.find]
  | cons hd rest ih =>
    obtain ⟨k0, v0⟩ := hd
    simp only [ProfileMap.insert]
    split
    · simp [ProfileMap.find]
    · split
      · rename_i _ h
        subst h
        simp only [ProfileMap.find]
        split <;> rfl
      · rename_i _ h
        simp only [ProfileMap.find, ih]
        by_cases h1 : k0 = k
        · have : ¬ name = k := fun h2 => h (h1.trans h2.symm)
          simp [h1, this]
        · simp [h1]

theorem isInStack_iff (P : Profiler) (name : String) :
    P.isInStack name = true ↔
      ∃ p ∈ P.m_profileStack, ∃ r, P.heap[p]? = some r ∧ r.m_name = name := by
  simp only [Profiler.isInStack, List.any_eq_true, Profiler.nameOf, beq_iff_eq,
    Option.map_eq_some', Profile.getName]

/-! ## Single operations -/

theorem dtor_inert (mode : Mode) (P : Profiler) (now : Int) :
    ScopedProfile.dtor mode { m_profile := none } P now = P := rfl

theorem ctor_omitted (P : Profiler) (name : String) (now : Int)
    (hstack : P.isInStack name = true) (homit : P.m_omitRecursiveCalls = true) :
    ScopedProfile.ctor .callGraph P name now = ({ m_profile := none }, P) := by
  simp [ScopedProfile.ctor, hstack, homit, Profiler.getOmitRecursiveCalls]

theorem flat_start_fst (P : Profiler) (p : Nat) (r : Profile) (now : Int)
    (hp : P.heap[p]? = some r) :
    (Profile.start .flat P p now).1 = !r.m_timeStarted := by
  cases h : r.m_timeStarted <;> simp [Profile.start, hp, h]

theorem flat_stop_fst (P : Profiler) (p : Nat) (r : Profile) (now : Int)
    (hp : P.heap[p]? = some r) :
    (Profile.stop .flat P p now).1 = r.m_timeStarted := by
  cases h : r.m_timeStarted <;> simp [Profile.stop, hp, h]

theorem flat_start_running (P : Profiler) (p : Nat) (r : Profile) (now : Int)
    (hp : P.heap[p]? = some r) (h : r.m_timeStarted = true) :
    Profile.start .flat P p now = (false, P) := by
  simp [Profile.start, hp, h]

theorem flat_stop_idle (P : Profiler) (p : Nat) (r : Profile) (now : Int)
    (hp : P.heap[p]? = some r) (h : r.m_timeStarted = false) :
    Profile.stop .flat P p now = (false, P) := by
  simp [Profile.stop, hp, h]

theorem flat_getProfile_found (P : Profiler) (name : String) (p : Nat)
    (h : P.m_profiles.find name = some p) :
    P.getProfile .flat name = (some p, P) := by
  simp [Profiler.getProfile, Profiler.readMap, h]

theorem flat_ctor_running (P : Profiler) (name : String) (p : Nat) (r : Profile) (now : Int)
    (hfind : P.m_profiles.find name = some p) (hp : P.heap[p]? = some r)
    (h : r.m_timeStarted = true) :
    ScopedProfile.ctor .flat P name now = ({ m_profile := none }, P) := by
  simp [ScopedProfile.ctor, flat_getProfile_found P name p hfind,
    flat_start_running P p r now hp h]

theorem stop_fst_callGraph (P : Profiler) (p : Nat) (now : Int) :
    (Profile.stop .callGraph P p now).1 = true := rfl

theorem start_fst_callGraph (P : Profiler) (p : Nat) (now : Int) :
    (Profile.start .callGraph P p now).1 = true := rfl

theorem start_stack_callGraph (P : Profiler) (p : Nat) (now : Int) :
    (Profile.start .callGraph P p now).2.m_profileStack = P.m_profileStack ++ [p] := rfl

theorem stop_stack_callGraph (P : Profiler) (p : Nat) (now : Int) :
    (Profile.stop .callGraph P p now).2.m_profileStack = P.m_profileStack.dropLast := by
  simp only [Profile.stop, Profiler.modifyProfile, Profiler.popProfile]
  split
  · rename_i h
    simp only [List.isEmpty_iff] at h
    simp [h]
  · rfl

theorem popProfile_heap (P : Profiler) : P.popProfile.heap = P.heap := by
  simp only [Profiler.popProfile]
  split <;> rfl

theorem accumulate_callCount (r : Profile) (now : Int) :
    (r.accumulate now).m_callCount = (r.m_callCount + 1) % UINT_RANGE := rfl

theorem accumulate_wallTime (r : Profile) (now : Int) :
    (r.accumulate now).m_wallTime = TimeArith.add r.m_wallTime (TimeArith.sub now r.m_timer.m_startTime) := by
  simp [Profile.accumulate, Timer.stop, Timer.getElapsedTime]

/-- What a successful `Profile::stop()` does to the free store. -/
theorem stop_heap (mode : Mode) (P : Profiler) (p : Nat) (now : Int)
    (h : (Profile.stop mode P p now).1 = true) :
    (Profile.stop mode P p now).2.heap =
      modifyAt (fun r => { r with m_timeStarted :=
        match mode with
        | .flat => false
        | .callGraph => r.m_timeStarted }.accumulate now) P.heap p := by
  cases mode with
  | callGraph =>
    simp only [Profile.stop, Profiler.modifyProfile, popProfile_heap]
  | flat =>
    simp only [Profile.stop] at h ⊢
    split
    · rfl
    · rename_i h1
      simp [h1] at h

theorem stop_record (mode : Mode) (P : Profiler) (p : Nat) (r : Profile) (now : Int)
    (hp : P.heap[p]? = some r) (h : (Profile.stop mode P p now).1 = true) :
    ∃ r', (Profile.stop mode P p now).2.heap[p]? = some r' ∧
      r'.m_callCount = (r.m_callCount + 1) % UINT_RANGE ∧
      r'.m_wallTime = TimeArith.add r.m_wallTime (TimeArith.sub now r.m_timer.m_startTime) ∧
      r'.m_name = r.m_name ∧ r'.m_subProfiles = r.m_subProfiles := by
  rw [stop_heap mode P p now h, getElem?_modifyAt_self, hp]
  refine ⟨_, rfl, ?_, ?_, rfl, rfl⟩
  · rfl
  · simp [Profile.accumulate, Timer.stop, Timer.getElapsedTime]

theorem stop_other (mode : Mode) (P : Profiler) (p q : Nat) (now : Int) (hq : q ≠ p) :
    (Profile.stop mode P p now).2.heap[q]? = P.heap[q]? := by
  cases mode with
  | callGraph =>
    simp only [Profile.stop, Profiler.modifyProfile, popProfile_heap]
    exact getElem?_modifyAt_ne _ _ hq
  | flat =>
    simp only [Profile.stop]
    split
    · exact getElem?_modifyAt_ne _ _ hq
    · rfl

theorem start_other (mode : Mode) (P : Profiler) (p q : Nat) (now : Int) (hq : q ≠ p) :
    (Profile.start mode P p now).2.heap[q]? = P.heap[q]? := by
  cases mode with
  | callGraph =>
    simp only [Profile.start, Profiler.modifyProfile, Profiler.pushProfile]
    exact getElem?_modifyAt_ne _ _ hq
  | flat =>
    simp only [Profile.start]
    split
    · rfl
    · exact getElem?_modifyAt_ne _ _ hq

/-- What a successful `Profile::start()` does to the record. -/
theorem start_record (mode : Mode) (P : Profiler) (p : Nat) (r : Profile) (now : Int)
    (hp : P.heap[p]? = some r) (h : (Profile.start mode P p now).1 = true) :
    ∃ r', (Profile.start mode P p now).2.heap[p]? = some r' ∧
      r'.m_timer.m_startTime = now ∧ r'.m_callCount = r.m_callCount ∧
      r'.m_wallTime = r.m_wallTime ∧ r'.m_name = r.m_name ∧
      r'.m_subProfiles = r.m_subProfiles ∧
      (mode = .flat → r'.m_timeStarted = true) := by
  cases mode with
  | callGraph =>
    simp only [Profile.start, Profiler.modifyProfile, Profiler.pushProfile,
      getElem?_modifyAt_self, hp]
    exact ⟨_, rfl, rfl, rfl, rfl, rfl, rfl, fun h => by cases h⟩
  | flat =>
    simp only [Profile.start] at h ⊢
    split
    · rename_i h1
      simp [h1] at h
    · simp only [Profiler.modifyProfile, getElem?_modifyAt_self, hp]
      exact ⟨_, rfl, rfl, rfl, rfl, rfl, rfl, fun _ => rfl⟩

theorem applyCalls_other (mode : Mode) (cs : List Call) (P : Profiler) (p : Nat)
    (h : ∀ c ∈ cs, c.target ≠ p) :
    (applyCalls mode P cs).heap[p]? = P.heap[p]? := by
  induction cs generalizing P with
  | nil => rfl
  | cons c cs ih =>
    have hc : c.target ≠ p := h c (List.mem_cons_self _ _)
    have ih' := ih (Call.apply mode P c) (fun c' hc' => h c' (List.mem_cons_of_mem _ hc'))
    simp only [applyCalls, List.foldl_cons] at ih' ⊢
    rw [ih']
    cases c with
    | start self now => exact start_other mode P self p now (Ne.symm hc)
    | stop self now => exact stop_other mode P self p now (Ne.symm hc)

/-- A stop that follows a successful start succeeds. -/
theorem stop_fst_of_started (mode : Mode) (P : Profiler) (p : Nat) (r : Profile) (now : Int)
    (hp : P.heap[p]? = some r) (h : mode = .flat → r.m_timeStarted = true) :
    (Profile.stop mode P p now).1 = true := by
  cases mode with
  | callGraph => rfl
  | flat => simp [Profile.stop, hp, h rfl]

/-! ## Guards and the activation stack -/

theorem modifyProfile_stack (P : Profiler) (p : Nat) (f : Profile → Profile) :
    (P.modifyProfile p f).m_profileStack = P.m_profileStack := rfl

theorem writeMap_stack (P : Profiler) (m : ProfileMap) (loc : Option Nat) :
    (P.writeMap m loc).m_profileStack = P.m_profileStack := by
  cases loc <;> rfl

theorem writeMap_flag (P : Profiler) (m : ProfileMap) (loc : Option Nat) :
    (P.writeMap m loc).m_omitRecursiveCalls = P.m_omitRecursiveCalls := by
  cases loc <;> rfl

theorem getProfile_stack (mode : Mode) (P : Profiler) (name : String) :
    (P.getProfile mode name).2.m_profileStack = P.m_profileStack := by
  simp only [Profiler.getProfile]
  split
  · rfl
  · simp only [writeMap_stack]

theorem getProfile_flag (mode : Mode) (P : Profiler) (name : String) :
    (P.getProfile mode name).2.m_omitRecursiveCalls = P.m_omitRecursiveCalls := by
  simp only [Profiler.getProfile]
  split
  · rfl
  · simp only [writeMap_flag]

theorem getProfile_isSome (mode : Mode) (P : Profiler) (name : String) :
    ∃ p, (P.getProfile mode name).1 = some p := by
  simp only [Profiler.getProfile]
  split
  · exact ⟨_, rfl⟩
  · exact ⟨_, rfl⟩

/-- The name under which a guard for `name` is instrumented in call-graph mode. -/
theorem ctor_callGraph_resolved (P : Profiler) (name : String) (now : Int)
    (h : (P.isInStack name && P.getOmitRecursiveCalls) = false) :
    ∃ p, (P.getProfile .callGraph
            (if P.isInStack name then RECURSIVE_MARK ++ name else name)).1 = some p ∧
      ScopedProfile.ctor .callGraph P name now =
        ({ m_profile := some p },
          (Profile.start .callGraph (P.getProfile .callGraph
            (if P.isInStack name then RECURSIVE_MARK ++ name else name)).2 p now).2) := by
  obtain ⟨p, hp⟩ := getProfile_isSome .callGraph P
    (if P.isInStack name then RECURSIVE_MARK ++ name else name)
  refine ⟨p, hp, ?_⟩
  simp only [ScopedProfile.ctor, h]
  generalize P.getProfile .callGraph
    (if P.isInStack name then RECURSIVE_MARK ++ name else name) = gp at hp ⊢
  obtain ⟨a, P1⟩ := gp
  simp only at hp
  subst hp
  rfl

theorem ctor_callGraph_stack (P : Profiler) (name : String) (now : Int) :
    (ScopedProfile.ctor .callGraph P name now).2.m_profileStack.length =
      P.m_profileStack.length +
        (if (ScopedProfile.ctor .callGraph P name now).1.active then 1 else 0) := by
  cases h : (P.isInStack name && P.getOmitRecursiveCalls)
  · obtain ⟨p, _, hc⟩ := ctor_callGraph_resolved P name now h
    rw [hc]
    simp [start_stack_callGraph, getProfile_stack, ScopedProfile.active]
  · simp [ScopedProfile.ctor, h, ScopedProfile.active]

/-- The stack is as long as the list of active guards, after every event. -/
theorem step_stack_length (s : Exec) (e : Event)
    (h : s.profiler.m_profileStack.length = (s.guards.filter ScopedProfile.active).length) :
    (step .callGraph s e).profiler.m_profileStack.length =
      ((step .callGraph s e).guards.filter ScopedProfile.active).length := by
  cases e with
  | enter name now =>
    simp only [step, ctor_callGraph_stack, h, List.filter_cons]
    split <;> simp
  | leave now =>
    simp only [step]
    cases hg : s.guards with
    | nil => simpa [hg] using h
    | cons g rest =>
      rw [hg] at h
      cases hp : g.m_profile with
      | none =>
        simpa [ScopedProfile.dtor, hp, ScopedProfile.active, List.filter_cons] using h
      | some p =>
        simp only [ScopedProfile.dtor, hp, stop_stack_callGraph, List.length_dropLast, h]
        simp [ScopedProfile.active, List.filter_cons, hp]
  | setOmit b => simpa [step, Profiler.setOmitRecursiveCalls] using h

theorem run_stack_length (tr : List Event) (s : Exec)
    (h : s.profiler.m_profileStack.length = (s.guards.filter ScopedProfile.active).length) :
    (run .callGraph s tr).profiler.m_profileStack.length =
      ((run .callGraph s tr).guards.filter ScopedProfile.active).length := by
  induction tr generalizing s with
  | nil => exact h
  | cons e tr ih => exact ih (step .callGraph s e) (step_stack_length s e h)

/-! ## Runs -/

theorem run_append (mode : Mode) (s : Exec) (tr₁ tr₂ : List Event) :
    run mode s (tr₁ ++ tr₂) = run mode (run mode s tr₁) tr₂ := by
  simp [run, List.foldl_append]

theorem run_cons (mode : Mode) (s : Exec) (e : Event) (tr : List Event) :
    run mode s (e :: tr) = run mode (step mode s e) tr := rfl

theorem run_nil (mode : Mode) (s : Exec) : run mode s [] = s := rfl

/-- Entering a region that is omitted as recursive only adds inert guards. -/
theorem run_enter_omitted (P : Profiler) (name : String) (ts : List Int) (G : List ScopedProfile)
    (hstack : P.isInStack name = true) (homit : P.m_omitRecursiveCalls = true) :
    run .callGraph { profiler := P, guards := G } (ts.map (Event.enter name)) =
      { profiler := P,
        guards := List.replicate ts.length { m_profile := none } ++ G } := by
  induction ts generalizing G with
  | nil => rfl
  | cons t ts ih =>
    rw [List.map_cons, run_cons]
    simp only [step, ctor_omitted P name t hstack homit]
    rw [ih]
    simp [List.replicate_succ', List.append_assoc]

/-- Destroying inert guards changes nothing but the list of live guards. -/
theorem run_leave_inert (mode : Mode) (P : Profiler) (us : List Int) (G : List ScopedProfile) :
    run mode { profiler := P, guards := List.replicate us.length { m_profile := none } ++ G }
        (us.map Event.leave) =
      { profiler := P, guards := G } := by
  induction us with
  | nil => rfl
  | cons u us ih =>
    rw [List.map_cons, run_cons]
    simp only [List.length_cons, List.replicate_succ, List.cons_append, step, dtor_inert]
    exact ih

/-- A region recursing to depth `ts.length + 1` with recursive calls omitted. -/
theorem run_recursion_omitted (g : String) (t0 : Int) (ts us : List Int) (u : Int)
    (h : us.length = ts.length) :
    run .callGraph Exec.init
        ((Event.enter g t0 :: ts.map (Event.enter g)) ++ (us.map Event.leave ++ [Event.leave u])) =
      { profiler :=
          { heap := [Profile.accumulate
              { Profile.ctor g with m_timer := Timer.ctor.start t0 } u],
            m_profiles := [(g, 0)], m_profileStack := [], m_omitRecursiveCalls := true },
        guards := [] } := by
  have h1 : step .callGraph Exec.init (Event.enter g t0) =
      { profiler :=
          { heap := [{ Profile.ctor g with m_timer := Timer.ctor.start t0 }],
            m_profiles := [(g, 0)], m_profileStack := [0], m_omitRecursiveCalls := true },
        guards := [{ m_profile := some 0 }] } := rfl
  have h2 : Profiler.isInStack
      { heap := [{ Profile.ctor g with m_timer := Timer.ctor.start t0 }],
        m_profiles := [(g, 0)], m_profileStack := [0], m_omitRecursiveCalls := true } g = true := by
    simp [Profiler.isInStack, Profiler.nameOf, Profile.getName, Profile.ctor]
  rw [List.cons_append, run_cons, h1, run_append, run_enter_omitted _ g ts _ h2 rfl, run_append,
    ← h, run_leave_inert]
  rfl

/-! ## Recursion with recursive calls marked -/

theorem recExec_enter (g : String) (k : Nat) (s : Exec) (t : Int) (hk : 1 ≤ k)
    (h : RecExec g k k s) : RecExec g (k + 1) (k + 1) (step .callGraph s (Event.enter g t)) := by
  obtain ⟨⟨hlen, hstack, hroot, hflag, hrec⟩, hg⟩ := h
  have hin : s.profiler.isInStack g = true := by
    rw [isInStack_iff]
    obtain ⟨r, h0, hn, _⟩ := hrec 0 (by omega)
    exact ⟨0, by rw [hstack]; exact List.mem_range.2 (by omega), r, h0, by simpa using hn⟩
  have hcond : (s.profiler.isInStack g && s.profiler.getOmitRecursiveCalls) = false := by
    simp [Profiler.getOmitRecursiveCalls, hflag]
  obtain ⟨p, hp, hc⟩ := ctor_callGraph_resolved s.profiler g t hcond
  rw [hin] at hp hc
  simp only [if_true] at hp hc
  have hlast : s.profiler.getCurrentProfilesRoot = some (k - 1) := by
    obtain ⟨j, rfl⟩ : ∃ j, k = j + 1 := ⟨k - 1, by omega⟩
    simp [Profiler.getCurrentProfilesRoot, hstack, List.range_succ]
  obtain ⟨rl, hl0, _, hlsub, _⟩ := hrec (k - 1) (by omega)
  have hsub : rl.m_subProfiles = [] := by
    rw [hlsub]; simp; omega
  have hread : s.profiler.readMap (some (k - 1)) = [] := by
    simp [Profiler.readMap, hl0, Profile.getSubProfiles, hsub]
  have hgp : s.profiler.getProfile .callGraph (RECURSIVE_MARK ++ g) =
      (some k, Profiler.writeMap { s.profiler with
          heap := s.profiler.heap ++ [Profile.ctor (RECURSIVE_MARK ++ g)] }
        [(RECURSIVE_MARK ++ g, k)] (some (k - 1))) := by
    simp [Profiler.getProfile, hlast, hread, ProfileMap.find, ProfileMap.insert, hlen]
  rw [hgp] at hp hc
  simp only [Option.some.injEq] at hp
  subst hp
  simp only [step, hc]
  refine ⟨⟨?_, ?_, ?_, ?_, ?_⟩, ?_⟩
  · simp [Profile.start, Profiler.modifyProfile, Profiler.pushProfile, Profiler.writeMap,
      length_modifyAt, hlen]
  · simp [Profile.start, Profiler.modifyProfile, Profiler.pushProfile, Profiler.writeMap,
      hstack, List.range_succ]
  · simp [Profile.start, Profiler.modifyProfile, Profiler.pushProfile, Profiler.writeMap, hroot]
  · simp [Profile.start, Profiler.modifyProfile, Profiler.pushProfile, Profiler.writeMap, hflag]
  · intro i hi
    simp only [Profile.start, Profiler.modifyProfile, Profiler.pushProfile, Profiler.writeMap,
      getElem?_modifyAt]
    by_cases hik : i = k
    · subst hik
      have h1 : ¬ i = i - 1 := by omega
      have h2 : (s.profiler.heap ++ [Profile.ctor (RECURSIVE_MARK ++ g)])[i]? =
          some (Profile.ctor (RECURSIVE_MARK ++ g)) := by
        rw [← hlen]; simp
      simp only [h1, h2, if_true, if_false, Option.map_some']
      refine ⟨_, rfl, ?_, ?_, ?_⟩
      · have : ¬ i = 0 := by omega
        simp [Profile.ctor, this]
      · simp [Profile.ctor]
      · simp [Profile.ctor]
    · have hik' : i < k := by omega
      obtain ⟨r, hr0, hrn, hrs, hrc⟩ := hrec i hik'
      have h2 : (s.profiler.heap ++ [Profile.ctor (RECURSIVE_MARK ++ g)])[i]? = some r := by
        rw [List.getElem?_append_left (by omega), hr0]
      simp only [hik, if_false, h2]
      by_cases hil : i = k - 1
      · simp only [hil, if_true, Option.map_some']
        refine ⟨_, rfl, ?_, ?_, ?_⟩
        · simp only; rw [hrn, hil]
        · have h3 : k - 1 + 1 = k := by omega
          simp [h3]
        · simp only; rw [hrc]
          have h4 : i < k + 1 := by omega
          simp [hik', ← hil, h4]
      · simp only [hil, if_false]
        refine ⟨r, rfl, hrn, ?_, ?_⟩
        · rw [hrs]
          have h3 : i + 1 < k := by omega
          have h4 : i + 1 < k + 1 := by omega
          simp [h3, h4]
        · rw [hrc]
          have h4 : i < k + 1 := by omega
          simp [hik', h4]
  · rw [hg]
    simp [List.range_succ]

theorem recExec_leave (g : String) (k m : Nat) (s : Exec) (u : Int) (hm : m + 1 ≤ k)
    (h : RecExec g k (m + 1) s) : RecExec g k m (step .callGraph s (Event.leave u)) := by
  obtain ⟨⟨hlen, hstack, hroot, hflag, hrec⟩, hg⟩ := h
  have hg' : s.guards = { m_profile := some m } ::
      (List.range m).reverse.map (fun i => { m_profile := some i }) := by
    rw [hg]; simp [List.range_succ]
  simp only [step, hg', ScopedProfile.dtor]
  refine ⟨⟨?_, ?_, ?_, ?_, ?_⟩, rfl⟩
  · rw [stop_heap .callGraph _ _ _ rfl, length_modifyAt, hlen]
  · rw [stop_stack_callGraph, hstack]; simp [List.range_succ]
  · simp only [Profile.stop, Profiler.modifyProfile, Profiler.popProfile]
    split <;> exact hroot
  · simp only [Profile.stop, Profiler.modifyProfile, Profiler.popProfile]
    split <;> exact hflag
  · intro i hi
    obtain ⟨r, hr0, hrn, hrs, hrc⟩ := hrec i hi
    by_cases him : i = m
    · subst him
      obtain ⟨r', h1, h2, _, h4, h5⟩ := stop_record .callGraph s.profiler i r u hr0 rfl
      refine ⟨r', h1, by rw [h4, hrn], by rw [h5, hrs], ?_⟩
      rw [h2, hrc]
      simp [UINT_RANGE]
    · rw [stop_other .callGraph s.profiler m i u him]
      refine ⟨r, hr0, hrn, hrs, ?_⟩
      rw [hrc]
      by_cases h1 : i < m
      · have h2 : i < m + 1 := by omega
        simp [h1, h2]
      · have h2 : ¬ i < m + 1 := by omega
        simp [h1, h2]

theorem recExec_run_enter (g : String) (ts : List Int) (k : Nat) (s : Exec) (hk : 1 ≤ k)
    (h : RecExec g k k s) :
    RecExec g (k + ts.length) (k + ts.length) (run .callGraph s (ts.map (Event.enter g))) := by
  induction ts generalizing k s with
  | nil => exact h
  | cons t ts ih =>
    rw [List.map_cons, run_cons]
    have := ih (k + 1) _ (by omega) (recExec_enter g k s t hk h)
    simpa [Nat.add_assoc, Nat.add_comm 1] using this

theorem recExec_run_leave (g : String) (us : List Int) (k m : Nat) (s : Exec)
    (hm : m + us.length ≤ k) (h : RecExec g k (m + us.length) s) :
    RecExec g k m (run .callGraph s (us.map Event.leave)) := by
  induction us generalizing s with
  | nil => exact h
  | cons u us ih =>
    rw [List.map_cons, run_cons]
    simp only [List.length_cons] at hm h
    exact ih _ (by omega) (recExec_leave g k (m + us.length) s u (by omega) h)

theorem recExec_first (g : String) (t0 : Int) :
    RecExec g 1 1 (run .callGraph Exec.init [Event.setOmit false, Event.enter g t0]) := by
  refine ⟨⟨rfl, rfl, rfl, rfl, ?_⟩, rfl⟩
  intro i hi
  have : i = 0 := by omega
  subst this
  exact ⟨_, rfl, rfl, rfl, rfl⟩

/-- The profiler after `g` has recursed to depth `D` with recursive calls
marked and every activation has been closed. -/
theorem recChain_recursion (g : String) (D : Nat) (ts us : List Int)
    (hD : 1 ≤ D) (hts : ts.length = D) (hus : us.length = D) :
    RecChain g D 0 (run .callGraph Exec.init
      (Event.setOmit false :: (ts.map (Event.enter g) ++ us.map Event.leave))).profiler := by
  cases ts with
  | nil => simp at hts; omega
  | cons t0 ts =>
    have h1 := recExec_run_enter g ts 1 _ (le_refl 1) (recExec_first g t0)
    have hlen : 1 + ts.length = D := by simp at hts; omega
    rw [hlen] at h1
    have h2 := recExec_run_leave g us D 0 _ (by omega) (by simpa [hus] using h1)
    rw [← run_append, ← run_append] at h2
    exact h2.1

theorem sum_map_eq_length {α : Type} (f : α → Nat) (l : List α)
    (h : ∀ (i : Nat) r, l[i]? = some r → f r = 1) : (l.map f).sum = l.length := by
  induction l with
  | nil => rfl
  | cons x xs ih =>
    have hx : f x = 1 := h 0 x (by simp)
    have hxs : ∀ (i : Nat) r, xs[i]? = some r → f r = 1 := fun i r hi => h (i + 1) r (by simpa using hi)
    simp [hx, ih hxs, Nat.add_comm]

/-! ## Flat mode: activations that do not overlap -/

/-- One complete activation of a region that is not running, in flat mode. -/
theorem flat_single_call (P : Profiler) (G : List ScopedProfile) (f : String) (t0 t1 : Int)
    (hidle : ∀ p, P.m_profiles.find f = some p →
      ∃ r, P.heap[p]? = some r ∧ r.m_timeStarted = false) :
    ∃ P' p' r', run .flat { profiler := P, guards := G } [Event.enter f t0, Event.leave t1] =
        { profiler := P', guards := G } ∧
      P'.m_profiles.find f = some p' ∧ P'.heap[p']? = some r' ∧ r'.m_timeStarted = false ∧
      r'.m_callCount = (P.callCountOf f + 1) % UINT_RANGE ∧
      r'.m_wallTime = TimeArith.add (P.wallTimeOf f) (TimeArith.sub t1 t0) := by
  cases hfind : P.m_profiles.find f with
  | some p =>
    obtain ⟨r, hr, hidle'⟩ := hidle p hfind
    have hctor : ScopedProfile.ctor .flat P f t0 =
        ({ m_profile := some p }, P.modifyProfile p
          (fun r => { r with m_timeStarted := true, m_timer := r.m_timer.start t0 })) := by
      simp [ScopedProfile.ctor, flat_getProfile_found P f p hfind, Profile.start, hr, hidle']
    refine ⟨(P.modifyProfile p
        (fun r => { r with m_timeStarted := true, m_timer := r.m_timer.start t0 })).modifyProfile p
        (fun r => { r with m_timeStarted := false }.accumulate t1), p,
      Profile.accumulate { r with m_timeStarted := false, m_timer := r.m_timer.start t0 } t1,
      ?_, hfind, ?_, ?_, ?_, ?_⟩
    · simp only [run, List.foldl_cons, List.foldl_nil, step, hctor, ScopedProfile.dtor,
        Profile.stop, Profiler.modifyProfile, getElem?_modifyAt_self, hr]
      simp only [Option.map_some', Option.any_some, if_true]
    · simp only [Profiler.modifyProfile, getElem?_modifyAt_self, hr, Option.map_some']
    · rfl
    · simp [Profile.accumulate, Profiler.callCountOf, Profiler.lookup, hfind, hr,
        Profile.getCallCount]
    · simp [Profile.accumulate, Profiler.wallTimeOf, Profiler.lookup, hfind, hr,
        Profile.getTimes, Timer.stop, Timer.start, Timer.getElapsedTime]
  | none =>
    have hnew : (P.heap ++ [Profile.ctor f])[P.heap.length]? = some (Profile.ctor f) := by
      simp
    have hctor : ScopedProfile.ctor .flat P f t0 =
        ({ m_profile := some P.heap.length },
          { P with
            heap := modifyAt
              (fun r => { r with m_timeStarted := true, m_timer := r.m_timer.start t0 })
              (P.heap ++ [Profile.ctor f]) P.heap.length,
            m_profiles := P.m_profiles.insert f P.heap.length }) := by
      simp [ScopedProfile.ctor, Profiler.getProfile, Profiler.readMap, hfind, Profile.start,
        Profiler.writeMap, hnew, Profile.ctor, Profiler.modifyProfile]
    refine ⟨Profiler.modifyProfile { P with
            heap := modifyAt
              (fun r => { r with m_timeStarted := true, m_timer := r.m_timer.start t0 })
              (P.heap ++ [Profile.ctor f]) P.heap.length,
            m_profiles := P.m_profiles.insert f P.heap.length } P.heap.length
        (fun r => { r with m_timeStarted := false }.accumulate t1), P.heap.length,
      Profile.accumulate { Profile.ctor f with m_timer := Timer.ctor.start t0 } t1,
      ?_, ?_, ?_, ?_, ?_, ?_⟩
    · simp only [run, List.foldl_cons, List.foldl_nil, step, hctor, ScopedProfile.dtor,
        Profile.stop, Profiler.modifyProfile, getElem?_modifyAt_self, hnew]
      simp only [Option.map_some', Option.any_some, if_true]
    · simp [Profiler.modifyProfile, find_insert]
    · simp only [Profiler.modifyProfile, getElem?_modifyAt_self, hnew, Option.map_some']
      rfl
    · rfl
    · simp [Profile.accumulate, Profiler.callCountOf, Profiler.lookup, hfind, Profile.ctor]
    · simp [Profile.accumulate, Profiler.wallTimeOf, Profiler.lookup, hfind, Profile.ctor,
        Timer.stop, Timer.start, Timer.getElapsedTime, Timer.ctor]

/-! ## Flat mode: the invariant -/

theorem flatGuards_congr {m m' : ProfileMap} {G : List ScopedProfile} {names : List String}
    (h : ∀ k, k ∈ names → m'.find k = m.find k) (hG : FlatGuards m G names) :
    FlatGuards m' G names := by
  induction names generalizing G with
  | nil => cases G <;> simp [FlatGuards] at hG ⊢
  | cons n ns ih =>
    cases G with
    | nil => simp [FlatGuards] at hG
    | cons g G =>
      obtain ⟨h1, h2⟩ := hG
      refine ⟨?_, ih (fun k hk => h k (List.mem_cons_of_mem _ hk)) h2⟩
      rw [h1, h n (List.mem_cons_self _ _)]

theorem callCountOf_eq (P : Profiler) (name : String) (p : Nat) (r : Profile)
    (h1 : P.m_profiles.find name = some p) (h2 : P.heap[p]? = some r) :
    P.callCountOf name = r.m_callCount := by
  simp [Profiler.callCountOf, Profiler.lookup, h1, h2, Profile.getCallCount]

theorem callCountOf_none (P : Profiler) (name : String)
    (h1 : P.m_profiles.find name = none) : P.callCountOf name = 0 := by
  simp [Profiler.callCountOf, Profiler.lookup, h1]

/-- Allocating the record of a region that has none keeps the invariant. -/
theorem flatInv_alloc {P : Profiler} {G : List ScopedProfile} {opened : List String}
    (h : FlatInv P G opened) (n : String) (hfind : P.m_profiles.find n = none) :
    FlatInv { P with heap := P.heap ++ [Profile.ctor n],
                     m_profiles := P.m_profiles.insert n P.heap.length } G opened ∧
    (∀ name, Profiler.callCountOf
        { P with heap := P.heap ++ [Profile.ctor n],
                 m_profiles := P.m_profiles.insert n P.heap.length } name =
      P.callCountOf name) := by
  have hold : ∀ name p, P.m_profiles.find name = some p →
      (P.heap ++ [Profile.ctor n])[p]? = P.heap[p]? := by
    intro name p hp
    obtain ⟨r, hr, _⟩ := h.valid name p hp
    exact List.getElem?_append_left (List.getElem?_eq_some.1 hr).1
  have hne : ∀ name p, P.m_profiles.find name = some p → ¬ n = name := by
    intro name p hp hn
    subst hn
    rw [hfind] at hp
    cases hp
  refine ⟨⟨?_, ?_, ?_, ?_, ?_⟩, ?_⟩
  · intro name p hp
    simp only [find_insert] at hp
    split at hp
    · rename_i hn
      cases hp
      exact ⟨Profile.ctor n, by simp, hn⟩
    · simp only [hold name p hp]
      exact h.valid name p hp
  · intro name hname
    simp only [find_insert]
    split
    · simp
    · exact h.present name hname
  · intro name p r hp hr
    simp only [find_insert] at hp
    split at hp
    · rename_i hn
      cases hp
      subst hn
      have : r = Profile.ctor n := by simpa using hr.symm
      subst this
      have hnot : n ∉ opened := fun hmem => h.present n hmem hfind
      simp [Profile.ctor, hnot]
    · simp only [hold name p hp] at hr
      exact h.running name p r hp hr
  · intro p r hr
    simp only [List.getElem?_append] at hr
    split at hr
    · exact h.bounded p r hr
    · have hr' : r = Profile.ctor n := by
        rcases Nat.lt_or_ge (p - P.heap.length) 1 with h1 | h1
        · have : p - P.heap.length = 0 := by omega
          simpa [this] using hr.symm
        · rw [List.getElem?_eq_none (by simpa using h1)] at hr
          cases hr
      subst hr'
      simp [Profile.ctor, UINT_RANGE]
  · refine flatGuards_congr ?_ h.guards
    intro k hk
    simp only [find_insert]
    split
    · rename_i hn
      subst hn
      exact absurd hfind (h.present n hk)
    · rfl
  · intro name
    by_cases hn : n = name
    · subst hn
      rw [callCountOf_none P n hfind]
      simp [Profiler.callCountOf, Profiler.lookup, find_insert, Profile.getCallCount,
        Profile.ctor]
    · cases hp : P.m_profiles.find name with
      | none =>
        rw [callCountOf_none P name hp]
        simp [Profiler.callCountOf, Profiler.lookup, find_insert, hn, hp]
      | some p =>
        simp only [Profiler.callCountOf, Profiler.lookup, find_insert, hn, if_false, hp,
          hold name p hp]

theorem flatInv_inj {P : Profiler} {G : List ScopedProfile} {opened : List String}
    (h : FlatInv P G opened) {n1 n2 : String} {p : Nat}
    (h1 : P.m_profiles.find n1 = some p) (h2 : P.m_profiles.find n2 = some p) : n1 = n2 := by
  obtain ⟨r1, hr1, hn1⟩ := h.valid n1 p h1
  obtain ⟨r2, hr2, hn2⟩ := h.valid n2 p h2
  rw [hr1] at hr2
  cases hr2
  rw [← hn1, ← hn2]

/-- Starting the record of a region none of whose activations is open. -/
theorem flatInv_start {P : Profiler} {G : List ScopedProfile} {opened : List String}
    (h : FlatInv P G opened) (n : String) (p : Nat) (t : Int)
    (hfind : P.m_profiles.find n = some p) (hn : n ∉ opened) :
    FlatInv (P.modifyProfile p
        (fun r => { r with m_timeStarted := true, m_timer := r.m_timer.start t }))
      ({ m_profile := some p } :: G) (n :: opened) ∧
    (∀ name, (P.modifyProfile p
        (fun r => { r with m_timeStarted := true, m_timer := r.m_timer.start t })).callCountOf name
      = P.callCountOf name) := by
  refine ⟨⟨?_, ?_, ?_, ?_, ?_⟩, ?_⟩
  · intro name q hq
    obtain ⟨r, hr, hname⟩ := h.valid name q hq
    simp only [Profiler.modifyProfile, getElem?_modifyAt, hr]
    split
    · exact ⟨_, rfl, hname⟩
    · exact ⟨_, rfl, hname⟩
  · intro name hname
    rcases List.mem_cons.1 hname with rfl | hmem
    · simp [Profiler.modifyProfile, hfind]
    · exact h.present name hmem
  · intro name q r hq hr
    replace hq : P.m_profiles.find name = some q := hq
    obtain ⟨r0, hr0, _⟩ := h.valid name q hq
    simp only [Profiler.modifyProfile, getElem?_modifyAt, hr0] at hr
    split at hr
    · rename_i hqp
      subst hqp
      have hname : name = n := flatInv_inj h hq hfind
      simp only [Option.map_some', Option.some.injEq] at hr
      subst hr
      simp [hname]
    · rename_i hqp
      simp only [Option.some.injEq] at hr
      subst hr
      have hne : name ≠ n := by
        intro he
        subst he
        rw [hfind] at hq
        cases hq
        exact hqp rfl
      rw [h.running name q r0 hq hr0]
      simp [hne]
  · intro q r hr
    simp only [Profiler.modifyProfile, getElem?_modifyAt] at hr
    split at hr
    · cases hq : P.heap[q]? with
      | none => simp [hq] at hr
      | some r0 =>
        simp only [hq, Option.map_some', Option.some.injEq] at hr
        subst hr
        exact h.bounded q r0 hq
    · exact h.bounded q r hr
  · exact ⟨by simp [hn, Profiler.modifyProfile, hfind], h.guards⟩
  · intro name
    cases hq : P.m_profiles.find name with
    | none => simp [Profiler.callCountOf, Profiler.lookup, Profiler.modifyProfile, hq]
    | some q =>
      obtain ⟨r0, hr0, _⟩ := h.valid name q hq
      by_cases hqp : q = p
      · subst hqp
        simp [Profiler.callCountOf, Profiler.lookup, Profiler.modifyProfile, hq,
          getElem?_modifyAt, hr0, Profile.getCallCount]
      · simp [Profiler.callCountOf, Profiler.lookup, Profiler.modifyProfile, hq,
          getElem?_modifyAt, hr0, hqp]

/-- Entering a region one of whose activations is open adds an inert guard. -/
theorem flatInv_enter_running {P : Profiler} {G : List ScopedProfile} {opened : List String}
    (h : FlatInv P G opened) (n : String) (hn : n ∈ opened) :
    FlatInv P ({ m_profile := none } :: G) (n :: opened) := by
  refine ⟨h.valid, ?_, ?_, h.bounded, ?_⟩
  · intro name hname
    rcases List.mem_cons.1 hname with rfl | hmem
    · exact h.present _ hn
    · exact h.present name hmem
  · intro name q r hq hr
    rw [h.running name q r hq hr]
    constructor
    · exact List.mem_cons_of_mem _
    · intro hmem
      rcases List.mem_cons.1 hmem with rfl | hmem
      · exact hn
      · exact hmem
  · exact ⟨by simp [hn], h.guards⟩

/-- In flat mode, what the construction of a guard does. -/
theorem flatInv_ctor {P : Profiler} {G : List ScopedProfile} {opened : List String}
    (h : FlatInv P G opened) (n : String) (t : Int) :
    FlatInv (ScopedProfile.ctor .flat P n t).2 ((ScopedProfile.ctor .flat P n t).1 :: G)
      (n :: opened) ∧
    (∀ name, (ScopedProfile.ctor .flat P n t).2.callCountOf name = P.callCountOf name) := by
  cases hfind : P.m_profiles.find n with
  | some p =>
    obtain ⟨r, hr, _⟩ := h.valid n p hfind
    cases hrun : r.m_timeStarted with
    | true =>
      rw [flat_ctor_running P n p r t hfind hr hrun]
      exact ⟨flatInv_enter_running h n ((h.running n p r hfind hr).1 hrun), fun _ => rfl⟩
    | false =>
      have hctor : ScopedProfile.ctor .flat P n t =
          ({ m_profile := some p }, P.modifyProfile p
            (fun r => { r with m_timeStarted := true, m_timer := r.m_timer.start t })) := by
        simp [ScopedProfile.ctor, flat_getProfile_found P n p hfind, Profile.start, hr, hrun]
      rw [hctor]
      have hn : n ∉ opened := by
        intro hmem
        have := (h.running n p r hfind hr).2 hmem
        rw [hrun] at this
        cases this
      exact flatInv_start h n p t hfind hn
  | none =>
    have hnew : (P.heap ++ [Profile.ctor n])[P.heap.length]? = some (Profile.ctor n) := by
      simp
    have hctor : ScopedProfile.ctor .flat P n t =
        ({ m_profile := some P.heap.length },
          Profiler.modifyProfile
            { P with heap := P.heap ++ [Profile.ctor n],
                     m_profiles := P.m_profiles.insert n P.heap.length } P.heap.length
            (fun r => { r with m_timeStarted := true, m_timer := r.m_timer.start t })) := by
      simp [ScopedProfile.ctor, Profiler.getProfile, Profiler.readMap, hfind, Profile.start,
        Profiler.writeMap, hnew, Profile.ctor, Profiler.modifyProfile]
    rw [hctor]
    obtain ⟨h1, h2⟩ := flatInv_alloc h n hfind
    have hn : n ∉ opened := fun hmem => h.present n hmem hfind
    obtain ⟨h3, h4⟩ := flatInv_start h1 n P.heap.length t (by simp [find_insert]) hn
    exact ⟨h3, fun name => by rw [h4, h2]⟩

/-- In flat mode, what the destruction of the innermost guard does. -/
theorem flatInv_dtor {P : Profiler} {g : ScopedProfile} {G : List ScopedProfile} {n : String}
    {ns : List String} (h : FlatInv P (g :: G) (n :: ns)) (t : Int) :
    FlatInv (g.dtor .flat P t) G ns ∧
    (∀ name, pendingCount (g.dtor .flat P t) ns name % UINT_RANGE =
      pendingCount P (n :: ns) name % UINT_RANGE) := by
  obtain ⟨hg, hG⟩ := h.guards
  by_cases hn : n ∈ ns
  · have hnone : g.m_profile = none := by simpa [hn] using hg
    have hd : g.dtor .flat P t = P := by simp [ScopedProfile.dtor, hnone]
    rw [hd]
    refine ⟨⟨h.valid, fun name hname => h.present name (List.mem_cons_of_mem _ hname), ?_,
      h.bounded, hG⟩, ?_⟩
    · intro name q r hq hr
      rw [h.running name q r hq hr]
      constructor
      · intro hmem
        rcases List.mem_cons.1 hmem with rfl | hmem
        · exact hn
        · exact hmem
      · exact List.mem_cons_of_mem _
    · intro name
      by_cases hname : name = n
      · subst hname
        simp [pendingCount, hn]
      · simp [pendingCount, hname]
  · obtain ⟨p, hfind⟩ : ∃ p, P.m_profiles.find n = some p :=
      Option.ne_none_iff_exists'.1 (h.present n (List.mem_cons_self _ _))
    have hsome : g.m_profile = some p := by simpa [hn, hfind] using hg
    obtain ⟨r, hr, hrn⟩ := h.valid n p hfind
    have hrun : r.m_timeStarted = true :=
      (h.running n p r hfind hr).2 (List.mem_cons_self _ _)
    have hd : g.dtor .flat P t = P.modifyProfile p
        (fun r => { r with m_timeStarted := false }.accumulate t) := by
      simp [ScopedProfile.dtor, hsome, Profile.stop, hr, hrun]
    rw [hd]
    refine ⟨⟨?_, ?_, ?_, ?_, hG⟩, ?_⟩
    · intro name q hq
      obtain ⟨r0, hr0, hname⟩ := h.valid name q hq
      simp only [Profiler.modifyProfile, getElem?_modifyAt, hr0]
      split
      · exact ⟨_, rfl, hname⟩
      · exact ⟨_, rfl, hname⟩
    · intro name hname
      exact h.present name (List.mem_cons_of_mem _ hname)
    · intro name q r' hq hr'
      replace hq : P.m_profiles.find name = some q := hq
      obtain ⟨r0, hr0, _⟩ := h.valid name q hq
      simp only [Profiler.modifyProfile, getElem?_modifyAt, hr0] at hr'
      split at hr'
      · rename_i hqp
        subst hqp
        have hname : name = n := flatInv_inj h hq hfind
        simp only [Option.map_some', Option.some.injEq] at hr'
        subst hr'
        subst hname
        simp [Profile.accumulate, hn]
      · rename_i hqp
        simp only [Option.some.injEq] at hr'
        subst hr'
        have hne : name ≠ n := by
          intro he
          subst he
          rw [hfind] at hq
          cases hq
          exact hqp rfl
        rw [h.running name q r0 hq hr0]
        simp [hne]
    · intro q r' hr'
      simp only [Profiler.modifyProfile, getElem?_modifyAt] at hr'
      split at hr'
      · cases hq : P.heap[q]? with
        | none => simp [hq] at hr'
        | some r0 =>
          simp only [hq, Option.map_some', Option.some.injEq] at hr'
          subst hr'
          exact Nat.mod_lt _ (by decide)
      · exact h.bounded q r' hr'
    · intro name
      by_cases hname : name = n
      · subst hname
        have h1 : (P.modifyProfile p
            (fun r => { r with m_timeStarted := false }.accumulate t)).callCountOf name =
              (r.m_callCount + 1) % UINT_RANGE := by
          simp [Profiler.callCountOf, Profiler.lookup, Profiler.modifyProfile, hfind,
            getElem?_modifyAt, hr, Profile.getCallCount, Profile.accumulate]
        have h2 : P.callCountOf name = r.m_callCount := callCountOf_eq P name p r hfind hr
        simp only [pendingCount, h1, h2, hn, if_false, List.mem_cons, true_or, if_true,
          Nat.add_zero, Nat.mod_mod]
      · have h1 : (P.modifyProfile p
            (fun r => { r with m_timeStarted := false }.accumulate t)).callCountOf name =
              P.callCountOf name := by
          cases hq : P.m_profiles.find name with
          | none => simp [Profiler.callCountOf, Profiler.lookup, Profiler.modifyProfile, hq]
          | some q =>
            have hqp : q ≠ p := by
              intro he
              subst he
              exact hname (flatInv_inj h hq hfind)
            simp [Profiler.callCountOf, Profiler.lookup, Profiler.modifyProfile, hq,
              getElem?_modifyAt, hqp]
        simp [pendingCount, h1, hname]

/-- One event of a flat-mode execution: the invariant is kept and the pending
count of every region grows by one exactly when the event opens an activation
of the region while none is open. -/
theorem flatInv_step {s : Exec} {opened : List String}
    (h : FlatInv s.profiler s.guards opened) (e : Event) (name : String) :
    FlatInv (step .flat s e).profiler (step .flat s e).guards (openedStep opened e) ∧
    pendingCount (step .flat s e).profiler (openedStep opened e) name % UINT_RANGE =
      (pendingCount s.profiler opened name + outermostOpens name opened [e]) % UINT_RANGE := by
  cases e with
  | enter n t =>
    obtain ⟨h1, h2⟩ := flatInv_ctor h n t
    refine ⟨h1, ?_⟩
    simp only [profiny.step, openedStep, pendingCount, h2, outermostOpens, List.mem_cons]
    by_cases hn : n = name
    · subst hn
      by_cases hmem : n ∈ opened
      · simp [hmem]
      · simp [hmem, Nat.add_assoc]
    · have hn' : ¬ name = n := fun he => hn he.symm
      simp [hn, hn']
  | leave t =>
    cases hG : s.guards with
    | nil =>
      have hop : opened = [] := by
        have := h.guards
        rw [hG] at this
        cases opened with
        | nil => rfl
        | cons n ns => simp [FlatGuards] at this
      subst hop
      have hs : profiny.step .flat s (Event.leave t) = s := by simp [profiny.step, hG]
      rw [hs]
      exact ⟨by simpa [openedStep] using h, by simp [openedStep, outermostOpens]⟩
    | cons g G =>
      cases opened with
      | nil =>
        have := h.guards
        rw [hG] at this
        simp [FlatGuards] at this
      | cons n ns =>
        rw [hG] at h
        obtain ⟨h1, h2⟩ := flatInv_dtor h t
        have hs : profiny.step .flat s (Event.leave t) =
            { profiler := g.dtor .flat s.profiler t, guards := G } := by
          simp [profiny.step, hG]
        rw [hs]
        exact ⟨h1, by simpa [openedStep, outermostOpens] using h2 name⟩
  | setOmit b =>
    exact ⟨h, by simp [profiny.step, openedStep, outermostOpens]⟩

theorem outermostOpens_cons (name : String) (opened : List String) (e : Event)
    (tr : List Event) :
    outermostOpens name opened (e :: tr) =
      outermostOpens name opened [e] + outermostOpens name (openedStep opened e) tr := by
  cases e <;> simp [outermostOpens, openedStep]

theorem closes_opened (tr : List Event) (opened : List String)
    (h : closes opened.length tr = true) : tr.foldl openedStep opened = [] := by
  induction tr generalizing opened with
  | nil =>
    cases opened with
    | nil => rfl
    | cons n ns => simp [closes] at h
  | cons e tr ih =>
    cases e with
    | enter n t => exact ih (n :: opened) (by simpa [closes] using h)
    | leave t =>
      cases opened with
      | nil => simp [closes] at h
      | cons n ns => exact ih ns (by simpa [closes] using h)
    | setOmit b => exact ih opened (by simpa [closes] using h)

/-- A flat-mode execution keeps the invariant and counts, for every region,
the activations opened while none was open. -/
theorem flatInv_run (tr : List Event) (s : Exec) (opened : List String) (name : String)
    (h : FlatInv s.profiler s.guards opened) :
    FlatInv (profiny.run .flat s tr).profiler (profiny.run .flat s tr).guards
      (tr.foldl openedStep opened) ∧
    pendingCount (profiny.run .flat s tr).profiler (tr.foldl openedStep opened) name
        % UINT_RANGE =
      (pendingCount s.profiler opened name + outermostOpens name opened tr) % UINT_RANGE := by
  induction tr generalizing s opened with
  | nil => exact ⟨h, by simp [profiny.run, outermostOpens]⟩
  | cons e tr ih =>
    obtain ⟨h1, h2⟩ := flatInv_step h e name
    obtain ⟨h3, h4⟩ := ih (profiny.step .flat s e) (openedStep opened e) h1
    refine ⟨h3, ?_⟩
    rw [run_cons, List.foldl_cons, h4, outermostOpens_cons, Nat.add_mod, h2]
    simp only [UINT_RANGE]
    omega

theorem flatInv_init : FlatInv Exec.init.profiler Exec.init.guards [] := by
  refine ⟨?_, ?_, ?_, ?_, trivial⟩
  · intro name p hp
    simp [Exec.init, Profiler.ctor, ProfileMap.find] at hp
  · intro name hname
    cases hname
  · intro name p r hp
    simp [Exec.init, Profiler.ctor, ProfileMap.find] at hp
  · intro p r hr
    simp [Exec.init, Profiler.ctor] at hr

theorem flatInv_callCountOf_lt {P : Profiler} {G : List ScopedProfile} {opened : List String}
    (h : FlatInv P G opened) (name : String) : P.callCountOf name < UINT_RANGE := by
  cases hp : P.m_profiles.find name with
  | none =>
    rw [callCountOf_none P name hp]
    decide
  | some p =>
    obtain ⟨r, hr, _⟩ := h.valid name p hp
    rw [callCountOf_eq P name p r hp hr]
    exact h.bounded p r hr

/-- Flat mode, well-nested and fully closed executions from the initial state. -/
theorem flat_closed_count (tr : List Event) (name : String) (hclosed : closes 0 tr = true) :
    (run .flat Exec.init tr).profiler.callCountOf name =
      outermostOpens name [] tr % UINT_RANGE := by
  obtain ⟨h1, h2⟩ := flatInv_run tr Exec.init [] name flatInv_init
  rw [closes_opened tr [] hclosed] at h1 h2
  have h3 := flatInv_callCountOf_lt h1 name
  have h4 : Exec.init.profiler.callCountOf name = 0 := rfl
  simp only [pendingCount, h4, List.not_mem_nil, if_false, Nat.add_zero, Nat.zero_add] at h2
  rw [← h2, Nat.mod_eq_of_lt h3]

theorem demoH_counts (clock : Nat → Int) :
    closes 0 (demoH clock) = true ∧ outermostOpens "h1:37" [] (demoH clock) = 1 ∧
      outermostOpens "h2:45" [] (demoH clock) = 1 := by
  simp [demoH, closes, outermostOpens]

theorem demoG_counts (clock : Nat → Int) :
    closes 0 (demoG clock) = true ∧ outermostOpens "g:23" [] (demoG clock) = 1 := by
  simp [demoG, closes, outermostOpens]

theorem demoMain_counts (clock : Nat → Int) :
    closes 0 (demoMain clock) = true ∧ outermostOpens "f:8" [] (demoMain clock) = 2 ∧
      outermostOpens "g:23" [] (demoMain clock) = 1 ∧
      outermostOpens "h1:37" [] (demoMain clock) = 1 ∧
      outermostOpens "h2:45" [] (demoMain clock) = 1 := by
  simp [demoMain, closes, outermostOpens]

theorem closes_enters (g : String) (ts : List Int) (d : Nat) (rest : List Event) :
    closes d (ts.map (Event.enter g) ++ rest) = closes (d + ts.length) rest := by
  induction ts generalizing d with
  | nil => rfl
  | cons t ts ih =>
    simp only [List.map_cons, List.cons_append, closes, ih, List.length_cons]
    congr 1
    omega

theorem closes_leaves (us : List Int) (d : Nat) :
    closes d (us.map Event.leave) = (d == us.length) := by
  induction us generalizing d with
  | nil => cases d <;> rfl
  | cons u us ih =>
    cases d with
    | zero => simp [closes]
    | succ d => simp [closes, ih]

theorem outermostOpens_leaves (name : String) (us : List Int) (opened : List String) :
    outermostOpens name opened (us.map Event.leave) = 0 := by
  induction us generalizing opened with
  | nil => rfl
  | cons u us ih => simp [outermostOpens, ih]

theorem outermostOpens_enter (name : String) (opened : List String) (n : String) (t : Int)
    (tr : List Event) :
    outermostOpens name opened (Event.enter n t :: tr) =
      (if n = name ∧ name ∉ opened then 1 else 0) + outermostOpens name (n :: opened) tr := rfl

theorem outermostOpens_enters_open (g : String) (ts : List Int) (opened : List String)
    (rest : List Event) (h : g ∈ opened) :
    outermostOpens g opened (ts.map (Event.enter g) ++ rest) =
      outermostOpens g (List.replicate ts.length g ++ opened) rest := by
  induction ts generalizing opened with
  | nil => rfl
  | cons t ts ih =>
    rw [List.map_cons, List.cons_append, outermostOpens_enter,
      ih (g :: opened) (List.mem_cons_self _ _)]
    simp only [h, not_true_eq_false, and_false, if_false, Nat.zero_add]
    simp [List.replicate_succ', List.append_assoc]

/-- The trace of a region recursing to depth `D` is well nested and fully
closed, and exactly one of its activations is opened while none is open. -/
theorem recursion_counts (g : String) (D : Nat) (ts us : List Int)
    (hD : 1 ≤ D) (hts : ts.length = D) (hus : us.length = D) :
    closes 0 (ts.map (Event.enter g) ++ us.map Event.leave) = true ∧
      outermostOpens g [] (ts.map (Event.enter g) ++ us.map Event.leave) = 1 := by
  constructor
  · rw [closes_enters, closes_leaves]
    simp [hts, hus]
  · cases ts with
    | nil => simp at hts; omega
    | cons t0 ts =>
      rw [List.map_cons, List.cons_append, outermostOpens_enter,
        outermostOpens_enters_open g ts [g] _ (List.mem_cons_self _ _),
        outermostOpens_leaves]
      simp

theorem totalElapsed_cons (w : Int) (a : Int × Int) (acts : List (Int × Int)) :
    totalElapsed w (a :: acts) =
      totalElapsed (TimeArith.add w (TimeArith.sub a.2 a.1)) acts := rfl

/-- Any number of activations of one region that do not overlap, in flat mode. -/
theorem flat_sequential_calls (f : String) (acts : List (Int × Int)) (P : Profiler)
    (G : List ScopedProfile)
    (hidle : ∀ p, P.m_profiles.find f = some p →
      ∃ r, P.heap[p]? = some r ∧ r.m_timeStarted = false)
    (hlt : P.callCountOf f < UINT_RANGE) :
    ∃ P', run .flat { profiler := P, guards := G } (sequentialCalls f acts) =
        { profiler := P', guards := G } ∧
      P'.callCountOf f = (P.callCountOf f + acts.length) % UINT_RANGE ∧
      P'.wallTimeOf f = totalElapsed (P.wallTimeOf f) acts := by
  induction acts generalizing P with
  | nil =>
    refine ⟨P, rfl, ?_, rfl⟩
    simp [Nat.mod_eq_of_lt hlt]
  | cons a acts ih =>
    obtain ⟨t0, t1⟩ := a
    obtain ⟨P1, p1, r1, hrun, hfind, hr, hidle1, hc, hw⟩ := flat_single_call P G f t0 t1 hidle
    have hc1 : P1.callCountOf f = (P.callCountOf f + 1) % UINT_RANGE := by
      simp [Profiler.callCountOf, Profiler.lookup, hfind, hr, Profile.getCallCount, hc]
    have hw1 : P1.wallTimeOf f = TimeArith.add (P.wallTimeOf f) (TimeArith.sub t1 t0) := by
      simp [Profiler.wallTimeOf, Profiler.lookup, hfind, hr, Profile.getTimes, hw]
    have hidle' : ∀ p, P1.m_profiles.find f = some p →
        ∃ r, P1.heap[p]? = some r ∧ r.m_timeStarted = false := by
      intro p hp
      rw [hfind] at hp
      cases hp
      exact ⟨r1, hr, hidle1⟩
    have hlt1 : P1.callCountOf f < UINT_RANGE := by
      rw [hc1]
      exact Nat.mod_lt _ (by decide)
    obtain ⟨P2, hrun2, hc2, hw2⟩ := ih P1 hidle' hlt1
    refine ⟨P2, ?_, ?_, ?_⟩
    · have : sequentialCalls f ((t0, t1) :: acts) =
          [Event.enter f t0, Event.leave t1] ++ sequentialCalls f acts := rfl
      rw [this, run_append, hrun, hrun2]
    · rw [hc2, hc1, List.length_cons]
      simp only [UINT_RANGE]
      omega
    · rw [hw2, hw1, totalElapsed_cons]

theorem flat_sequential_calls_init (f : String) (acts : List (Int × Int)) :
    (run .flat Exec.init (sequentialCalls f acts)).profiler.callCountOf f =
        acts.length % UINT_RANGE ∧
      (run .flat Exec.init (sequentialCalls f acts)).profiler.wallTimeOf f =
        totalElapsed 0 acts := by
  have hidle : ∀ p, Profiler.ctor.m_profiles.find f = some p →
      ∃ r, Profiler.ctor.heap[p]? = some r ∧ r.m_timeStarted = false := by
    intro p hp
    simp [Profiler.ctor, ProfileMap.find] at hp
  have hlt : Profiler.ctor.callCountOf f < UINT_RANGE := by
    simp [Profiler.callCountOf, Profiler.lookup, Profiler.ctor, ProfileMap.find, UINT_RANGE]
  obtain ⟨P', hrun, hc, hw⟩ := flat_sequential_calls f acts Profiler.ctor [] hidle hlt
  have h0 : Profiler.ctor.callCountOf f = 0 := rfl
  have h1 : Profiler.ctor.wallTimeOf f = 0 := rfl
  have hinit : Exec.init = { profiler := Profiler.ctor, guards := [] } := rfl
  rw [hinit, hrun]
  simp only [hc, hw, h0, h1, Nat.zero_add, and_self]

theorem sequentialCalls_counts (name : String) (acts : List (Int × Int)) :
    closes 0 (sequentialCalls name acts) = true ∧
      outermostOpens name [] (sequentialCalls name acts) = acts.length := by
  induction acts with
  | nil => exact ⟨rfl, rfl⟩
  | cons a acts ih =>
    obtain ⟨t0, t1⟩ := a
    refine ⟨?_, ?_⟩
    · simpa [sequentialCalls, closes] using ih.1
    · simp [sequentialCalls, outermostOpens, ih.2, Nat.add_comm]

end

/-! ## The arithmetic of `double`: whole numbers below `2 ^ 53` are exact -/

theorem excessBits_small (fuel n : Nat) (h : n < 2 ^ 53) : excessBits fuel n = 0 := by
  cases fuel with
  | zero => rfl
  | succ fuel => simp only [excessBits, h, if_true]

theorem roundNat_small (n : Nat) (h : n < 2 ^ 53) : roundNat n = n := by
  simp only [roundNat, excessBits_small 1100 n h, Nat.pow_zero, Nat.mod_one, Nat.mul_zero,
    Nat.div_one, Nat.mul_one, Nat.lt_one_iff, if_true]

theorem roundDouble_small (x : Int) (h1 : -(2 : Int) ^ 53 < x) (h2 : x < 2 ^ 53) :
    roundDouble x = x := by
  unfold roundDouble
  split
  · rw [roundNat_small _ (by omega)]
    omega
  · rw [roundNat_small _ (by omega)]
    omega

theorem double_add_small (a b : Int) (h1 : -(2 : Int) ^ 53 < a + b) (h2 : a + b < 2 ^ 53) :
    TimeArith.add a b = a + b := roundDouble_small _ h1 h2

theorem double_sub_small (a b : Int) (h1 : -(2 : Int) ^ 53 < a - b) (h2 : a - b < 2 ^ 53) :
    TimeArith.sub a b = a - b := roundDouble_small _ h1 h2

theorem totalElapsed_replicate (n : Nat) (w : Int) (h0 : 0 ≤ w) (h : w + n < 2 ^ 53) :
    totalElapsed w (List.replicate n (0, 1)) = w + n := by
  induction n generalizing w with
  | zero => simp [totalElapsed]
  | succ n ih =>
    push_cast at h
    rw [List.replicate_succ, totalElapsed_cons,
      double_sub_small 1 0 (by decide) (by decide),
      double_add_small w (1 - 0) (by omega) (by omega), ih (w + (1 - 0)) (by omega) (by omega)]
    push_cast
    omega

/-- After `2 ^ 32` activations that each take one tick, the call count has
wrapped around to zero and the wall time has not. -/
theorem flat_wrapped (name : String) :
    (run .flat Exec.init
        (sequentialCalls name (List.replicate UINT_RANGE (0, 1)))).profiler.callCountOf name = 0 ∧
    (run .flat Exec.init
        (sequentialCalls name (List.replicate UINT_RANGE (0, 1)))).profiler.wallTimeOf name =
      UINT_RANGE := by
  obtain ⟨h1, h2⟩ := flat_sequential_calls_init name (List.replicate UINT_RANGE (0, 1))
  rw [h1, h2, List.length_replicate, totalElapsed_replicate _ 0 (le_refl 0) (by decide)]
  exact ⟨Nat.mod_self _, by simp⟩

section

variable [TimeArith]

/-! ## Call count zero and wall time zero -/

theorem countsKept_refl (h : List Profile) : CountsKept h h :=
  fun _ r' hr => Or.inl ⟨r', hr, rfl, rfl⟩

theorem countsKept_trans {h1 h2 h3 : List Profile} (h12 : CountsKept h1 h2)
    (h23 : CountsKept h2 h3) : CountsKept h1 h3 := by
  intro p r3 hr3
  rcases h23 p r3 hr3 with ⟨r2, hr2, hc, hw⟩ | hnew
  · rcases h12 p r2 hr2 with ⟨r1, hr1, hc1, hw1⟩ | hnew
    · exact Or.inl ⟨r1, hr1, hc.trans hc1, hw.trans hw1⟩
    · exact Or.inr ⟨hc.trans hnew.1, hw.trans hnew.2⟩
  · exact Or.inr hnew

theorem countsKept_modify (h : List Profile) (p : Nat) (f : Profile → Profile)
    (hf : ∀ r, (f r).m_callCount = r.m_callCount ∧ (f r).m_wallTime = r.m_wallTime) :
    CountsKept h (modifyAt f h p) := by
  intro q r' hr'
  rw [getElem?_modifyAt] at hr'
  split at hr'
  · cases hq : h[q]? with
    | none => simp [hq] at hr'
    | some r =>
      simp only [hq, Option.map_some', Option.some.injEq] at hr'
      subst hr'
      exact Or.inl ⟨r, rfl, (hf r).1, (hf r).2⟩
  · exact Or.inl ⟨r', hr', rfl, rfl⟩

theorem countsKept_alloc (h : List Profile) (name : String) :
    CountsKept h (h ++ [Profile.ctor name]) := by
  intro q r' hr'
  rw [List.getElem?_append] at hr'
  split at hr'
  · exact Or.inl ⟨r', hr', rfl, rfl⟩
  · have : r' = Profile.ctor name := by
      rcases Nat.lt_or_ge (q - h.length) 1 with h1 | h1
      · have h0 : q - h.length = 0 := by omega
        simpa [h0] using hr'.symm
      · rw [List.getElem?_eq_none (by simpa using h1)] at hr'
        cases hr'
    subst this
    exact Or.inr ⟨rfl, rfl⟩

theorem getProfile_countsKept (mode : Mode) (P : Profiler) (name : String) :
    CountsKept P.heap (P.getProfile mode name).2.heap := by
  simp only [Profiler.getProfile]
  split
  · exact countsKept_refl _
  · refine countsKept_trans (countsKept_alloc P.heap name) ?_
    generalize (match mode with
      | .callGraph => P.getCurrentProfilesRoot
      | .flat => none) = loc
    cases loc with
    | none => exact countsKept_refl _
    | some p => exact countsKept_modify _ p _ (fun r => ⟨rfl, rfl⟩)

theorem start_countsKept (mode : Mode) (P : Profiler) (p : Nat) (now : Int) :
    CountsKept P.heap (Profile.start mode P p now).2.heap := by
  cases mode with
  | callGraph => exact countsKept_modify _ p _ (fun r => ⟨rfl, rfl⟩)
  | flat =>
    simp only [Profile.start]
    split
    · exact countsKept_refl _
    · exact countsKept_modify _ p _ (fun r => ⟨rfl, rfl⟩)

/-- A guard construction either leaves the profiler alone or resolves a record
and calls `start` on it. -/
theorem ctor_cases (mode : Mode) (P : Profiler) (name : String) (now : Int) :
    (ScopedProfile.ctor mode P name now).2 = P ∨
    ∃ n p, (P.getProfile mode n).1 = some p ∧
      (ScopedProfile.ctor mode P name now).2 =
        (Profile.start mode (P.getProfile mode n).2 p now).2 := by
  cases mode with
  | callGraph =>
    cases h : (P.isInStack name && P.getOmitRecursiveCalls)
    · obtain ⟨p, hp, hc⟩ := ctor_callGraph_resolved P name now h
      exact Or.inr ⟨_, p, hp, by rw [hc]⟩
    · exact Or.inl (by simp [ScopedProfile.ctor, h])
  | flat =>
    obtain ⟨p, hp⟩ := getProfile_isSome .flat P name
    refine Or.inr ⟨name, p, hp, ?_⟩
    simp only [ScopedProfile.ctor, Bool.false_and, Bool.false_eq_true, if_false]
    generalize P.getProfile .flat name = gp at hp ⊢
    obtain ⟨a, P1⟩ := gp
    simp only at hp
    subst hp
    simp only
    generalize Profile.start .flat P1 p now = st
    obtain ⟨b, P2⟩ := st
    cases b <;> rfl

theorem ctor_countsKept (mode : Mode) (P : Profiler) (name : String) (now : Int) :
    CountsKept P.heap (ScopedProfile.ctor mode P name now).2.heap := by
  rcases ctor_cases mode P name now with h | ⟨n, p, _, h⟩
  · rw [h]
    exact countsKept_refl _
  · rw [h]
    exact countsKept_trans (getProfile_countsKept mode P n) (start_countsKept mode _ p now)

theorem countsSound_kept {h h' : List Profile} {k : Nat} (hs : CountsSound h k)
    (hk : CountsKept h h') : CountsSound h' k := by
  intro p r' hr'
  rcases hk p r' hr' with ⟨r, hr, hc, hw⟩ | ⟨hc, hw⟩
  · obtain ⟨h1, h2⟩ := hs p r hr
    exact ⟨by rw [hc]; exact h1, fun h0 => by rw [hw]; exact h2 (by rw [← hc]; exact h0)⟩
  · exact ⟨by rw [hc]; exact Nat.zero_le _, fun _ => hw⟩

theorem countsSound_mono {h : List Profile} {k k' : Nat} (hs : CountsSound h k)
    (hk : k ≤ k') : CountsSound h k' :=
  fun p r hr => ⟨le_trans (hs p r hr).1 hk, (hs p r hr).2⟩

theorem stop_countsSound (mode : Mode) (P : Profiler) (p : Nat) (now : Int) (k : Nat)
    (hs : CountsSound P.heap k) (hk : k + 1 < UINT_RANGE) :
    CountsSound (Profile.stop mode P p now).2.heap (k + 1) := by
  cases hfst : (Profile.stop mode P p now).1 with
  | false =>
    cases mode with
    | callGraph => cases hfst
    | flat =>
      have : (Profile.stop .flat P p now).2 = P := by
        simp only [Profile.stop] at hfst ⊢
        split
        · rename_i h1
          simp [h1] at hfst
        · rfl
      rw [this]
      exact countsSound_mono hs (Nat.le_succ k)
  | true =>
    intro q r' hr'
    by_cases hq : q = p
    · subst hq
      cases hr : P.heap[q]? with
      | none =>
        rw [stop_heap mode P q now hfst, getElem?_modifyAt_self, hr] at hr'
        cases hr'
      | some r =>
        obtain ⟨r1, h1, h2, _⟩ := stop_record mode P q r now hr hfst
        rw [hr'] at h1
        cases h1
        have hle := (hs q r hr).1
        have hmod : (r.m_callCount + 1) % UINT_RANGE = r.m_callCount + 1 :=
          Nat.mod_eq_of_lt (by omega)
        rw [h2, hmod]
        exact ⟨by omega, fun h0 => by omega⟩
    · rw [stop_other mode P p q now hq] at hr'
      exact ⟨le_trans (hs q r' hr').1 (Nat.le_succ k), (hs q r' hr').2⟩

theorem step_countsSound (mode : Mode) (s : Exec) (e : Event) (k : Nat)
    (hs : CountsSound s.profiler.heap k) (hk : k + destructions [e] < UINT_RANGE) :
    CountsSound (step mode s e).profiler.heap (k + destructions [e]) := by
  cases e with
  | enter name now => exact countsSound_kept hs (ctor_countsKept mode s.profiler name now)
  | leave now =>
    simp only [step]
    cases hG : s.guards with
    | nil => exact countsSound_mono hs (Nat.le_add_right _ _)
    | cons g G =>
      cases hg : g.m_profile with
      | none =>
        simp only [ScopedProfile.dtor, hg]
        exact countsSound_mono hs (Nat.le_add_right _ _)
      | some p =>
        simp only [ScopedProfile.dtor, hg]
        exact stop_countsSound mode s.profiler p now k hs hk
  | setOmit b =>
    cases mode <;> exact hs

theorem destructions_cons (e : Event) (tr : List Event) :
    destructions (e :: tr) = destructions [e] + destructions tr := by
  cases e <;> simp [destructions, Event.isLeave, List.filter_cons, Nat.add_comm]

theorem run_countsSound (mode : Mode) (tr : List Event) (s : Exec) (k : Nat)
    (hs : CountsSound s.profiler.heap k) (hk : k + destructions tr < UINT_RANGE) :
    CountsSound (run mode s tr).profiler.heap (k + destructions tr) := by
  induction tr generalizing s k with
  | nil => exact hs
  | cons e tr ih =>
    rw [destructions_cons] at hk ⊢
    have h1 := step_countsSound mode s e k hs (by omega)
    have h2 := ih (step mode s e) (k + destructions [e]) h1 (by omega)
    rw [run_cons, ← Nat.add_assoc]
    exact h2

/-- A region with a wall time other than 0 has a record. -/
theorem record_of_wallTimeOf_ne_zero (P : Profiler) (name : String)
    (h : P.wallTimeOf name ≠ 0) :
    ∃ (p : Nat) (r : Profile), P.m_profiles.find name = some p ∧ P.heap[p]? = some r ∧
      r.m_wallTime = P.wallTimeOf name ∧ r.m_callCount = P.callCountOf name := by
  cases hf : P.m_profiles.find name with
  | none => exact absurd (by simp [Profiler.wallTimeOf, Profiler.lookup, hf]) h
  | some p =>
    cases hr : P.heap[p]? with
    | none => exact absurd (by simp [Profiler.wallTimeOf, Profiler.lookup, hf, hr]) h
    | some r =>
      refine ⟨p, r, rfl, hr, ?_, ?_⟩
      · simp [Profiler.wallTimeOf, Profiler.lookup, hf, hr, Profile.getTimes]
      · simp [Profiler.callCountOf, Profiler.lookup, hf, hr, Profile.getCallCount]

theorem uint_range_cast_ne_zero : ((UINT_RANGE : Nat) : Int) ≠ 0 := by
  simp [UINT_RANGE]

/-! ## Call-graph mode: the record tree -/

theorem treeRep_valid {P : Profiler} {paths : List (List String)} (h : TreeRep P paths)
    {a : Nat} {π : List String} (ha : paths[a]? = some π) : ∃ r, P.heap[a]? = some r := by
  have h1 : a < paths.length := (List.getElem?_eq_some.1 ha).1
  rw [h.len] at h1
  exact ⟨P.heap[a], List.getElem?_eq_getElem h1⟩

theorem treeRep_path {P : Profiler} {paths : List (List String)} (h : TreeRep P paths)
    {a : Nat} {r : Profile} (ha : P.heap[a]? = some r) : ∃ π, paths[a]? = some π := by
  have h1 : a < P.heap.length := (List.getElem?_eq_some.1 ha).1
  rw [← h.len] at h1
  exact ⟨paths[a], List.getElem?_eq_getElem h1⟩

theorem treeRep_ne_nil {P : Profiler} {paths : List (List String)} (h : TreeRep P paths)
    {a : Nat} {π : List String} (ha : paths[a]? = some π) : π ≠ [] := by
  obtain ⟨r, hr⟩ := treeRep_valid h ha
  intro hnil
  have := h.names a r π hr ha
  rw [hnil] at this
  cases this

/-- Every nonempty initial segment of the call path of a record is the call
path of a record. -/
theorem treeRep_closed {P : Profiler} {paths : List (List String)} (h : TreeRep P paths)
    (σ τ : List String) (hσ : σ ≠ []) :
    ∀ b : Nat, paths[b]? = some (σ ++ τ) → ∃ a : Nat, paths[a]? = some σ := by
  induction τ using List.reverseRecOn with
  | nil =>
    intro b hb
    exact ⟨b, by simpa using hb⟩
  | append_singleton τ k ih =>
    intro b hb
    rw [← List.append_assoc] at hb
    obtain ⟨a, ha⟩ := h.closed b (σ ++ τ) k hb (by simp [hσ])
    exact ih a ha

theorem walk_single (P : Profiler) (m : ProfileMap) (n : String) :
    P.walk m [n] = m.find n := by
  simp only [Profiler.walk]
  cases m.find n <;> rfl

theorem walk_step (P : Profiler) (m : ProfileMap) (n n2 : String) (rest : List String)
    (a : Nat) (r : Profile) (hf : m.find n = some a) (hr : P.heap[a]? = some r) :
    P.walk m (n :: n2 :: rest) = P.walk r.m_subProfiles (n2 :: rest) := by
  simp only [Profiler.walk, hf, hr]

theorem walk_none (P : Profiler) (m : ProfileMap) (n : String) (rest : List String)
    (hf : m.find n = none) : P.walk m (n :: rest) = none := by
  simp only [Profiler.walk, hf]

/-- Following names through the child maps finds exactly the record with that
call path. -/
theorem treeRep_walk {P : Profiler} {paths : List (List String)} (h : TreeRep P paths)
    (ρ : List String) (hρ : ρ ≠ []) (m : ProfileMap) (π : List String)
    (hm : ∀ (n : String) (b : Nat), m.find n = some b ↔ paths[b]? = some (π ++ [n]))
    (b : Nat) : P.walk m ρ = some b ↔ paths[b]? = some (π ++ ρ) := by
  induction ρ generalizing m π with
  | nil => exact absurd rfl hρ
  | cons n rest ih =>
    cases rest with
    | nil =>
      rw [walk_single]
      exact hm n b
    | cons n2 rest =>
      cases hf : m.find n with
      | none =>
        rw [walk_none P m n _ hf]
        constructor
        · intro hb
          cases hb
        · intro hb
          have hb' : paths[b]? = some ((π ++ [n]) ++ (n2 :: rest)) := by simpa using hb
          obtain ⟨a, ha⟩ := treeRep_closed h (π ++ [n]) (n2 :: rest) (by simp) b hb'
          rw [(hm n a).2 ha] at hf
          cases hf
      | some a =>
        have ha : paths[a]? = some (π ++ [n]) := (hm n a).1 hf
        obtain ⟨r, hr⟩ := treeRep_valid h ha
        rw [walk_step P m n n2 rest a r hf hr,
          ih (by simp) r.m_subProfiles (π ++ [n]) (h.subs a r (π ++ [n]) hr ha)]
        simp

theorem treeRep_nodeAt {P : Profiler} {paths : List (List String)} (h : TreeRep P paths)
    (ρ : List String) (b : Nat) : P.nodeAt ρ = some b ↔ paths[b]? = some ρ := by
  cases ρ with
  | nil =>
    simp only [Profiler.nodeAt, Profiler.walk]
    constructor
    · intro hb
      cases hb
    · intro hb
      exact absurd rfl (treeRep_ne_nil h hb)
  | cons n rest =>
    have := treeRep_walk h (n :: rest) (by simp) P.m_profiles [] (by simpa using h.root) b
    simpa [Profiler.nodeAt] using this

/-! ## Call-graph mode: the activation stack -/

theorem stackOn_mono {paths : List (List String)} {st : List Nat} {cur : List String}
    (extra : List (List String)) (h : StackOn paths st cur) : StackOn (paths ++ extra) st cur := by
  induction h with
  | nil => exact StackOn.nil
  | snoc a n _ ha ih =>
    refine StackOn.snoc a n ih ?_
    rw [List.getElem?_append_left (List.getElem?_eq_some.1 ha).1]
    exact ha

theorem stackOn_length {paths : List (List String)} {st : List Nat} {cur : List String}
    (h : StackOn paths st cur) : st.length = cur.length := by
  induction h with
  | nil => rfl
  | snoc a n _ _ ih => simp [ih]

theorem stackOn_concat_inv {paths : List (List String)} {st : List Nat} {a : Nat}
    {cur' : List String} (h : StackOn paths (st ++ [a]) cur') :
    ∃ cur n, cur' = cur ++ [n] ∧ StackOn paths st cur ∧ paths[a]? = some (cur ++ [n]) := by
  generalize hs : st ++ [a] = s at h
  cases h with
  | nil => simp at hs
  | snoc a' n' h' ha' =>
    obtain ⟨h1, h2⟩ := List.append_inj' hs rfl
    simp only [List.cons.injEq, and_true] at h2
    subst h1
    subst h2
    exact ⟨_, n', rfl, h', ha'⟩

theorem stackOn_nil_left {paths : List (List String)} {cur : List String}
    (h : StackOn paths [] cur) : cur = [] := by
  have := stackOn_length h
  simpa using this.symm

/-- The top of the stack is the record of the current call path. -/
theorem stackOn_top {paths : List (List String)} {st : List Nat} {cur : List String}
    (h : StackOn paths st cur) :
    (st = [] ∧ cur = []) ∨
    (∃ st' t, st = st' ++ [t] ∧ cur ≠ [] ∧ paths[t]? = some cur ∧
      StackOn paths st' cur.dropLast) := by
  cases h with
  | nil => exact Or.inl ⟨rfl, rfl⟩
  | snoc a n h' ha => exact Or.inr ⟨_, a, rfl, by simp, ha, by simpa using h'⟩

theorem stackOn_mem_length {paths : List (List String)} {st : List Nat} {cur : List String}
    (h : StackOn paths st cur) :
    ∀ a, a ∈ st → ∃ π, paths[a]? = some π ∧ π.length ≤ cur.length := by
  induction h with
  | nil => intro a ha; cases ha
  | snoc b n _ hb ih =>
    intro a ha
    rcases List.mem_append.1 ha with h1 | h1
    · obtain ⟨π, hπ, hle⟩ := ih a h1
      exact ⟨π, hπ, by simp; omega⟩
    · simp only [List.mem_singleton] at h1
      subst h1
      exact ⟨_, hb, le_refl _⟩

/-- A record whose call path extends the current one is not on the stack. -/
theorem stackOn_not_mem {paths : List (List String)} {st : List Nat} {cur : List String}
    (h : StackOn paths st cur) {b : Nat} {n : String} (hb : paths[b]? = some (cur ++ [n])) :
    b ∉ st := by
  intro hmem
  obtain ⟨π, hπ, hle⟩ := stackOn_mem_length h b hmem
  rw [hb] at hπ
  cases hπ
  simp at hle

theorem stackOn_nodup {paths : List (List String)} {st : List Nat} {cur : List String}
    (h : StackOn paths st cur) : st.Nodup := by
  induction h with
  | nil => exact List.nodup_nil
  | snoc a n h' ha ih =>
    rw [List.nodup_append]
    refine ⟨ih, List.nodup_singleton a, ?_⟩
    intro x hx hx'
    simp only [List.mem_singleton] at hx'
    subst hx'
    exact stackOn_not_mem h' ha hx

/-- The names of the records on the stack are the names of the current call path. -/
theorem stackOn_names {P : Profiler} {paths : List (List String)} (hrep : TreeRep P paths)
    {st : List Nat} {cur : List String} (h : StackOn paths st cur) (name : String) :
    (∃ p ∈ st, ∃ r, P.heap[p]? = some r ∧ r.m_name = name) ↔ name ∈ cur := by
  induction h with
  | nil => simp
  | snoc a n _ ha ih =>
    obtain ⟨ra, hra⟩ := treeRep_valid hrep ha
    have hname : ra.m_name = n := by
      have := hrep.names a ra _ hra ha
      simpa using this.symm
    constructor
    · rintro ⟨p, hp, r, hr, hn⟩
      rcases List.mem_append.1 hp with h1 | h1
      · exact List.mem_append_left _ (ih.1 ⟨p, h1, r, hr, hn⟩)
      · simp only [List.mem_singleton] at h1
        subst h1
        rw [hra] at hr
        cases hr
        rw [← hn, hname]
        simp
    · intro hmem
      rcases List.mem_append.1 hmem with h1 | h1
      · obtain ⟨p, hp, r, hr, hn⟩ := ih.2 h1
        exact ⟨p, List.mem_append_left _ hp, r, hr, hn⟩
      · simp only [List.mem_singleton] at h1
        subst h1
        exact ⟨a, by simp, ra, hra, hname⟩

/-- The map in which `getProfile` looks a name up holds the records whose call
path extends the current one by one name. -/
theorem current_map {P : Profiler} {paths : List (List String)} (hrep : TreeRep P paths)
    {cur : List String} (h : StackOn paths P.m_profileStack cur) (n : String) (b : Nat) :
    (P.readMap P.getCurrentProfilesRoot).find n = some b ↔ paths[b]? = some (cur ++ [n]) := by
  rcases stackOn_top h with ⟨h1, h2⟩ | ⟨st', t, h1, _, h3, _⟩
  · simp only [Profiler.getCurrentProfilesRoot, h1, List.getLast?_nil, Profiler.readMap, h2,
      List.nil_append]
    exact hrep.root n b
  · obtain ⟨r, hr⟩ := treeRep_valid hrep h3
    have hlast : P.getCurrentProfilesRoot = some t := by
      simp [Profiler.getCurrentProfilesRoot, h1]
    simp only [hlast, Profiler.readMap, hr, Profile.getSubProfiles]
    exact hrep.subs t r cur hr h3 n b

/-! ## Call-graph mode: resolving a record -/

theorem getElem?_snoc_eq_some {α : Type} (l : List α) (x y : α) (b : Nat) :
    (l ++ [x])[b]? = some y ↔ l[b]? = some y ∨ (b = l.length ∧ x = y) := by
  rw [List.getElem?_append]
  split
  · rename_i hlt
    constructor
    · exact Or.inl
    · rintro (h | ⟨h, _⟩)
      · exact h
      · omega
  · rename_i hge
    have hnone : l[b]? = none := List.getElem?_eq_none (by omega)
    rcases Nat.lt_or_ge (b - l.length) 1 with h1 | h1
    · have h0 : b - l.length = 0 := by omega
      have hb : b = l.length := by omega
      simp [h0, hnone, hb]
    · rw [List.getElem?_eq_none (by simpa using h1)]
      simp only [hnone, false_or]
      constructor
      · intro h; cases h
      · rintro ⟨h, _⟩
        omega

/-- Inserting the new record into the map of the current call path. -/
theorem map_insert_new (paths : List (List String)) (m : ProfileMap) (π : List String)
    (n : String)
    (hm : ∀ (k : String) (b : Nat), m.find k = some b ↔ paths[b]? = some (π ++ [k]))
    (hnot : ∀ b : Nat, paths[b]? ≠ some (π ++ [n])) (k : String) (b : Nat) :
    (m.insert n paths.length).find k = some b ↔
      (paths ++ [π ++ [n]])[b]? = some (π ++ [k]) := by
  rw [find_insert, getElem?_snoc_eq_some]
  by_cases hnk : n = k
  · subst hnk
    simp only [if_true, Option.some.injEq, and_true]
    constructor
    · intro h
      exact Or.inr h.symm
    · rintro (h | h)
      · exact absurd h (hnot b)
      · exact h.symm
  · simp only [hnk, if_false, hm k b]
    constructor
    · exact Or.inl
    · rintro (h | ⟨_, h⟩)
      · exact h
      · have := List.append_cancel_left h
        simp only [List.cons.injEq, and_true] at this
        exact absurd this hnk

/-- The maps of the other call paths are unchanged when a record is added. -/
theorem map_keep_new (paths : List (List String)) (m : ProfileMap) (π cur : List String)
    (n : String)
    (hm : ∀ (k : String) (b : Nat), m.find k = some b ↔ paths[b]? = some (π ++ [k]))
    (hπ : π ≠ cur) (k : String) (b : Nat) :
    m.find k = some b ↔ (paths ++ [cur ++ [n]])[b]? = some (π ++ [k]) := by
  rw [getElem?_snoc_eq_some, hm k b]
  constructor
  · exact Or.inl
  · rintro (h | ⟨_, h⟩)
    · exact h
    · have := List.append_inj' h rfl
      exact absurd this.1.symm hπ

theorem getProfile_found (P : Profiler) (n : String) (b : Nat)
    (h : (P.readMap P.getCurrentProfilesRoot).find n = some b) :
    P.getProfile .callGraph n = (some b, P) := by
  simp [Profiler.getProfile, h]

theorem getProfile_alloc (P : Profiler) (n : String)
    (h : (P.readMap P.getCurrentProfilesRoot).find n = none) :
    P.getProfile .callGraph n =
      (some P.heap.length,
        Profiler.writeMap { P with heap := P.heap ++ [Profile.ctor n] }
          ((P.readMap P.getCurrentProfilesRoot).insert n P.heap.length)
          P.getCurrentProfilesRoot) := by
  simp [Profiler.getProfile, h]

/-- What allocation does to the free store: the records that existed keep
their name and call count, and their child map unless they own the map the
new record is inserted in; the new record is the last one. -/
theorem writeMap_alloc_heap (P : Profiler) (n : String) (m' : ProfileMap) (loc : Option Nat)
    (a : Nat) (r' : Profile)
    (h : (Profiler.writeMap { P with heap := P.heap ++ [Profile.ctor n] } m' loc).heap[a]?
      = some r') :
    (∃ r, P.heap[a]? = some r ∧ r'.m_name = r.m_name ∧ r'.m_callCount = r.m_callCount ∧
        r'.m_subProfiles = (if loc = some a then m' else r.m_subProfiles)) ∨
    (a = P.heap.length ∧ r'.m_name = n ∧ r'.m_callCount = 0 ∧
        r'.m_subProfiles = (if loc = some a then m' else [])) := by
  cases loc with
  | none =>
    simp only [Profiler.writeMap] at h
    rcases (getElem?_snoc_eq_some _ _ _ _).1 h with h1 | ⟨h1, h2⟩
    · exact Or.inl ⟨r', h1, rfl, rfl, by simp⟩
    · subst h2
      exact Or.inr ⟨h1, rfl, rfl, by simp [Profile.ctor]⟩
  | some t =>
    simp only [Profiler.writeMap, Profiler.modifyProfile, getElem?_modifyAt] at h
    by_cases hat : a = t
    · subst hat
      simp only [if_true] at h
      cases hx : (P.heap ++ [Profile.ctor n])[a]? with
      | none => simp [hx] at h
      | some x =>
        simp only [hx, Option.map_some', Option.some.injEq] at h
        subst h
        rcases (getElem?_snoc_eq_some _ _ _ _).1 hx with h1 | ⟨h1, h2⟩
        · exact Or.inl ⟨x, h1, rfl, rfl, by simp⟩
        · subst h2
          exact Or.inr ⟨h1, rfl, rfl, by simp⟩
    · simp only [hat, if_false] at h
      have hne : ¬ (some t = some a) := fun he => hat (Option.some.inj he).symm
      rcases (getElem?_snoc_eq_some _ _ _ _).1 h with h1 | ⟨h1, h2⟩
      · exact Or.inl ⟨r', h1, rfl, rfl, by simp [hne]⟩
      · subst h2
        exact Or.inr ⟨h1, rfl, rfl, by simp [hne, Profile.ctor]⟩

theorem writeMap_alloc_length (P : Profiler) (n : String) (m' : ProfileMap)
    (loc : Option Nat) :
    (Profiler.writeMap { P with heap := P.heap ++ [Profile.ctor n] } m' loc).heap.length =
      P.heap.length + 1 := by
  cases loc <;> simp [Profiler.writeMap, Profiler.modifyProfile, length_modifyAt]

theorem writeMap_alloc_root (P : Profiler) (n : String) (m' : ProfileMap) (loc : Option Nat) :
    (Profiler.writeMap { P with heap := P.heap ++ [Profile.ctor n] } m' loc).m_profiles =
      (if loc = none then m' else P.m_profiles) := by
  cases loc <;> simp [Profiler.writeMap, Profiler.modifyProfile]

/-- Allocating the record of a call path that has none keeps the representation. -/
theorem treeRep_alloc {P : Profiler} {paths : List (List String)} (hrep : TreeRep P paths)
    {cur : List String} (h : StackOn paths P.m_profileStack cur) (n : String)
    (hnone : (P.readMap P.getCurrentProfilesRoot).find n = none) :
    TreeRep (Profiler.writeMap { P with heap := P.heap ++ [Profile.ctor n] }
        ((P.readMap P.getCurrentProfilesRoot).insert n P.heap.length)
        P.getCurrentProfilesRoot)
      (paths ++ [cur ++ [n]]) := by
  have hnot : ∀ b : Nat, paths[b]? ≠ some (cur ++ [n]) := by
    intro b hb
    rw [(current_map hrep h n b).2 hb] at hnone
    cases hnone
  have hmap := current_map hrep h
  -- the owner of the current map
  have hloc : (P.getCurrentProfilesRoot = none ∧ cur = []) ∨
      (∃ t, P.getCurrentProfilesRoot = some t ∧ cur ≠ [] ∧ paths[t]? = some cur) := by
    rcases stackOn_top h with ⟨h1, h2⟩ | ⟨st', t, h1, h2, h3, _⟩
    · exact Or.inl ⟨by simp [Profiler.getCurrentProfilesRoot, h1], h2⟩
    · exact Or.inr ⟨t, by simp [Profiler.getCurrentProfilesRoot, h1], h2, h3⟩
  have hL : paths.length = P.heap.length := hrep.len
  generalize P.getCurrentProfilesRoot = loc at hloc hmap hnone ⊢
  refine ⟨?_, ?_, ?_, ?_, ?_, ?_⟩
  · rw [writeMap_alloc_length]
    simp [hL]
  · intro a r' π hr' hπ
    rcases writeMap_alloc_heap P n _ loc a r' hr' with ⟨r, hr, hn, _, _⟩ | ⟨ha, hn, _, _⟩
    · rcases (getElem?_snoc_eq_some _ _ _ _).1 hπ with h1 | ⟨h1, _⟩
      · rw [hn]
        exact hrep.names a r π hr h1
      · have := (List.getElem?_eq_some.1 hr).1
        omega
    · rcases (getElem?_snoc_eq_some _ _ _ _).1 hπ with h1 | ⟨_, h2⟩
      · have := (List.getElem?_eq_some.1 h1).1
        omega
      · subst h2
        simp [hn]
  · intro k b
    rw [writeMap_alloc_root]
    rcases hloc with ⟨h1, h2⟩ | ⟨t, h1, h2, h3⟩
    · subst h1
      subst h2
      simp only [if_true, ← hL]
      have := map_insert_new paths (P.readMap none) [] n (by simpa using hmap)
        (by simpa using hnot) k b
      simpa using this
    · subst h1
      simp only [reduceCtorEq, if_false]
      have := map_keep_new paths P.m_profiles [] cur n (by simpa using hrep.root)
        (fun he => h2 he.symm) k b
      simpa using this
  · intro a r' π hr' hπ k b
    rcases writeMap_alloc_heap P n _ loc a r' hr' with ⟨r, hr, _, _, hs⟩ | ⟨ha, _, _, hs⟩
    · have hπ' : paths[a]? = some π := by
        rcases (getElem?_snoc_eq_some _ _ _ _).1 hπ with h1 | ⟨h1, _⟩
        · exact h1
        · have := (List.getElem?_eq_some.1 hr).1
          omega
      rw [hs]
      by_cases hla : loc = some a
      · subst hla
        simp only [if_true]
        rcases hloc with ⟨h1, _⟩ | ⟨t, h1, _, h3⟩
        · cases h1
        · cases h1
          rw [h3] at hπ'
          cases hπ'
          rw [← hL]
          exact map_insert_new paths _ cur n hmap hnot k b
      · simp only [hla, if_false]
        refine map_keep_new paths r.m_subProfiles π cur n (hrep.subs a r π hr hπ') ?_ k b
        intro he
        subst he
        rcases hloc with ⟨_, h2⟩ | ⟨t, h1, _, h3⟩
        · exact treeRep_ne_nil hrep hπ' h2
        · have := hrep.inj a t π hπ' h3
          subst this
          exact hla h1
    · have hπ' : π = cur ++ [n] := by
        rcases (getElem?_snoc_eq_some _ _ _ _).1 hπ with h1 | ⟨_, h2⟩
        · have := (List.getElem?_eq_some.1 h1).1
          omega
        · exact h2.symm
      subst hπ'
      have hla : ¬ loc = some a := by
        intro he
        subst he
        rcases hloc with ⟨h1, _⟩ | ⟨t, h1, _, h3⟩
        · cases h1
        · cases h1
          have := (List.getElem?_eq_some.1 h3).1
          omega
      rw [hs]
      simp only [hla, if_false, ProfileMap.find, getElem?_snoc_eq_some]
      constructor
      · intro hx
        cases hx
      · rintro (h1 | ⟨_, h2⟩)
        · obtain ⟨a', ha'⟩ := hrep.closed b (cur ++ [n]) k h1 (by simp)
          exact absurd ha' (hnot a')
        · have := congrArg List.length h2
          simp at this
  · intro b π k hb hπ
    rcases (getElem?_snoc_eq_some _ _ _ _).1 hb with h1 | ⟨_, h2⟩
    · obtain ⟨a, ha⟩ := hrep.closed b π k h1 hπ
      exact ⟨a, (getElem?_snoc_eq_some _ _ _ _).2 (Or.inl ha)⟩
    · have := (List.append_inj' h2 rfl).1
      subst this
      rcases hloc with ⟨_, h2⟩ | ⟨t, _, _, h3⟩
      · exact absurd h2 hπ
      · exact ⟨t, (getElem?_snoc_eq_some _ _ _ _).2 (Or.inl h3)⟩
  · intro a b π ha hb
    rcases (getElem?_snoc_eq_some _ _ _ _).1 ha with h1 | ⟨h1, h2⟩
    · rcases (getElem?_snoc_eq_some _ _ _ _).1 hb with k1 | ⟨k1, k2⟩
      · exact hrep.inj a b π h1 k1
      · subst k2
        exact absurd h1 (hnot a)
    · rcases (getElem?_snoc_eq_some _ _ _ _).1 hb with k1 | ⟨k1, k2⟩
      · subst h2
        exact absurd k1 (hnot b)
      · rw [h1, k1]

/-! ## Call-graph mode: the invariant -/

/-- Changing fields of a record other than its name and child map keeps the
representation. -/
theorem treeRep_modify {P P' : Profiler} {paths : List (List String)} (hrep : TreeRep P paths)
    (p : Nat) (f : Profile → Profile)
    (hf : ∀ r, (f r).m_name = r.m_name ∧ (f r).m_subProfiles = r.m_subProfiles)
    (hheap : P'.heap = modifyAt f P.heap p) (hroot : P'.m_profiles = P.m_profiles) :
    TreeRep P' paths := by
  have hget : ∀ (a : Nat) (r' : Profile), P'.heap[a]? = some r' →
      ∃ r, P.heap[a]? = some r ∧ r'.m_name = r.m_name ∧
        r'.m_subProfiles = r.m_subProfiles := by
    intro a r' hr'
    rw [hheap, getElem?_modifyAt] at hr'
    split at hr'
    · cases hx : P.heap[a]? with
      | none => simp [hx] at hr'
      | some x =>
        simp only [hx, Option.map_some', Option.some.injEq] at hr'
        subst hr'
        exact ⟨x, rfl, (hf x).1, (hf x).2⟩
    · exact ⟨r', hr', rfl, rfl⟩
  refine ⟨?_, ?_, ?_, ?_, hrep.closed, hrep.inj⟩
  · rw [hheap, length_modifyAt]
    exact hrep.len
  · intro a r' π hr' hπ
    obtain ⟨r, hr, hn, _⟩ := hget a r' hr'
    rw [hn]
    exact hrep.names a r π hr hπ
  · intro n b
    rw [hroot]
    exact hrep.root n b
  · intro a r' π hr' hπ n b
    obtain ⟨r, hr, _, hs⟩ := hget a r' hr'
    rw [hs]
    exact hrep.subs a r π hr hπ n b

theorem modifyAt_callCount (f : Profile → Profile) (heap : List Profile) (p a : Nat)
    (r' : Profile) (hf : ∀ r, (f r).m_callCount = r.m_callCount)
    (h : (modifyAt f heap p)[a]? = some r') :
    ∃ r, heap[a]? = some r ∧ r'.m_callCount = r.m_callCount := by
  rw [getElem?_modifyAt] at h
  split at h
  · cases hx : heap[a]? with
    | none => simp [hx] at h
    | some x =>
      simp only [hx, Option.map_some', Option.some.injEq] at h
      subst h
      exact ⟨x, rfl, hf x⟩
  · exact ⟨r', h, rfl⟩

/-- Resolving a name in call-graph mode: the record of the call path that
extends the current one by the name is found or allocated. -/
theorem graphInv_resolve {s : Exec} {paths hist : List (List String)} {cur : List String}
    (h : GraphInv s paths hist cur) (n : String) :
    ∃ (b : Nat) (paths1 : List (List String)),
      (s.profiler.getProfile .callGraph n).1 = some b ∧
      TreeRep (s.profiler.getProfile .callGraph n).2 paths1 ∧
      (s.profiler.getProfile .callGraph n).2.m_profileStack = s.profiler.m_profileStack ∧
      StackOn paths1 s.profiler.m_profileStack cur ∧
      paths1[b]? = some (cur ++ [n]) ∧
      (∀ π : List String, π ∈ paths1 ↔ π ∈ hist ∨ π = cur ++ [n]) ∧
      (∀ (a : Nat) (r : Profile) (π : List String),
        (s.profiler.getProfile .callGraph n).2.heap[a]? = some r → paths1[a]? = some π →
        (r.m_callCount + (if a ∈ s.profiler.m_profileStack then 1 else 0)) % UINT_RANGE =
          hist.count π % UINT_RANGE) ∧
      (∀ (a : Nat) (r : Profile), (s.profiler.getProfile .callGraph n).2.heap[a]? = some r →
        r.m_callCount < UINT_RANGE) := by
  cases hfind : (s.profiler.readMap s.profiler.getCurrentProfilesRoot).find n with
  | some b =>
    have hb : paths[b]? = some (cur ++ [n]) := (current_map h.rep h.stack n b).1 hfind
    rw [getProfile_found s.profiler n b hfind]
    refine ⟨b, paths, rfl, h.rep, rfl, h.stack, hb, ?_, h.counts, h.bounded⟩
    intro π
    rw [h.hist_iff]
    constructor
    · exact Or.inl
    · rintro (h1 | h1)
      · exact h1
      · rw [← h.hist_iff, h1]
        exact List.getElem?_mem hb
  | none =>
    have hnot : ∀ b : Nat, paths[b]? ≠ some (cur ++ [n]) := by
      intro b hb
      rw [(current_map h.rep h.stack n b).2 hb] at hfind
      cases hfind
    have hnotmem : cur ++ [n] ∉ paths := by
      intro hmem
      obtain ⟨b, hb⟩ := List.mem_iff_getElem?.1 hmem
      exact hnot b hb
    rw [getProfile_alloc s.profiler n hfind]
    refine ⟨s.profiler.heap.length, paths ++ [cur ++ [n]], rfl,
      treeRep_alloc h.rep h.stack n hfind, writeMap_stack _ _ _,
      stackOn_mono _ h.stack, ?_, ?_, ?_, ?_⟩
    · rw [← h.rep.len]
      simp
    · intro π
      rw [List.mem_append, h.hist_iff, List.mem_singleton]
    · intro a r' π hr' hπ
      rcases writeMap_alloc_heap s.profiler n _ _ a r' hr' with
        ⟨r, hr, _, hc, _⟩ | ⟨ha, _, hc, _⟩
      · have hπ' : paths[a]? = some π := by
          rcases (getElem?_snoc_eq_some _ _ _ _).1 hπ with h1 | ⟨h1, _⟩
          · exact h1
          · have := (List.getElem?_eq_some.1 hr).1
            have := h.rep.len
            omega
        rw [hc]
        exact h.counts a r π hr hπ'
      · have hπ' : π = cur ++ [n] := by
          rcases (getElem?_snoc_eq_some _ _ _ _).1 hπ with h1 | ⟨_, h2⟩
          · have := (List.getElem?_eq_some.1 h1).1
            have := h.rep.len
            omega
          · exact h2.symm
        subst hπ'
        have hstack : a ∉ s.profiler.m_profileStack := by
          intro hmem
          obtain ⟨π, hπ1, _⟩ := stackOn_mem_length h.stack a hmem
          have := (List.getElem?_eq_some.1 hπ1).1
          have := h.rep.len
          omega
        have hcount : hist.count (cur ++ [n]) = 0 :=
          List.count_eq_zero.2 (fun hm => hnotmem ((h.hist_iff _).2 hm))
        simp [hc, hstack, hcount]
    · intro a r' hr'
      rcases writeMap_alloc_heap s.profiler n _ _ a r' hr' with
        ⟨r, hr, _, hc, _⟩ | ⟨_, _, hc, _⟩
      · rw [hc]
        exact h.bounded a r hr
      · rw [hc]
        decide

theorem start_callGraph_eq (P : Profiler) (b : Nat) (now : Int) :
    (Profile.start .callGraph P b now).2 =
      { P with
        m_profileStack := P.m_profileStack ++ [b],
        heap := modifyAt (fun r => { r with m_timer := r.m_timer.start now }) P.heap b } := rfl

/-- Resolving and starting the record of a name in call-graph mode, as a guard
that is not omitted does: the activation's call path extends the current one. -/
theorem graphInv_activate {s : Exec} {paths hist : List (List String)} {cur : List String}
    (h : GraphInv s paths hist cur) (n : String) (now : Int) :
    ∃ (b : Nat) (paths1 : List (List String)),
      (s.profiler.getProfile .callGraph n).1 = some b ∧
      GraphInv
        { profiler := (Profile.start .callGraph (s.profiler.getProfile .callGraph n).2 b now).2,
          guards := { m_profile := some b } :: s.guards }
        paths1 (hist ++ [cur ++ [n]]) (cur ++ [n]) := by
  obtain ⟨b, paths1, hgp, hrep1, hst1, hstack1, hb, hiff, hcounts, hbound⟩ :=
    graphInv_resolve h n
  refine ⟨b, paths1, hgp, ?_⟩
  have hnotmem : b ∉ s.profiler.m_profileStack := stackOn_not_mem hstack1 hb
  refine ⟨?_, ?_, ?_, ?_, ?_, ?_⟩
  · exact treeRep_modify hrep1 b (fun r => { r with m_timer := r.m_timer.start now })
      (fun r => ⟨rfl, rfl⟩) rfl rfl
  · simp only [start_callGraph_eq, hst1]
    exact StackOn.snoc b n hstack1 hb
  · simp only [start_callGraph_eq, hst1, List.filterMap_cons, h.guards, List.reverse_append,
      List.reverse_singleton, List.singleton_append]
  · intro π
    rw [hiff, List.mem_append, List.mem_singleton]
  · intro a r' π hr' hπ
    simp only [start_callGraph_eq] at hr'
    obtain ⟨r1, hr1, hc⟩ := modifyAt_callCount
      (fun r => { r with m_timer := r.m_timer.start now }) _ b a r' (fun r => rfl) hr'
    have hold := hcounts a r1 π hr1 hπ
    simp only [start_callGraph_eq, hst1, List.mem_append, List.mem_singleton,
      List.count_append, hc]
    by_cases hab : a = b
    · subst hab
      rw [hb] at hπ
      cases hπ
      simp only [hnotmem, if_false, Nat.add_zero] at hold
      simp only [hnotmem, false_or, if_true, List.count_singleton_self, UINT_RANGE] at hold ⊢
      omega
    · have hne : ¬ (cur ++ [n] = π) := by
        intro he
        subst he
        exact hab (hrep1.inj a b _ hπ hb)
      have hcnt : List.count π [cur ++ [n]] = 0 := by
        rw [List.count_eq_zero]
        simpa using fun he => hne he.symm
      simp only [hab, or_false, hcnt, Nat.add_zero]
      exact hold
  · intro a r' hr'
    simp only [start_callGraph_eq] at hr'
    obtain ⟨r1, hr1, hc⟩ := modifyAt_callCount
      (fun r => { r with m_timer := r.m_timer.start now }) _ b a r' (fun r => rfl) hr'
    rw [hc]
    exact hbound a r1 hr1

theorem graphInv_isInStack {s : Exec} {paths hist : List (List String)} {cur : List String}
    (h : GraphInv s paths hist cur) (n : String) :
    s.profiler.isInStack n = true ↔ n ∈ cur := by
  rw [isInStack_iff]
  exact stackOn_names h.rep h.stack n

/-- Entering a region that is not on the current call path. -/
theorem graphInv_enter_fresh {s : Exec} {paths hist : List (List String)} {cur : List String}
    (h : GraphInv s paths hist cur) (n : String) (now : Int) (hn : n ∉ cur) :
    ∃ (b : Nat) (paths1 : List (List String)),
      (step .callGraph s (Event.enter n now)).guards = { m_profile := some b } :: s.guards ∧
      GraphInv (step .callGraph s (Event.enter n now)) paths1 (hist ++ [cur ++ [n]])
        (cur ++ [n]) := by
  have hin : s.profiler.isInStack n = false := by
    cases hx : s.profiler.isInStack n with
    | false => rfl
    | true => exact absurd ((graphInv_isInStack h n).1 hx) hn
  obtain ⟨p, hp, hc⟩ := ctor_callGraph_resolved s.profiler n now (by simp [hin])
  simp only [hin, Bool.false_eq_true, if_false] at hp hc
  obtain ⟨b, paths1, hb, hinv⟩ := graphInv_activate h n now
  rw [hp] at hb
  cases hb
  refine ⟨p, paths1, ?_, ?_⟩
  · simp only [step, hc]
  · simp only [step, hc]
    exact hinv

/-- Destroying the innermost guard when it holds a record. -/
theorem graphInv_leave_active {s : Exec} {paths hist : List (List String)} {cur : List String}
    (h : GraphInv s paths hist cur) (p : Nat) (G : List ScopedProfile) (now : Int)
    (hG : s.guards = { m_profile := some p } :: G) :
    cur ≠ [] ∧ (step .callGraph s (Event.leave now)).guards = G ∧
      GraphInv (step .callGraph s (Event.leave now)) paths hist cur.dropLast := by
  have hg := h.guards
  rw [hG] at hg
  simp only [List.filterMap_cons] at hg
  have hstackeq : s.profiler.m_profileStack =
      (G.filterMap (fun g => g.m_profile)).reverse ++ [p] := by
    have := congrArg List.reverse hg
    simpa using this.symm
  have hst := h.stack
  rw [hstackeq] at hst
  obtain ⟨cur0, n0, hcur, hst0, hp⟩ := stackOn_concat_inv hst
  have hnotmem : p ∉ (G.filterMap (fun g => g.m_profile)).reverse :=
    stackOn_not_mem hst0 hp
  have hstep : step .callGraph s (Event.leave now) =
      { profiler := (Profile.stop .callGraph s.profiler p now).2, guards := G } := by
    simp only [step, hG, ScopedProfile.dtor]
  have hstack' : (Profile.stop .callGraph s.profiler p now).2.m_profileStack =
      (G.filterMap (fun g => g.m_profile)).reverse := by
    rw [stop_stack_callGraph, hstackeq, List.dropLast_concat]
  have hheap' : (Profile.stop .callGraph s.profiler p now).2.heap =
      modifyAt (fun r => r.accumulate now) s.profiler.heap p := by
    simp only [Profile.stop, Profiler.modifyProfile, popProfile_heap]
  have hroot' : (Profile.stop .callGraph s.profiler p now).2.m_profiles =
      s.profiler.m_profiles := by
    simp only [Profile.stop, Profiler.modifyProfile, Profiler.popProfile]
    split <;> rfl
  subst hcur
  refine ⟨by simp, by rw [hstep], ?_⟩
  rw [hstep]
  refine ⟨?_, ?_, ?_, h.hist_iff, ?_, ?_⟩
  · exact treeRep_modify h.rep p (fun r => r.accumulate now) (fun r => ⟨rfl, rfl⟩)
      hheap' hroot'
  · simp only [hstack', List.dropLast_concat]
    exact hst0
  · simp only [hstack', List.reverse_reverse]
  · intro a r' π hr' hπ
    simp only [hstack']
    by_cases hap : a = p
    · subst hap
      obtain ⟨r, hr⟩ := treeRep_valid h.rep hπ
      obtain ⟨r1, h1, h2, _⟩ := stop_record .callGraph s.profiler a r now hr rfl
      simp only at hr'
      rw [hr'] at h1
      cases h1
      have hold := h.counts a r π hr hπ
      simp only [hstackeq, List.mem_append, List.mem_singleton, or_true, if_true] at hold
      simp only [hnotmem, if_false, h2, Nat.add_zero, Nat.mod_mod]
      exact hold
    · simp only at hr'
      rw [stop_other .callGraph s.profiler p a now hap] at hr'
      have hold := h.counts a r' π hr' hπ
      simp only [hstackeq, List.mem_append, List.mem_singleton, hap, or_false] at hold
      exact hold
  · intro a r' hr'
    by_cases hap : a = p
    · subst hap
      simp only at hr'
      rw [hheap', getElem?_modifyAt_self] at hr'
      cases hx : s.profiler.heap[a]? with
      | none => simp [hx] at hr'
      | some x =>
        simp only [hx, Option.map_some', Option.some.injEq] at hr'
        subst hr'
        exact Nat.mod_lt _ (by decide)
    · simp only at hr'
      rw [stop_other .callGraph s.profiler p a now hap] at hr'
      exact h.bounded a r' hr'

theorem graphInv_setOmit {s : Exec} {paths hist : List (List String)} {cur : List String}
    (h : GraphInv s paths hist cur) (b : Bool) :
    GraphInv (step .callGraph s (Event.setOmit b)) paths hist cur :=
  ⟨⟨h.rep.len, h.rep.names, h.rep.root, h.rep.subs, h.rep.closed, h.rep.inj⟩,
    h.stack, h.guards, h.hist_iff, h.counts, h.bounded⟩

theorem graphInv_init : GraphInv Exec.init [] [] [] := by
  refine ⟨⟨rfl, ?_, ?_, ?_, ?_, ?_⟩, StackOn.nil, rfl, fun _ => Iff.rfl, ?_, ?_⟩
  · intro a r π hr
    simp [Exec.init, Profiler.ctor] at hr
  · intro n b
    simp [Exec.init, Profiler.ctor, ProfileMap.find]
  · intro a r π hr
    simp [Exec.init, Profiler.ctor] at hr
  · intro b π n hb
    simp at hb
  · intro a b π ha
    simp at ha
  · intro a r π hr
    simp [Exec.init, Profiler.ctor] at hr
  · intro a r hr
    simp [Exec.init, Profiler.ctor] at hr

/-- A call-graph execution in which no region is entered while one of its
activations is open: every guard is active and the activations are recorded
on their call paths. -/
theorem graphInv_run (tr : List Event) (s : Exec) (paths hist : List (List String))
    (cur : List String) (h : GraphInv s paths hist cur)
    (hact : ∀ g, g ∈ s.guards → g.active = true) (hnr : nonRecursive cur tr = true) :
    ∃ paths1, GraphInv (run .callGraph s tr) paths1 (hist ++ callPaths cur tr)
      (openAfter cur tr) := by
  induction tr generalizing s paths hist cur with
  | nil => exact ⟨paths, by simpa [callPaths, openAfter, run] using h⟩
  | cons e tr ih =>
    cases e with
    | enter n now =>
      simp only [nonRecursive, Bool.and_eq_true, Bool.not_eq_true', List.contains_eq_any_beq,
        List.any_eq_false, beq_iff_eq] at hnr
      have hn : n ∉ cur := fun hmem => hnr.1 n hmem rfl
      obtain ⟨b, paths1, hg, hinv⟩ := graphInv_enter_fresh h n now hn
      have hact' : ∀ g, g ∈ (step .callGraph s (Event.enter n now)).guards →
          g.active = true := by
        intro g hgm
        rw [hg] at hgm
        rcases List.mem_cons.1 hgm with rfl | hgm
        · rfl
        · exact hact g hgm
      obtain ⟨paths2, h2⟩ := ih _ paths1 _ _ hinv hact' hnr.2
      exact ⟨paths2, by simpa [run_cons, callPaths, openAfter, List.append_assoc] using h2⟩
    | leave now =>
      simp only [nonRecursive] at hnr
      cases hG : s.guards with
      | nil =>
        have hstack : s.profiler.m_profileStack = [] := by
          have := h.guards
          rw [hG] at this
          simpa using this.symm
        have hcur : cur = [] := by
          have := h.stack
          rw [hstack] at this
          exact stackOn_nil_left this
        subst hcur
        have hstep : step .callGraph s (Event.leave now) = s := by
          simp only [step, hG]
        obtain ⟨paths2, h2⟩ := ih s paths hist [] h hact (by simpa using hnr)
        exact ⟨paths2, by simpa [run_cons, hstep, callPaths, openAfter] using h2⟩
      | cons g G =>
        have hga : g.active = true := hact g (by rw [hG]; exact List.mem_cons_self _ _)
        obtain ⟨p, hp⟩ : ∃ p, g.m_profile = some p :=
          Option.isSome_iff_exists.1 hga
        have hG' : s.guards = { m_profile := some p } :: G := by
          rw [hG, ← hp]
        obtain ⟨_, hg', hinv⟩ := graphInv_leave_active h p G now hG'
        have hact' : ∀ g, g ∈ (step .callGraph s (Event.leave now)).guards →
            g.active = true := by
          intro g0 hgm
          rw [hg'] at hgm
          exact hact g0 (by rw [hG]; exact List.mem_cons_of_mem _ hgm)
        obtain ⟨paths2, h2⟩ := ih _ paths hist _ hinv hact' hnr
        exact ⟨paths2, by simpa [run_cons, callPaths, openAfter] using h2⟩
    | setOmit b =>
      simp only [nonRecursive] at hnr
      have hact' : ∀ g, g ∈ (step .callGraph s (Event.setOmit b)).guards →
          g.active = true := hact
      obtain ⟨paths2, h2⟩ := ih _ paths hist cur (graphInv_setOmit h b) hact' hnr
      exact ⟨paths2, by simpa [run_cons, callPaths, openAfter] using h2⟩

theorem closes_openAfter (tr : List Event) (cur : List String)
    (h : closes cur.length tr = true) : openAfter cur tr = [] := by
  induction tr generalizing cur with
  | nil =>
    cases cur with
    | nil => rfl
    | cons n ns => simp [closes] at h
  | cons e tr ih =>
    cases e with
    | enter n t => exact ih (cur ++ [n]) (by simpa [closes] using h)
    | leave t =>
      rcases List.eq_nil_or_concat cur with hnil | ⟨c, x, hc⟩
      · subst hnil
        simp [closes] at h
      · rw [List.concat_eq_append] at hc
        subst hc
        simp only [openAfter, List.dropLast_concat]
        exact ih c (by simpa [closes] using h)
    | setOmit b => exact ih cur (by simpa [closes] using h)

/-- What the invariant says about the record tree once every guard is closed. -/
theorem graphInv_final {s : Exec} {paths hist : List (List String)}
    (h : GraphInv s paths hist []) :
    (∀ π : List String, (s.profiler.nodeAt π).isSome = true ↔ π ∈ hist) ∧
    (∀ (π : List String) (a : Nat), s.profiler.nodeAt π = some a →
      ∃ r, s.profiler.heap[a]? = some r ∧ π.getLast? = some r.m_name ∧
        r.m_callCount = hist.count π % UINT_RANGE) ∧
    (∀ (π π' : List String) (a : Nat), s.profiler.nodeAt π = some a →
      s.profiler.nodeAt π' = some a → π = π') ∧
    s.profiler.heap.length = hist.dedup.length := by
  have hstack : s.profiler.m_profileStack = [] := by
    have := stackOn_length h.stack
    simpa using this
  refine ⟨?_, ?_, ?_, ?_⟩
  · intro π
    rw [← h.hist_iff, List.mem_iff_getElem?, Option.isSome_iff_exists]
    constructor
    · rintro ⟨a, ha⟩
      exact ⟨a, (treeRep_nodeAt h.rep π a).1 ha⟩
    · rintro ⟨a, ha⟩
      exact ⟨a, (treeRep_nodeAt h.rep π a).2 ha⟩
  · intro π a ha
    have hπ := (treeRep_nodeAt h.rep π a).1 ha
    obtain ⟨r, hr⟩ := treeRep_valid h.rep hπ
    refine ⟨r, hr, h.rep.names a r π hr hπ, ?_⟩
    have hc := h.counts a r π hr hπ
    simp only [hstack, List.not_mem_nil, if_false, Nat.add_zero] at hc
    rw [← hc, Nat.mod_eq_of_lt (h.bounded a r hr)]
  · intro π π' a ha ha'
    have h1 := (treeRep_nodeAt h.rep π a).1 ha
    have h2 := (treeRep_nodeAt h.rep π' a).1 ha'
    rw [h1] at h2
    exact Option.some.inj h2
  · have hnodup : paths.Nodup := by
      rw [List.nodup_iff_getElem?_ne_getElem?]
      intro i j hij hj heq
      have hjs : paths[j]? = some paths[j] := List.getElem?_eq_getElem hj
      rw [hjs] at heq
      have := h.rep.inj i j _ heq hjs
      omega
    have hperm : paths.Perm hist.dedup := by
      rw [List.perm_ext_iff_of_nodup hnodup (List.nodup_dedup hist)]
      intro π
      rw [List.mem_dedup]
      exact h.hist_iff π
    rw [← h.rep.len]
    exact hperm.length_eq

/-- Call-graph mode, well-nested and fully closed executions from the initial
state in which no region is entered while one of its activations is open. -/
theorem callGraph_closed_run (tr : List Event) (hclosed : closes 0 tr = true)
    (hnr : nonRecursive [] tr = true) :
    ∃ paths, GraphInv (run .callGraph Exec.init tr) paths (callPaths [] tr) [] := by
  obtain ⟨paths, h⟩ := graphInv_run tr Exec.init [] [] [] graphInv_init
    (fun g hg => by cases hg) hnr
  rw [closes_openAfter tr [] hclosed] at h
  exact ⟨paths, by simpa using h⟩

theorem sequentialCalls_paths (name : String) (acts : List (Int × Int)) :
    nonRecursive [] (sequentialCalls name acts) = true ∧
      callPaths [] (sequentialCalls name acts) = List.replicate acts.length [name] := by
  induction acts with
  | nil => exact ⟨rfl, rfl⟩
  | cons a acts ih =>
    obtain ⟨t0, t1⟩ := a
    refine ⟨?_, ?_⟩
    · simpa [sequentialCalls, nonRecursive] using ih.1
    · simp [sequentialCalls, callPaths, ih.2, List.replicate_succ]

/-! ## Resolving a record twice -/

theorem flat_getProfile_alloc (P : Profiler) (name : String)
    (h : P.m_profiles.find name = none) :
    P.getProfile .flat name =
      (some P.heap.length,
        { P with heap := P.heap ++ [Profile.ctor name],
                 m_profiles := P.m_profiles.insert name P.heap.length }) := by
  simp [Profiler.getProfile, Profiler.readMap, h, Profiler.writeMap]

theorem readMap_writeMap_alloc (P : Profiler) (name : String) (m' : ProfileMap)
    (loc : Option Nat) (hloc : ∀ t, loc = some t → t < P.heap.length) :
    (Profiler.writeMap { P with heap := P.heap ++ [Profile.ctor name] } m' loc).readMap loc
      = m' := by
  cases loc with
  | none => rfl
  | some t =>
    have ht := hloc t rfl
    simp only [Profiler.writeMap, Profiler.readMap, Profiler.modifyProfile,
      getElem?_modifyAt_self, List.getElem?_append_left ht, List.getElem?_eq_getElem ht,
      Option.map_some', Profile.getSubProfiles]

/-- A second `getProfile` with the same name at the same position returns the
same record and changes nothing. -/
theorem getProfile_idem (mode : Mode) (P : Profiler) (name : String)
    (htop : ∀ t, P.m_profileStack.getLast? = some t → t < P.heap.length) :
    (P.getProfile mode name).2.getProfile mode name =
      ((P.getProfile mode name).1, (P.getProfile mode name).2) := by
  cases mode with
  | flat =>
    cases hfind : P.m_profiles.find name with
    | some p =>
      rw [flat_getProfile_found P name p hfind]
      exact flat_getProfile_found P name p hfind
    | none =>
      rw [flat_getProfile_alloc P name hfind]
      exact flat_getProfile_found _ name _ (by simp [find_insert])
  | callGraph =>
    cases hfind : (P.readMap P.getCurrentProfilesRoot).find name with
    | some p =>
      rw [getProfile_found P name p hfind]
      exact getProfile_found P name p hfind
    | none =>
      rw [getProfile_alloc P name hfind]
      refine getProfile_found _ name _ ?_
      have hroot : (Profiler.writeMap { P with heap := P.heap ++ [Profile.ctor name] }
          ((P.readMap P.getCurrentProfilesRoot).insert name P.heap.length)
          P.getCurrentProfilesRoot).getCurrentProfilesRoot = P.getCurrentProfilesRoot := by
        simp only [Profiler.getCurrentProfilesRoot, writeMap_stack]
      have h1 := readMap_writeMap_alloc P name
        ((P.readMap P.getCurrentProfilesRoot).insert name P.heap.length)
        P.getCurrentProfilesRoot htop
      rw [hroot]
      simp only [h1, find_insert, if_true]

/-! ## Records are never removed -/

theorem mapsGrow_refl (P : Profiler) : MapsGrow P P :=
  ⟨fun _ _ h => h, fun _ r h => ⟨r, h, rfl, fun _ _ hk => hk⟩⟩

theorem mapsGrow_trans {P1 P2 P3 : Profiler} (h12 : MapsGrow P1 P2) (h23 : MapsGrow P2 P3) :
    MapsGrow P1 P3 := by
  refine ⟨fun k v h => h23.1 k v (h12.1 k v h), ?_⟩
  intro a r hr
  obtain ⟨r2, hr2, hn2, hs2⟩ := h12.2 a r hr
  obtain ⟨r3, hr3, hn3, hs3⟩ := h23.2 a r2 hr2
  exact ⟨r3, hr3, hn3.trans hn2, fun k v hk => hs3 k v (hs2 k v hk)⟩

theorem mapsGrow_modify (P P' : Profiler) (p : Nat) (f : Profile → Profile)
    (hf : ∀ r, (f r).m_name = r.m_name ∧ (f r).m_subProfiles = r.m_subProfiles)
    (hheap : P'.heap = modifyAt f P.heap p) (hroot : P'.m_profiles = P.m_profiles) :
    MapsGrow P P' := by
  refine ⟨fun k v h => by rw [hroot]; exact h, ?_⟩
  intro a r hr
  rw [hheap, getElem?_modifyAt, hr]
  split
  · exact ⟨f r, rfl, (hf r).1, fun k v hk => by rw [(hf r).2]; exact hk⟩
  · exact ⟨r, rfl, rfl, fun k v hk => hk⟩

theorem find_insert_of_find {m : ProfileMap} {name k : String} {v w : Nat}
    (hnone : m.find name = none) (hk : m.find k = some v) :
    (m.insert name w).find k = some v := by
  rw [find_insert]
  split
  · rename_i h
    subst h
    rw [hnone] at hk
    cases hk
  · exact hk

theorem mapsGrow_writeMap_alloc (P : Profiler) (name : String) (loc : Option Nat)
    (hnone : (P.readMap loc).find name = none) :
    MapsGrow P (Profiler.writeMap { P with heap := P.heap ++ [Profile.ctor name] }
      ((P.readMap loc).insert name P.heap.length) loc) := by
  cases loc with
  | none =>
    refine ⟨fun k v h => find_insert_of_find hnone h, ?_⟩
    intro a r hr
    refine ⟨r, ?_, rfl, fun k v hk => hk⟩
    simp only [Profiler.writeMap]
    rw [List.getElem?_append_left (List.getElem?_eq_some.1 hr).1]
    exact hr
  | some t =>
    refine ⟨fun k v h => h, ?_⟩
    intro a r hr
    have hlt := (List.getElem?_eq_some.1 hr).1
    simp only [Profiler.writeMap, Profiler.modifyProfile, getElem?_modifyAt,
      List.getElem?_append_left hlt, hr]
    split
    · rename_i hat
      subst hat
      have hread : P.readMap (some a) = r.m_subProfiles := by
        simp [Profiler.readMap, hr, Profile.getSubProfiles]
      rw [hread] at hnone ⊢
      exact ⟨_, rfl, rfl, fun k v hk => find_insert_of_find hnone hk⟩
    · exact ⟨r, rfl, rfl, fun k v hk => hk⟩

theorem mapsGrow_getProfile (mode : Mode) (P : Profiler) (name : String) :
    MapsGrow P (P.getProfile mode name).2 := by
  cases mode with
  | flat =>
    cases hfind : P.m_profiles.find name with
    | some p =>
      rw [flat_getProfile_found P name p hfind]
      exact mapsGrow_refl P
    | none =>
      rw [flat_getProfile_alloc P name hfind]
      exact mapsGrow_writeMap_alloc P name none hfind
  | callGraph =>
    cases hfind : (P.readMap P.getCurrentProfilesRoot).find name with
    | some p =>
      rw [getProfile_found P name p hfind]
      exact mapsGrow_refl P
    | none =>
      rw [getProfile_alloc P name hfind]
      exact mapsGrow_writeMap_alloc P name _ hfind

theorem mapsGrow_start (mode : Mode) (P : Profiler) (p : Nat) (now : Int) :
    MapsGrow P (Profile.start mode P p now).2 := by
  cases mode with
  | callGraph =>
    exact mapsGrow_modify P _ p (fun r => { r with m_timer := r.m_timer.start now })
      (fun r => ⟨rfl, rfl⟩) rfl rfl
  | flat =>
    simp only [Profile.start]
    split
    · exact mapsGrow_refl P
    · exact mapsGrow_modify P _ p
        (fun r => { r with m_timeStarted := true, m_timer := r.m_timer.start now })
        (fun r => ⟨rfl, rfl⟩) rfl rfl

theorem mapsGrow_stop (mode : Mode) (P : Profiler) (p : Nat) (now : Int) :
    MapsGrow P (Profile.stop mode P p now).2 := by
  cases mode with
  | callGraph =>
    refine mapsGrow_modify P _ p (fun r => r.accumulate now) (fun r => ⟨rfl, rfl⟩) ?_ ?_
    · simp only [Profile.stop, Profiler.modifyProfile, popProfile_heap]
    · simp only [Profile.stop, Profiler.modifyProfile, Profiler.popProfile]
      split <;> rfl
  | flat =>
    simp only [Profile.stop]
    split
    · exact mapsGrow_modify P _ p
        (fun r => Profile.accumulate { r with m_timeStarted := false } now)
        (fun r => ⟨rfl, rfl⟩) rfl rfl
    · exact mapsGrow_refl P

theorem mapsGrow_step (mode : Mode) (s : Exec) (e : Event) :
    MapsGrow s.profiler (step mode s e).profiler := by
  cases e with
  | enter name now =>
    simp only [step]
    rcases ctor_cases mode s.profiler name now with h | ⟨n, p, _, h⟩
    · rw [h]
      exact mapsGrow_refl _
    · rw [h]
      exact mapsGrow_trans (mapsGrow_getProfile mode s.profiler n) (mapsGrow_start mode _ p now)
  | leave now =>
    simp only [step]
    cases hG : s.guards with
    | nil => exact mapsGrow_refl _
    | cons g G =>
      cases hg : g.m_profile with
      | none =>
        simp only [ScopedProfile.dtor, hg]
        exact mapsGrow_refl _
      | some p =>
        simp only [ScopedProfile.dtor, hg]
        exact mapsGrow_stop mode s.profiler p now
  | setOmit b =>
    cases mode
    · exact mapsGrow_refl _
    · exact ⟨fun _ _ h => h, fun _ r h => ⟨r, h, rfl, fun _ _ hk => hk⟩⟩

theorem mapsGrow_run (mode : Mode) (tr : List Event) (s : Exec) :
    MapsGrow s.profiler (run mode s tr).profiler := by
  induction tr generalizing s with
  | nil => exact mapsGrow_refl _
  | cons e tr ih => exact mapsGrow_trans (mapsGrow_step mode s e) (ih (step mode s e))

/-- A walk that finds a record still finds it when the maps have grown. -/
theorem mapsGrow_walk {P P' : Profiler} (h : MapsGrow P P') (path : List String)
    (m m' : ProfileMap)
    (hm : ∀ (k : String) (v : Nat), m.find k = some v → m'.find k = some v) (a : Nat)
    (hw : P.walk m path = some a) : P'.walk m' path = some a := by
  induction path generalizing m m' with
  | nil => simp [Profiler.walk] at hw
  | cons n rest ih =>
    cases hf : m.find n with
    | none =>
      rw [walk_none P m n rest hf] at hw
      cases hw
    | some b =>
      cases rest with
      | nil =>
        rw [walk_single, hf] at hw
        rw [walk_single, hm n b hf]
        exact hw
      | cons n2 rest =>
        cases hr : P.heap[b]? with
        | none =>
          simp [Profiler.walk, hf, hr] at hw
        | some r =>
          rw [walk_step P m n n2 rest b r hf hr] at hw
          obtain ⟨r', hr', _, hs⟩ := h.2 b r hr
          rw [walk_step P' m' n n2 rest b r' (hm n b hf) hr']
          exact ih r.m_subProfiles r'.m_subProfiles hs hw

/-! ## Construction and destruction are balanced -/

theorem ctor_callGraph_stack_eq (P : Profiler) (name : String) (now : Int) :
    (ScopedProfile.ctor .callGraph P name now).2.m_profileStack =
      P.m_profileStack ++ (ScopedProfile.ctor .callGraph P name now).1.m_profile.toList := by
  cases h : (P.isInStack name && P.getOmitRecursiveCalls)
  · obtain ⟨p, _, hc⟩ := ctor_callGraph_resolved P name now h
    rw [hc]
    simp [start_stack_callGraph, getProfile_stack]
  · simp [ScopedProfile.ctor, h]

theorem dtor_callGraph_stack_eq (g : ScopedProfile) (P : Profiler) (now : Int) :
    (g.dtor .callGraph P now).m_profileStack =
      (match g.m_profile with
      | some _ => P.m_profileStack.dropLast
      | none => P.m_profileStack) := by
  cases hg : g.m_profile with
  | none => simp [ScopedProfile.dtor, hg]
  | some p => simp [ScopedProfile.dtor, hg, stop_stack_callGraph]

/-- Call-graph mode: a well-nested sequence that closes the `N.length` guards
opened since the stack was `S`, and every guard it opens, ends with the stack `S`. -/
theorem callGraph_balanced (tr : List Event) (s : Exec) (N G : List ScopedProfile)
    (S : List Nat) (hG : s.guards = N ++ G)
    (hS : s.profiler.m_profileStack = S ++ (N.filterMap (fun g => g.m_profile)).reverse)
    (hclosed : closes N.length tr = true) :
    (run .callGraph s tr).guards = G ∧ (run .callGraph s tr).profiler.m_profileStack = S := by
  induction tr generalizing s N with
  | nil =>
    cases N with
    | nil => exact ⟨by simpa using hG, by simpa using hS⟩
    | cons g N => simp [closes] at hclosed
  | cons e tr ih =>
    cases e with
    | enter name now =>
      rw [run_cons]
      refine ih _ ((ScopedProfile.ctor .callGraph s.profiler name now).1 :: N) ?_ ?_ ?_
      · simp [step, hG]
      · simp only [step, ctor_callGraph_stack_eq, hS, List.filterMap_cons]
        cases (ScopedProfile.ctor .callGraph s.profiler name now).1.m_profile <;> simp
      · simpa [closes] using hclosed
    | leave now =>
      cases N with
      | nil => simp [closes] at hclosed
      | cons g N =>
        rw [run_cons]
        refine ih _ N ?_ ?_ ?_
        · simp [step, hG]
        · simp only [step, hG, List.cons_append, dtor_callGraph_stack_eq, hS,
            List.filterMap_cons]
          cases g.m_profile <;> simp [List.dropLast_concat, ← List.append_assoc]
        · simpa [closes] using hclosed
    | setOmit b =>
      rw [run_cons]
      exact ih _ N hG hS (by simpa [closes] using hclosed)

/-- Flat mode: the three things the construction of a guard can do. -/
theorem flat_ctor_cases (P : Profiler) (n : String) (t : Int)
    (hvalid : ∀ (name : String) (p : Nat), P.m_profiles.find name = some p →
      p < P.heap.length) :
    ScopedProfile.ctor .flat P n t = ({ m_profile := none }, P) ∨
    (∃ p r, P.heap[p]? = some r ∧ r.m_timeStarted = false ∧
      ScopedProfile.ctor .flat P n t =
        ({ m_profile := some p }, P.modifyProfile p
          (fun r => { r with m_timeStarted := true, m_timer := r.m_timer.start t }))) ∨
    (P.m_profiles.find n = none ∧
      ScopedProfile.ctor .flat P n t =
        ({ m_profile := some P.heap.length },
          Profiler.modifyProfile
            { P with heap := P.heap ++ [Profile.ctor n],
                     m_profiles := P.m_profiles.insert n P.heap.length } P.heap.length
            (fun r => { r with m_timeStarted := true, m_timer := r.m_timer.start t }))) := by
  cases hfind : P.m_profiles.find n with
  | some p =>
    have hlt := hvalid n p hfind
    have hr : P.heap[p]? = some P.heap[p] := List.getElem?_eq_getElem hlt
    cases hrun : (P.heap[p]).m_timeStarted with
    | true => exact Or.inl (flat_ctor_running P n p _ t hfind hr hrun)
    | false =>
      refine Or.inr (Or.inl ⟨p, _, hr, hrun, ?_⟩)
      simp [ScopedProfile.ctor, flat_getProfile_found P n p hfind, Profile.start, hr, hrun]
  | none =>
    refine Or.inr (Or.inr ⟨rfl, ?_⟩)
    have hnew : (P.heap ++ [Profile.ctor n])[P.heap.length]? = some (Profile.ctor n) := by
      simp
    simp [ScopedProfile.ctor, Profiler.getProfile, Profiler.readMap, hfind, Profile.start,
      Profiler.writeMap, hnew, Profile.ctor, Profiler.modifyProfile]

theorem flatBalance_start {P : Profiler} {N : List ScopedProfile} (h : FlatBalance P N)
    (p : Nat) (r : Profile) (t : Int) (hr : P.heap[p]? = some r)
    (hidle : r.m_timeStarted = false) :
    FlatBalance (P.modifyProfile p
        (fun r => { r with m_timeStarted := true, m_timer := r.m_timer.start t }))
      ({ m_profile := some p } :: N) := by
  have hnot : p ∉ N.filterMap (fun g => g.m_profile) := by
    intro hmem
    have := (h.running p r hr).2 hmem
    rw [hidle] at this
    cases this
  refine ⟨?_, ?_, ?_, ?_⟩
  · intro name q hq
    simp only [Profiler.modifyProfile, length_modifyAt]
    exact h.valid name q hq
  · intro q hq
    simp only [Profiler.modifyProfile, length_modifyAt]
    simp only [List.filterMap_cons, List.mem_cons] at hq
    rcases hq with rfl | hq
    · exact (List.getElem?_eq_some.1 hr).1
    · exact h.held q hq
  · intro a r' hr'
    simp only [Profiler.modifyProfile, getElem?_modifyAt] at hr'
    simp only [List.filterMap_cons, List.mem_cons]
    split at hr'
    · rename_i hap
      subst hap
      rw [hr] at hr'
      simp only [Option.map_some', Option.some.injEq] at hr'
      subst hr'
      simp
    · rename_i hap
      rw [h.running a r' hr']
      simp [hap]
  · simp only [List.filterMap_cons, List.nodup_cons]
    exact ⟨hnot, h.nodup⟩

theorem flatBalance_alloc {P : Profiler} {N : List ScopedProfile} (h : FlatBalance P N)
    (n : String) :
    FlatBalance { P with heap := P.heap ++ [Profile.ctor n],
                         m_profiles := P.m_profiles.insert n P.heap.length } N := by
  refine ⟨?_, ?_, ?_, h.nodup⟩
  · intro name q hq
    simp only [find_insert] at hq
    simp only [List.length_append, List.length_singleton]
    split at hq
    · cases hq
      omega
    · have := h.valid name q hq
      omega
  · intro q hq
    simp only [List.length_append, List.length_singleton]
    have := h.held q hq
    omega
  · intro a r' hr'
    rcases (getElem?_snoc_eq_some _ _ _ _).1 hr' with h1 | ⟨h1, h2⟩
    · exact h.running a r' h1
    · subst h2
      subst h1
      constructor
      · intro hx
        simp [Profile.ctor] at hx
      · intro hmem
        have := h.held _ hmem
        omega

theorem flatBalance_ctor {P : Profiler} {N : List ScopedProfile} (h : FlatBalance P N)
    (n : String) (t : Int) :
    FlatBalance (ScopedProfile.ctor .flat P n t).2
      ((ScopedProfile.ctor .flat P n t).1 :: N) := by
  rcases flat_ctor_cases P n t h.valid with hc | ⟨p, r, hr, hidle, hc⟩ | ⟨_, hc⟩
  · rw [hc]
    exact ⟨h.valid, by simpa using h.held, by simpa using h.running, by simpa using h.nodup⟩
  · rw [hc]
    exact flatBalance_start h p r t hr hidle
  · rw [hc]
    have h1 := flatBalance_alloc h n
    exact flatBalance_start h1 P.heap.length (Profile.ctor n) t (by simp) rfl

theorem flatBalance_dtor {P : Profiler} {g : ScopedProfile} {N : List ScopedProfile}
    (h : FlatBalance P (g :: N)) (t : Int) : FlatBalance (g.dtor .flat P t) N := by
  cases hg : g.m_profile with
  | none =>
    have hf : (g :: N).filterMap (fun g => g.m_profile) =
        N.filterMap (fun g => g.m_profile) := by
      simp [List.filterMap_cons, hg]
    simp only [ScopedProfile.dtor, hg]
    exact ⟨h.valid, by simpa [hf] using h.held, by simpa [hf] using h.running,
      by simpa [hf] using h.nodup⟩
  | some p =>
    have hf : (g :: N).filterMap (fun g => g.m_profile) =
        p :: N.filterMap (fun g => g.m_profile) := by
      simp [List.filterMap_cons, hg]
    have hnd := h.nodup
    rw [hf, List.nodup_cons] at hnd
    have hlt : p < P.heap.length := h.held p (by rw [hf]; exact List.mem_cons_self _ _)
    have hr : P.heap[p]? = some P.heap[p] := List.getElem?_eq_getElem hlt
    have hrun : (P.heap[p]).m_timeStarted = true :=
      (h.running p _ hr).2 (by rw [hf]; exact List.mem_cons_self _ _)
    have hd : g.dtor .flat P t = P.modifyProfile p
        (fun r => Profile.accumulate { r with m_timeStarted := false } t) := by
      simp [ScopedProfile.dtor, hg, Profile.stop, hr, hrun]
    rw [hd]
    refine ⟨?_, ?_, ?_, hnd.2⟩
    · intro name q hq
      simp only [Profiler.modifyProfile, length_modifyAt]
      exact h.valid name q hq
    · intro q hq
      simp only [Profiler.modifyProfile, length_modifyAt]
      exact h.held q (by rw [hf]; exact List.mem_cons_of_mem _ hq)
    · intro a r' hr'
      simp only [Profiler.modifyProfile, getElem?_modifyAt] at hr'
      split at hr'
      · rename_i hap
        subst hap
        rw [hr] at hr'
        simp only [Option.map_some', Option.some.injEq] at hr'
        subst hr'
        simp [Profile.accumulate, hnd.1]
      · rename_i hap
        have := h.running a r' hr'
        rw [hf, List.mem_cons] at this
        rw [this]
        simp [hap]

/-- Flat mode: after a well-nested sequence that closes the guards in `N` and
every guard it opens, no record is running. -/
theorem flat_balanced (tr : List Event) (s : Exec) (N G : List ScopedProfile)
    (hG : s.guards = N ++ G) (h : FlatBalance s.profiler N)
    (hclosed : closes N.length tr = true) :
    (run .flat s tr).guards = G ∧
    ∀ (a : Nat) (r : Profile), (run .flat s tr).profiler.heap[a]? = some r →
      r.m_timeStarted = false := by
  induction tr generalizing s N with
  | nil =>
    cases N with
    | nil =>
      refine ⟨by simpa using hG, ?_⟩
      intro a r hr
      cases hx : r.m_timeStarted with
      | false => rfl
      | true =>
        have := (h.running a r hr).1 hx
        simp at this
    | cons g N => simp [closes] at hclosed
  | cons e tr ih =>
    cases e with
    | enter name now =>
      rw [run_cons]
      exact ih _ ((ScopedProfile.ctor .flat s.profiler name now).1 :: N)
        (by simp [step, hG]) (flatBalance_ctor h name now) (by simpa [closes] using hclosed)
    | leave now =>
      cases N with
      | nil => simp [closes] at hclosed
      | cons g N =>
        rw [run_cons]
        refine ih _ N (by simp [step, hG]) ?_ (by simpa [closes] using hclosed)
        simp only [step, hG, List.cons_append]
        exact flatBalance_dtor h now
    | setOmit b =>
      rw [run_cons]
      exact ih _ N hG h (by simpa [closes] using hclosed)

/-! ## Call-graph mode: every reachable state is well formed -/

/-- One event of any kind keeps the call-graph invariant. -/
theorem graphInv_step {s : Exec} {paths hist : List (List String)} {cur : List String}
    (h : GraphInv s paths hist cur) (e : Event) :
    ∃ (paths1 hist1 : List (List String)) (cur1 : List String),
      GraphInv (step .callGraph s e) paths1 hist1 cur1 := by
  cases e with
  | enter n now =>
    cases hsk : (s.profiler.isInStack n && s.profiler.getOmitRecursiveCalls) with
    | true =>
      simp only [Bool.and_eq_true, Profiler.getOmitRecursiveCalls] at hsk
      refine ⟨paths, hist, cur, ?_⟩
      simp only [step, ctor_omitted s.profiler n now hsk.1 hsk.2]
      exact ⟨h.rep, h.stack, by simpa [List.filterMap_cons] using h.guards, h.hist_iff,
        h.counts, h.bounded⟩
    | false =>
      obtain ⟨p, hp, hc⟩ := ctor_callGraph_resolved s.profiler n now hsk
      obtain ⟨b, paths1, hb, hinv⟩ := graphInv_activate h
        (if s.profiler.isInStack n then RECURSIVE_MARK ++ n else n) now
      rw [hp] at hb
      cases hb
      have hstep : step .callGraph s (Event.enter n now) =
          { profiler := (Profile.start .callGraph (s.profiler.getProfile .callGraph
              (if s.profiler.isInStack n then RECURSIVE_MARK ++ n else n)).2 p now).2,
            guards := { m_profile := some p } :: s.guards } := by
        simp only [step, hc]
      rw [hstep]
      exact ⟨paths1, _, _, hinv⟩
  | leave now =>
    cases hG : s.guards with
    | nil =>
      refine ⟨paths, hist, cur, ?_⟩
      simp only [step, hG]
      exact h
    | cons g G =>
      cases hg : g.m_profile with
      | none =>
        refine ⟨paths, hist, cur, ?_⟩
        simp only [step, hG, ScopedProfile.dtor, hg]
        have hgs := h.guards
        rw [hG] at hgs
        exact ⟨h.rep, h.stack, by simpa [List.filterMap_cons, hg] using hgs, h.hist_iff,
          h.counts, h.bounded⟩
      | some p =>
        have hG1 : s.guards = { m_profile := some p } :: G := by
          rw [hG]
          congr
          cases g
          simp only [ScopedProfile.mk.injEq]
          exact hg
        exact ⟨paths, hist, _, (graphInv_leave_active h p G now hG1).2.2⟩
  | setOmit b => exact ⟨paths, hist, cur, graphInv_setOmit h b⟩

/-- Every state a call-graph execution can reach from the initial one is well
formed. -/
theorem graphInv_reach (tr : List Event) (s : Exec) (paths hist : List (List String))
    (cur : List String) (h : GraphInv s paths hist cur) :
    ∃ (paths1 hist1 : List (List String)) (cur1 : List String),
      GraphInv (run .callGraph s tr) paths1 hist1 cur1 := by
  induction tr generalizing s paths hist cur with
  | nil => exact ⟨paths, hist, cur, h⟩
  | cons e tr ih =>
    obtain ⟨paths1, hist1, cur1, h1⟩ := graphInv_step h e
    rw [run_cons]
    exact ih _ paths1 hist1 cur1 h1

/-! ## Mutual recursion -/

/-- Alternating activations of two regions that are both on the stack, with
recursive calls omitted, only add inert guards. -/
theorem run_alternating_omitted (P : Profiler) (h1 h2 : String) (ts : List Int)
    (G : List ScopedProfile) (hs1 : P.isInStack h1 = true) (hs2 : P.isInStack h2 = true)
    (homit : P.m_omitRecursiveCalls = true) :
    run .callGraph { profiler := P, guards := G } (alternating h1 h2 ts) =
      { profiler := P,
        guards := List.replicate ts.length { m_profile := none } ++ G } := by
  induction ts generalizing h1 h2 G with
  | nil => rfl
  | cons t ts ih =>
    rw [alternating, run_cons]
    simp only [step, ctor_omitted P h1 t hs1 homit]
    rw [ih h2 h1 _ hs2 hs1]
    simp [List.replicate_succ', List.append_assoc]

/-- Two mutually recursive regions nested to depth `ts.length + 2` with
recursive calls omitted. -/
theorem run_mutual_omitted (h1 h2 : String) (hne : h1 ≠ h2) (t0 t1 : Int) (ts us : List Int)
    (u1 u0 : Int) (h : us.length = ts.length) :
    run .callGraph Exec.init
        (alternating h1 h2 (t0 :: t1 :: ts) ++
          (us.map Event.leave ++ [Event.leave u1, Event.leave u0])) =
      { profiler :=
          { heap := [Profile.accumulate
                { Profile.ctor h1 with
                    m_timer := Timer.ctor.start t0, m_subProfiles := [(h2, 1)] } u0,
              Profile.accumulate { Profile.ctor h2 with m_timer := Timer.ctor.start t1 } u1],
            m_profiles := [(h1, 0)], m_profileStack := [], m_omitRecursiveCalls := true },
        guards := [] } := by
  have e1 : step .callGraph Exec.init (Event.enter h1 t0) =
      { profiler :=
          { heap := [{ Profile.ctor h1 with m_timer := Timer.ctor.start t0 }],
            m_profiles := [(h1, 0)], m_profileStack := [0], m_omitRecursiveCalls := true },
        guards := [{ m_profile := some 0 }] } := rfl
  have e2 : step .callGraph
      { profiler :=
          { heap := [{ Profile.ctor h1 with m_timer := Timer.ctor.start t0 }],
            m_profiles := [(h1, 0)], m_profileStack := [0], m_omitRecursiveCalls := true },
        guards := [{ m_profile := some 0 }] } (Event.enter h2 t1) =
      { profiler :=
          { heap := [{ Profile.ctor h1 with
                        m_timer := Timer.ctor.start t0, m_subProfiles := [(h2, 1)] },
                     { Profile.ctor h2 with m_timer := Timer.ctor.start t1 }],
            m_profiles := [(h1, 0)], m_profileStack := [0, 1], m_omitRecursiveCalls := true },
        guards := [{ m_profile := some 1 }, { m_profile := some 0 }] } := by
    simp [step, ScopedProfile.ctor, Profiler.isInStack, Profiler.nameOf, Profile.getName,
      Profile.ctor, hne, Profiler.getProfile, Profiler.getCurrentProfilesRoot,
      Profiler.readMap, Profile.getSubProfiles, ProfileMap.find, ProfileMap.insert,
      Profiler.writeMap, Profiler.modifyProfile, modifyAt, Profile.start,
      Profiler.pushProfile]
  have s1 : Profiler.isInStack
      { heap := [{ Profile.ctor h1 with
                    m_timer := Timer.ctor.start t0, m_subProfiles := [(h2, 1)] },
                 { Profile.ctor h2 with m_timer := Timer.ctor.start t1 }],
        m_profiles := [(h1, 0)], m_profileStack := [0, 1], m_omitRecursiveCalls := true }
      h1 = true := by
    simp [Profiler.isInStack, Profiler.nameOf, Profile.getName, Profile.ctor]
  have s2 : Profiler.isInStack
      { heap := [{ Profile.ctor h1 with
                    m_timer := Timer.ctor.start t0, m_subProfiles := [(h2, 1)] },
                 { Profile.ctor h2 with m_timer := Timer.ctor.start t1 }],
        m_profiles := [(h1, 0)], m_profileStack := [0, 1], m_omitRecursiveCalls := true }
      h2 = true := by
    simp [Profiler.isInStack, Profiler.nameOf, Profile.getName, Profile.ctor]
  rw [alternating, alternating, List.cons_append, List.cons_append, run_cons, e1, run_cons, e2,
    run_append, run_alternating_omitted _ h1 h2 ts _ s1 s2 rfl, run_append, ← h,
    run_leave_inert]
  rfl

theorem mark_ne (n : String) : RECURSIVE_MARK ++ n ≠ n := by
  intro h
  have := congrArg String.length h
  rw [String.length_append] at this
  have h10 : RECURSIVE_MARK.length = 10 := by decide
  omega

/-- Entering a region while recursive calls are marked: the activation is
recorded on the call path that extends the current one by the name of the
region, with the mark in front if the name is on the stack. -/
theorem graphInv_enter_marking {s : Exec} {paths hist : List (List String)}
    {cur : List String} (h : GraphInv s paths hist cur) (n : String) (now : Int)
    (hflag : s.profiler.m_omitRecursiveCalls = false) :
    ∃ (b : Nat) (paths1 : List (List String)),
      (s.profiler.getProfile .callGraph
        (if s.profiler.isInStack n then RECURSIVE_MARK ++ n else n)).1 = some b ∧
      (step .callGraph s (Event.enter n now)).guards = { m_profile := some b } :: s.guards ∧
      (step .callGraph s (Event.enter n now)).profiler.m_omitRecursiveCalls = false ∧
      (step .callGraph s (Event.enter n now)).profiler.m_profileStack =
        s.profiler.m_profileStack ++ [b] ∧
      GraphInv (step .callGraph s (Event.enter n now)) paths1
        (hist ++ [cur ++ [if s.profiler.isInStack n then RECURSIVE_MARK ++ n else n]])
        (cur ++ [if s.profiler.isInStack n then RECURSIVE_MARK ++ n else n]) := by
  have hsk : (s.profiler.isInStack n && s.profiler.getOmitRecursiveCalls) = false := by
    simp [Profiler.getOmitRecursiveCalls, hflag]
  obtain ⟨p, hp, hc⟩ := ctor_callGraph_resolved s.profiler n now hsk
  obtain ⟨b, paths1, hb, hinv⟩ := graphInv_activate h
    (if s.profiler.isInStack n then RECURSIVE_MARK ++ n else n) now
  rw [hp] at hb
  cases hb
  have hstep : step .callGraph s (Event.enter n now) =
      { profiler := (Profile.start .callGraph (s.profiler.getProfile .callGraph
          (if s.profiler.isInStack n then RECURSIVE_MARK ++ n else n)).2 p now).2,
        guards := { m_profile := some p } :: s.guards } := by
    simp only [step, hc]
  rw [hstep]
  refine ⟨p, paths1, hp, rfl, ?_, ?_, hinv⟩
  · simp only [start_callGraph_eq, getProfile_flag, hflag]
  · simp only [start_callGraph_eq, getProfile_stack]

theorem alternating_concat (h1 h2 : String) (ts : List Int) (t : Int) :
    alternating h1 h2 (ts ++ [t]) =
      alternating h1 h2 ts ++ [Event.enter (altName h1 h2 ts.length) t] := by
  induction ts generalizing h1 h2 with
  | nil => rfl
  | cons t0 ts ih =>
    have hn : altName h2 h1 ts.length = altName h1 h2 (ts.length + 1) := by
      simp only [altName]
      rcases Nat.mod_two_eq_zero_or_one ts.length with h | h
      · have h1 : (ts.length + 1) % 2 = 1 := by omega
        simp [h, h1]
      · have h1 : (ts.length + 1) % 2 = 0 := by omega
        simp [h, h1]
    rw [List.cons_append, alternating, ih h2 h1, hn, alternating]
    rfl

theorem chainPath_succ (h1 h2 : String) (k : Nat) :
    chainPath h1 h2 (k + 1) = chainPath h1 h2 k ++
      [if k < 2 then altName h1 h2 k else RECURSIVE_MARK ++ altName h1 h2 k] := by
  simp [chainPath, List.range_succ]

theorem chainPath_length (h1 h2 : String) (k : Nat) : (chainPath h1 h2 k).length = k := by
  simp [chainPath]

theorem altName_mem_chainPath (h1 h2 : String) (hne : h1 ≠ h2) (k : Nat) :
    altName h1 h2 k ∈ chainPath h1 h2 k ↔ 2 ≤ k := by
  constructor
  · intro hmem
    by_contra hk
    have hk2 : k = 0 ∨ k = 1 := by omega
    rcases hk2 with rfl | rfl
    · simp [chainPath] at hmem
    · simp [chainPath, altName] at hmem
      exact hne hmem
  · intro hk
    simp only [chainPath, List.mem_map, List.mem_range]
    refine ⟨k % 2, by omega, ?_⟩
    have h2 : k % 2 < 2 := Nat.mod_lt _ (by decide)
    simp [h2, altName]

/-- The state while two regions recurse mutually with recursive calls marked:
the records form one chain named by `chainPath`, each activation has its own
call path, every guard is active. -/
theorem graphInv_alternating (h1 h2 : String) (hne : h1 ≠ h2) (ts : List Int) :
    ∃ paths,
      GraphInv (run .callGraph Exec.init (Event.setOmit false :: alternating h1 h2 ts)) paths
        ((List.range ts.length).map (fun j => chainPath h1 h2 (j + 1)))
        (chainPath h1 h2 ts.length) ∧
      (run .callGraph Exec.init
        (Event.setOmit false :: alternating h1 h2 ts)).profiler.m_omitRecursiveCalls = false ∧
      ∀ g, g ∈ (run .callGraph Exec.init (Event.setOmit false :: alternating h1 h2 ts)).guards →
        g.active = true := by
  induction ts using List.reverseRecOn with
  | nil =>
    refine ⟨[], ?_, rfl, ?_⟩
    · exact graphInv_setOmit graphInv_init false
    · intro g hg
      cases hg
  | append_singleton ts t ih =>
    obtain ⟨paths, hinv, hflag, hact⟩ := ih
    obtain ⟨b, paths1, _, hg, hflag1, _, hinv1⟩ :=
      graphInv_enter_marking hinv (altName h1 h2 ts.length) t hflag
    have hin : (run .callGraph Exec.init
        (Event.setOmit false :: alternating h1 h2 ts)).profiler.isInStack
          (altName h1 h2 ts.length) = decide (2 ≤ ts.length) := by
      rw [Bool.eq_iff_iff, graphInv_isInStack hinv, altName_mem_chainPath h1 h2 hne]
      simp
    have hnm : (if (run .callGraph Exec.init
        (Event.setOmit false :: alternating h1 h2 ts)).profiler.isInStack
          (altName h1 h2 ts.length) = true
        then RECURSIVE_MARK ++ altName h1 h2 ts.length else altName h1 h2 ts.length) =
        (if ts.length < 2 then altName h1 h2 ts.length
          else RECURSIVE_MARK ++ altName h1 h2 ts.length) := by
      rw [hin]
      by_cases hk : ts.length < 2
      · have : ¬ 2 ≤ ts.length := by omega
        simp [hk, this]
      · have : 2 ≤ ts.length := by omega
        simp [hk, this]
    rw [hnm, ← chainPath_succ] at hinv1
    have hrun : run .callGraph Exec.init
        (Event.setOmit false :: alternating h1 h2 (ts ++ [t])) =
        step .callGraph (run .callGraph Exec.init
          (Event.setOmit false :: alternating h1 h2 ts))
          (Event.enter (altName h1 h2 ts.length) t) := by
      rw [alternating_concat, ← List.cons_append, run_append]
      rfl
    rw [hrun]
    refine ⟨paths1, ?_, hflag1, ?_⟩
    · simpa [List.range_succ] using hinv1
    · intro g hgm
      rw [hg] at hgm
      rcases List.mem_cons.1 hgm with rfl | hgm
      · rfl
      · exact hact g hgm

/-- Destroying guards that are all active keeps the records' call paths and
the history of activations. -/
theorem graphInv_run_leaves (us : List Int) (s : Exec) (paths hist : List (List String))
    (cur : List String) (h : GraphInv s paths hist cur)
    (hact : ∀ g, g ∈ s.guards → g.active = true) :
    ∃ cur1, GraphInv (run .callGraph s (us.map Event.leave)) paths hist cur1 := by
  induction us generalizing s cur with
  | nil => exact ⟨cur, h⟩
  | cons u us ih =>
    rw [List.map_cons, run_cons]
    cases hG : s.guards with
    | nil =>
      have hs : step .callGraph s (Event.leave u) = s := by
        simp only [step, hG]
      rw [hs]
      exact ih s cur h hact
    | cons g G =>
      have hga := hact g (by rw [hG]; exact List.mem_cons_self _ _)
      obtain ⟨p, hp⟩ := Option.isSome_iff_exists.1 hga
      have hG1 : s.guards = { m_profile := some p } :: G := by
        rw [hG]
        congr
        cases g
        simp only [ScopedProfile.mk.injEq]
        exact hp
      obtain ⟨_, hg2, hinv2⟩ := graphInv_leave_active h p G u hG1
      exact ih _ _ hinv2 (fun g' hg' => hact g' (by
        rw [hG]
        rw [hg2] at hg'
        exact List.mem_cons_of_mem _ hg'))

theorem closes_alternating (h1 h2 : String) (ts : List Int) (d : Nat) (rest : List Event) :
    closes d (alternating h1 h2 ts ++ rest) = closes (d + ts.length) rest := by
  induction ts generalizing d h1 h2 with
  | nil => rfl
  | cons t ts ih =>
    simp only [alternating, List.cons_append, closes, ih, List.length_cons]
    congr 1
    omega

theorem count_eq_one_of_nodup {α : Type} [BEq α] [LawfulBEq α] (l : List α) (a : α)
    (hnd : l.Nodup) (h : a ∈ l) : l.count a = 1 := by
  induction l with
  | nil => cases h
  | cons x xs ih =>
    rw [List.nodup_cons] at hnd
    rw [List.count_cons]
    by_cases hx : x = a
    · subst hx
      rw [List.count_eq_zero_of_not_mem hnd.1]
      simp
    · have hmem : a ∈ xs := by
        rcases List.mem_cons.1 h with h | h
        · exact absurd h.symm hx
        · exact h
      rw [ih hnd.2 hmem]
      simp [hx]

/-- In a reachable state with recursive calls marked, a guard for a region
whose name is on the stack holds the record resolved under the marked name,
and this record carries the marked name. -/
theorem enter_marking_record (tr : List Event) (n : String) (now : Int)
    (hflag : (run .callGraph Exec.init tr).profiler.m_omitRecursiveCalls = false)
    (hin : (run .callGraph Exec.init tr).profiler.isInStack n = true) :
    ∃ p r,
      ((run .callGraph Exec.init tr).profiler.getProfile .callGraph
        (RECURSIVE_MARK ++ n)).1 = some p ∧
      (step .callGraph (run .callGraph Exec.init tr) (Event.enter n now)).guards =
        { m_profile := some p } :: (run .callGraph Exec.init tr).guards ∧
      (step .callGraph (run .callGraph Exec.init tr) (Event.enter n now)).profiler.m_profileStack
        = (run .callGraph Exec.init tr).profiler.m_profileStack ++ [p] ∧
      (step .callGraph (run .callGraph Exec.init tr) (Event.enter n now)).profiler.heap[p]?
        = some r ∧
      r.m_name = RECURSIVE_MARK ++ n := by
  obtain ⟨paths, hist, cur, hinv⟩ := graphInv_reach tr Exec.init [] [] [] graphInv_init
  obtain ⟨b, paths1, hb, hg, _, hstack, hinv1⟩ := graphInv_enter_marking hinv n now hflag
  simp only [hin, if_true] at hb hinv1
  have hst := hinv1.stack
  rw [hstack] at hst
  obtain ⟨cur0, n0, he, _, hpath⟩ := stackOn_concat_inv hst
  obtain ⟨r, hr⟩ := treeRep_valid hinv1.rep hpath
  have hname := hinv1.rep.names b r _ hr hpath
  rw [← he] at hname
  refine ⟨b, r, hb, hg, hstack, hr, ?_⟩
  simpa using hname.symm

/-- The record tree after two regions have recursed mutually to depth `D` with
recursive calls marked and every activation has been closed. -/
theorem mutual_marked_final (h1 h2 : String) (hne : h1 ≠ h2) (D : Nat) (ts us : List Int)
    (hts : ts.length = D) (hus : us.length = D) :
    (run .callGraph Exec.init (Event.setOmit false ::
      (alternating h1 h2 ts ++ us.map Event.leave))).profiler.heap.length = D ∧
    (∀ π : List String,
      ((run .callGraph Exec.init (Event.setOmit false ::
        (alternating h1 h2 ts ++ us.map Event.leave))).profiler.nodeAt π).isSome = true ↔
      ∃ j, j < D ∧ π = chainPath h1 h2 (j + 1)) ∧
    (∀ j, j < D → ∃ a r,
      (run .callGraph Exec.init (Event.setOmit false ::
        (alternating h1 h2 ts ++ us.map Event.leave))).profiler.nodeAt
          (chainPath h1 h2 (j + 1)) = some a ∧
      (run .callGraph Exec.init (Event.setOmit false ::
        (alternating h1 h2 ts ++ us.map Event.leave))).profiler.heap[a]? = some r ∧
      r.m_name = (if j < 2 then altName h1 h2 j else RECURSIVE_MARK ++ altName h1 h2 j) ∧
      r.m_callCount = 1) := by
  obtain ⟨paths, hinv, _, hact⟩ := graphInv_alternating h1 h2 hne ts
  obtain ⟨cur1, hinv2⟩ := graphInv_run_leaves us _ _ _ _ hinv hact
  rw [← run_append, List.cons_append] at hinv2
  have hclosed : closes 0 (Event.setOmit false ::
      (alternating h1 h2 ts ++ us.map Event.leave)) = true := by
    simp only [closes]
    rw [closes_alternating, closes_leaves]
    simp [hts, hus]
  have hbal := callGraph_balanced _ Exec.init [] [] [] rfl rfl hclosed
  have hcur : cur1 = [] := by
    have := stackOn_length hinv2.stack
    rw [hbal.2] at this
    exact List.length_eq_zero.1 this.symm
  subst hcur
  obtain ⟨f1, f2, _, f4⟩ := graphInv_final hinv2
  have hnodup : ((List.range ts.length).map (fun j => chainPath h1 h2 (j + 1))).Nodup := by
    refine List.Nodup.map ?_ (List.nodup_range _)
    intro i j hij
    have := congrArg List.length hij
    simpa [chainPath_length] using this
  have hmem : ∀ π : List String,
      π ∈ (List.range ts.length).map (fun j => chainPath h1 h2 (j + 1)) ↔
        ∃ j, j < D ∧ π = chainPath h1 h2 (j + 1) := by
    intro π
    simp only [List.mem_map, List.mem_range, hts]
    constructor
    · rintro ⟨j, hj, he⟩
      exact ⟨j, hj, he.symm⟩
    · rintro ⟨j, hj, he⟩
      exact ⟨j, hj, he.symm⟩
  refine ⟨?_, ?_, ?_⟩
  · rw [f4, hnodup.dedup, List.length_map, List.length_range, hts]
  · intro π
    rw [f1 π, hmem π]
  · intro j hj
    have hin := (hmem (chainPath h1 h2 (j + 1))).2 ⟨j, hj, rfl⟩
    obtain ⟨a, ha⟩ := Option.isSome_iff_exists.1 ((f1 _).2 hin)
    obtain ⟨r, hr, hlast, hcount⟩ := f2 _ a ha
    refine ⟨a, r, ha, hr, ?_, ?_⟩
    · rw [chainPath_succ] at hlast
      simpa using hlast.symm
    · rw [hcount, count_eq_one_of_nodup _ _ hnodup hin]
      decide

/-! ## The report: what a traversal writes -/

theorem data_lt_iff (a b : String) : a.data < b.data ↔ a < b :=
  String.lt_iff_toList_lt.symm

theorem mem_insert (m : ProfileMap) (name : String) (v : Nat) (e : String × Nat)
    (h : e ∈ m.insert name v) : e = (name, v) ∨ e ∈ m := by
  induction m with
  | nil =>
    simp only [ProfileMap.insert, List.mem_singleton] at h
    exact Or.inl h
  | cons x xs ih =>
    obtain ⟨k, w⟩ := x
    simp only [ProfileMap.insert] at h
    split at h
    · rcases List.mem_cons.1 h with h | h
      · exact Or.inl h
      · exact Or.inr h
    · split at h
      · rcases List.mem_cons.1 h with h | h
        · exact Or.inl h
        · exact Or.inr (List.mem_cons_of_mem _ h)
      · rcases List.mem_cons.1 h with h | h
        · exact Or.inr (by rw [h]; exact List.mem_cons_self _ _)
        · rcases ih h with h | h
          · exact Or.inl h
          · exact Or.inr (List.mem_cons_of_mem _ h)

/-- Storing a record under a name keeps the map in ascending order. -/
theorem sorted_insert (m : ProfileMap) (name : String) (v : Nat) (h : m.Sorted) :
    (m.insert name v).Sorted := by
  induction m with
  | nil => simp [ProfileMap.insert, ProfileMap.Sorted]
  | cons x xs ih =>
    obtain ⟨k, w⟩ := x
    simp only [ProfileMap.Sorted, List.pairwise_cons] at h
    obtain ⟨hx, hxs⟩ := h
    simp only [ProfileMap.insert]
    split
    · rename_i hlt
      simp only [ProfileMap.Sorted, List.pairwise_cons]
      refine ⟨?_, hx, hxs⟩
      intro e he
      rcases List.mem_cons.1 he with he | he
      · rw [he]
        exact hlt
      · have := hx e he
        rw [data_lt_iff] at hlt this ⊢
        exact lt_trans hlt this
    · rename_i hnlt
      split
      · rename_i heq
        subst heq
        simp only [ProfileMap.Sorted, List.pairwise_cons]
        exact ⟨hx, hxs⟩
      · rename_i hne
        simp only [ProfileMap.Sorted, List.pairwise_cons]
        refine ⟨?_, ih hxs⟩
        intro e he
        rcases mem_insert xs name v e he with he | he
        · rw [he]
          simp only
          rw [data_lt_iff] at hnlt ⊢
          rcases lt_trichotomy name k with h1 | h1 | h1
          · exact absurd h1 hnlt
          · exact absurd h1.symm hne
          · exact h1
        · exact hx e he

theorem sorted_keys_nodup (m : ProfileMap) (h : m.Sorted) : (m.map Prod.fst).Nodup := by
  rw [List.Nodup, List.pairwise_map]
  refine List.Pairwise.imp ?_ h
  intro a b hab heq
  rw [data_lt_iff, heq] at hab
  exact lt_irrefl _ hab

/-- In a map without repeated keys an entry is what `find` returns for its key. -/
theorem find_of_mem (m : ProfileMap) (k : String) (p : Nat) (h : (m.map Prod.fst).Nodup)
    (hmem : (k, p) ∈ m) : m.find k = some p := by
  induction m with
  | nil => cases hmem
  | cons x xs ih =>
    obtain ⟨k0, p0⟩ := x
    simp only [List.map_cons, List.nodup_cons] at h
    simp only [ProfileMap.find]
    rcases List.mem_cons.1 hmem with he | he
    · cases he
      simp
    · have hne : k0 ≠ k := by
        intro heq
        subst heq
        exact h.1 (List.mem_map.2 ⟨(k0, p), he, rfl⟩)
      simp only [hne, if_false]
      exact ih h.2 he

theorem mem_of_find (m : ProfileMap) (k : String) (p : Nat) (h : m.find k = some p) :
    (k, p) ∈ m := by
  induction m with
  | nil => cases h
  | cons x xs ih =>
    obtain ⟨k0, p0⟩ := x
    simp only [ProfileMap.find] at h
    split at h
    · rename_i heq
      cases h
      subst heq
      exact List.mem_cons_self _ _
    · exact List.mem_cons_of_mem _ (ih h)

theorem sortedMaps_modify {P : Profiler} (h : SortedMaps P) (p : Nat) (f : Profile → Profile)
    (hf : ∀ r, (f r).m_subProfiles = r.m_subProfiles) : SortedMaps (P.modifyProfile p f) := by
  refine ⟨h.1, ?_⟩
  intro a r' hr'
  simp only [Profiler.modifyProfile, getElem?_modifyAt] at hr'
  split at hr'
  · cases hx : P.heap[a]? with
    | none => simp [hx] at hr'
    | some x =>
      simp only [hx, Option.map_some', Option.some.injEq] at hr'
      subst hr'
      rw [hf]
      exact h.2 a x hx
  · exact h.2 a r' hr'

theorem sortedMaps_getProfile (mode : Mode) {P : Profiler} (h : SortedMaps P) (name : String) :
    SortedMaps (P.getProfile mode name).2 := by
  simp only [Profiler.getProfile]
  split
  · exact h
  · generalize (match mode with
      | .callGraph => P.getCurrentProfilesRoot
      | .flat => none) = loc
    have hread : (P.readMap loc).Sorted := by
      cases loc with
      | none => exact h.1
      | some t =>
        simp only [Profiler.readMap]
        cases hx : P.heap[t]? with
        | none => simp [ProfileMap.Sorted]
        | some r => exact h.2 t r hx
    have hold : ∀ (a : Nat) (r : Profile),
        (P.heap ++ [Profile.ctor name])[a]? = some r → r.m_subProfiles.Sorted := by
      intro a r hr
      rcases (getElem?_snoc_eq_some _ _ _ _).1 hr with h1 | ⟨_, h1⟩
      · exact h.2 a r h1
      · subst h1
        simp [Profile.ctor, ProfileMap.Sorted]
    cases loc with
    | none =>
      exact ⟨sorted_insert _ _ _ hread, hold⟩
    | some t =>
      refine ⟨h.1, ?_⟩
      intro a r' hr'
      simp only [Profiler.writeMap, Profiler.modifyProfile, getElem?_modifyAt] at hr'
      split at hr'
      · cases hx : (P.heap ++ [Profile.ctor name])[a]? with
        | none => simp [hx] at hr'
        | some x =>
          simp only [hx, Option.map_some', Option.some.injEq] at hr'
          subst hr'
          exact sorted_insert _ _ _ hread
      · exact hold a r' hr'

theorem sortedMaps_start (mode : Mode) {P : Profiler} (h : SortedMaps P) (p : Nat) (t : Int) :
    SortedMaps (Profile.start mode P p t).2 := by
  cases mode with
  | callGraph =>
    exact sortedMaps_modify (P := P.pushProfile p) h p _ (fun r => rfl)
  | flat =>
    simp only [Profile.start]
    split
    · exact h
    · exact sortedMaps_modify h p _ (fun r => rfl)

theorem sortedMaps_stop (mode : Mode) {P : Profiler} (h : SortedMaps P) (p : Nat) (t : Int) :
    SortedMaps (Profile.stop mode P p t).2 := by
  cases mode with
  | callGraph =>
    have hpop : SortedMaps P.popProfile := by
      simp only [Profiler.popProfile]
      split
      · exact h
      · exact h
    exact sortedMaps_modify hpop p _ (fun r => rfl)
  | flat =>
    simp only [Profile.stop]
    split
    · exact sortedMaps_modify h p _ (fun r => rfl)
    · exact h

theorem sortedMaps_step (mode : Mode) {s : Exec} (h : SortedMaps s.profiler) (e : Event) :
    SortedMaps (step mode s e).profiler := by
  cases e with
  | enter n t =>
    simp only [step]
    rcases ctor_cases mode s.profiler n t with hc | ⟨n', p, _, hc⟩
    · rw [hc]
      exact h
    · rw [hc]
      exact sortedMaps_start mode (sortedMaps_getProfile mode h n') p t
  | leave t =>
    simp only [step]
    cases hG : s.guards with
    | nil => exact h
    | cons g G =>
      simp only [ScopedProfile.dtor]
      cases hg : g.m_profile with
      | none => exact h
      | some p => exact sortedMaps_stop mode h p t
  | setOmit b =>
    cases mode with
    | callGraph => exact h
    | flat => exact h

theorem sortedMaps_run (mode : Mode) (tr : List Event) (s : Exec) (h : SortedMaps s.profiler) :
    SortedMaps (run mode s tr).profiler := by
  induction tr generalizing s with
  | nil => exact h
  | cons e tr ih =>
    rw [run_cons]
    exact ih _ (sortedMaps_step mode h e)

theorem sortedMaps_init : SortedMaps Exec.init.profiler := by
  refine ⟨by simp [Exec.init, Profiler.ctor, ProfileMap.Sorted], ?_⟩
  intro a r hr
  simp [Exec.init, Profiler.ctor] at hr

/-! ## Flat mode: the records form a tree of depth one -/

theorem flatTree_step {s : Exec} {paths : List (List String)}
    (hrep : TreeRep s.profiler paths) (hstack : s.profiler.m_profileStack = [])
    (hsub : ∀ (a : Nat) (r : Profile), s.profiler.heap[a]? = some r → r.m_subProfiles = [])
    (e : Event) :
    ∃ paths1, TreeRep (step .flat s e).profiler paths1 ∧
      (step .flat s e).profiler.m_profileStack = [] ∧
      ∀ (a : Nat) (r : Profile), (step .flat s e).profiler.heap[a]? = some r →
        r.m_subProfiles = [] := by
  have hmod : ∀ (p : Nat) (f : Profile → Profile),
      (∀ r, (f r).m_name = r.m_name ∧ (f r).m_subProfiles = r.m_subProfiles) →
      ∀ (a : Nat) (r : Profile), (s.profiler.modifyProfile p f).heap[a]? = some r →
        r.m_subProfiles = [] := by
    intro p f hf a r' hr'
    simp only [Profiler.modifyProfile, getElem?_modifyAt] at hr'
    split at hr'
    · cases hx : s.profiler.heap[a]? with
      | none => simp [hx] at hr'
      | some x =>
        simp only [hx, Option.map_some', Option.some.injEq] at hr'
        subst hr'
        rw [(hf x).2]
        exact hsub a x hx
    · exact hsub a r' hr'
  cases e with
  | enter n t =>
    have hvalid : ∀ (name : String) (p : Nat), s.profiler.m_profiles.find name = some p →
        p < s.profiler.heap.length := by
      intro name p hp
      obtain ⟨r, hr⟩ := treeRep_valid hrep ((hrep.root name p).1 hp)
      exact (List.getElem?_eq_some.1 hr).1
    simp only [step]
    rcases flat_ctor_cases s.profiler n t hvalid with hc | ⟨p, r, hr, _, hc⟩ | ⟨hnone, hc⟩
    · rw [hc]
      exact ⟨paths, hrep, hstack, hsub⟩
    · rw [hc]
      refine ⟨paths, treeRep_modify hrep p
        (fun r => { r with m_timeStarted := true, m_timer := r.m_timer.start t })
        (fun r => ⟨rfl, rfl⟩) rfl rfl, hstack, ?_⟩
      exact hmod p _ (fun r => ⟨rfl, rfl⟩)
    · rw [hc]
      have hroot : s.profiler.getCurrentProfilesRoot = none := by
        simp [Profiler.getCurrentProfilesRoot, hstack]
      have hst : StackOn paths s.profiler.m_profileStack [] := by
        rw [hstack]
        exact StackOn.nil
      have halloc := treeRep_alloc hrep hst n (by rw [hroot]; exact hnone)
      rw [hroot] at halloc
      simp only [Profiler.writeMap, Profiler.readMap, List.nil_append] at halloc
      refine ⟨paths ++ [[n]], treeRep_modify halloc s.profiler.heap.length
        (fun r => { r with m_timeStarted := true, m_timer := r.m_timer.start t })
        (fun r => ⟨rfl, rfl⟩) rfl rfl, hstack, ?_⟩
      intro a r' hr'
      simp only [Profiler.modifyProfile, getElem?_modifyAt] at hr'
      have hold : ∀ (a : Nat) (r : Profile),
          (s.profiler.heap ++ [Profile.ctor n])[a]? = some r → r.m_subProfiles = [] := by
        intro a r hr
        rcases (getElem?_snoc_eq_some _ _ _ _).1 hr with h1 | ⟨_, h1⟩
        · exact hsub a r h1
        · subst h1
          rfl
      split at hr'
      · cases hx : (s.profiler.heap ++ [Profile.ctor n])[a]? with
        | none => simp [hx] at hr'
        | some x =>
          simp only [hx, Option.map_some', Option.some.injEq] at hr'
          subst hr'
          exact hold a x hx
      · exact hold a r' hr'
  | leave t =>
    simp only [step]
    cases hG : s.guards with
    | nil => exact ⟨paths, hrep, hstack, hsub⟩
    | cons g G =>
      simp only [ScopedProfile.dtor]
      cases hg : g.m_profile with
      | none => exact ⟨paths, hrep, hstack, hsub⟩
      | some p =>
        simp only [Profile.stop]
        split
        · refine ⟨paths, treeRep_modify hrep p
            (fun r => Profile.accumulate { r with m_timeStarted := false } t)
            (fun r => ⟨rfl, rfl⟩) rfl rfl, hstack, ?_⟩
          exact hmod p _ (fun r => ⟨rfl, rfl⟩)
        · exact ⟨paths, hrep, hstack, hsub⟩
  | setOmit b => exact ⟨paths, hrep, hstack, hsub⟩

/-- Every state an execution reaches from the initial one, in either mode, is
a tree that `printStats` can report. -/
theorem reportInv_reach (mode : Mode) (tr : List Event) :
    ∃ paths, ReportInv mode (run mode Exec.init tr).profiler paths := by
  have hsorted := sortedMaps_run mode tr Exec.init sortedMaps_init
  cases mode with
  | callGraph =>
    obtain ⟨paths, hist, cur, hinv⟩ := graphInv_reach tr Exec.init [] [] [] graphInv_init
    exact ⟨paths, hinv.rep, hsorted, fun h => by cases h⟩
  | flat =>
    have key : ∀ (tr : List Event) (s : Exec) (paths : List (List String)),
        TreeRep s.profiler paths → s.profiler.m_profileStack = [] →
        (∀ (a : Nat) (r : Profile), s.profiler.heap[a]? = some r → r.m_subProfiles = []) →
        ∃ paths1, TreeRep (run .flat s tr).profiler paths1 ∧
          ∀ (a : Nat) (r : Profile), (run .flat s tr).profiler.heap[a]? = some r →
            r.m_subProfiles = [] := by
      intro tr
      induction tr with
      | nil =>
        intro s paths h1 _ h3
        exact ⟨paths, h1, h3⟩
      | cons e tr ih =>
        intro s paths h1 h2 h3
        obtain ⟨paths1, k1, k2, k3⟩ := flatTree_step h1 h2 h3 e
        rw [run_cons]
        exact ih _ paths1 k1 k2 k3
    obtain ⟨paths, h1, h2⟩ := key tr Exec.init [] graphInv_init.rep rfl (by
      intro a r hr
      simp [Exec.init, Profiler.ctor] at hr)
    exact ⟨paths, h1, hsorted, fun _ => h2⟩

/-! ## The report of a tree -/

/-- The call path of a record is no longer than the number of records. -/
theorem treeRep_depth {P : Profiler} {paths : List (List String)} (h : TreeRep P paths)
    {b : Nat} {π : List String} (hb : paths[b]? = some π) : π.length ≤ P.heap.length := by
  have hnodup : ((List.range π.length).map (fun j => π.take (j + 1))).Nodup := by
    refine List.Nodup.map_on ?_ (List.nodup_range _)
    intro i hi j hj hij
    rw [List.mem_range] at hi hj
    have := congrArg List.length hij
    simp only [List.length_take] at this
    omega
  have hsub : (List.range π.length).map (fun j => π.take (j + 1)) ⊆ paths := by
    intro ρ hρ
    obtain ⟨j, hj, rfl⟩ := List.mem_map.1 hρ
    rw [List.mem_range] at hj
    have hne : π.take (j + 1) ≠ [] := by
      intro hnil
      have := congrArg List.length hnil
      simp only [List.length_take, List.length_nil] at this
      omega
    obtain ⟨a, ha⟩ := treeRep_closed h (π.take (j + 1)) (π.drop (j + 1)) hne b
      (by rw [List.take_append_drop]; exact hb)
    exact List.mem_iff_getElem?.2 ⟨a, ha⟩
  have := (List.subperm_of_subset hnodup hsub).length_le
  simpa [h.len] using this

theorem lineOf_eq (mode : Mode) (P : Profiler) (paths : List (List String)) (b : Nat)
    (r : Profile) (π : List String) (k : String) (hr : P.heap[b]? = some r)
    (hb : paths[b]? = some (π ++ [k])) :
    P.lineOf mode paths b = some (Profiler.printLine mode r π.length) := by
  simp [Profiler.lineOf, hr, hb]

theorem printStatsMap_nil (mode : Mode) (P : Profiler) (fuel depth : Nat) (st : PrintState) :
    P.printStatsMap mode (fuel + 1) [] depth st = some st := rfl

theorem printStatsMap_cons (mode : Mode) (P : Profiler) (fuel depth : Nat) (st st1 : PrintState)
    (it : String × Nat) (rest : ProfileMap)
    (h : P.printEntry mode (P.printStatsMap mode fuel) depth st it = some st1) :
    P.printStatsMap mode (fuel + 1) (it :: rest) depth st =
      P.printStatsMap mode (fuel + 1) rest depth st1 := by
  simp only [Profiler.printStatsMap, forEntries, h]

/-- The traversal of a set of sibling entries of a tree: it succeeds, visits
the records below these entries exactly once each (`V`, in the order of the
lines), writes for each its line at its depth, and deletes them (`F`). -/
theorem printStatsMap_tree (mode : Mode) {P : Profiler} {paths : List (List String)}
    (h : ReportInv mode P paths) :
    ∀ (n : Nat) (π : List String) (E : ProfileMap),
      P.heap.length - π.length ≤ n → π.length ≤ P.heap.length →
      (E.map Prod.fst).Nodup →
      (∀ (k : String) (p : Nat), (k, p) ∈ E → paths[p]? = some (π ++ [k])) →
      ∃ (L : List ReportLine) (V F : List Nat),
        V.Nodup ∧ F.Perm V ∧
        (∀ b, b ∈ V ↔ ∃ k p σ, (k, p) ∈ E ∧ paths[b]? = some (π ++ k :: σ)) ∧
        L = V.filterMap (P.lineOf mode paths) ∧ L.length = V.length ∧
        ∀ (fuel : Nat) (st : PrintState), P.heap.length + 1 ≤ fuel + π.length →
          (∀ b, b ∈ V → b ∉ st.freed) →
          P.printStatsMap mode fuel E π.length st =
            some { fs := st.fs ++ L, freed := st.freed ++ F } := by
  intro n
  induction n using Nat.strong_induction_on with
  | _ n ih =>
    intro π E hn hπ hnd hE
    induction E with
    | nil =>
      refine ⟨[], [], [], List.nodup_nil, List.Perm.refl _, ?_, rfl, rfl, ?_⟩
      · intro b
        simp
      · intro fuel st hfuel _
        obtain ⟨f, rfl⟩ : ∃ f, fuel = f + 1 := ⟨fuel - 1, by omega⟩
        simp [printStatsMap_nil]
    | cons e rest ihE =>
      obtain ⟨k, p⟩ := e
      have hp : paths[p]? = some (π ++ [k]) := hE k p (List.mem_cons_self _ _)
      obtain ⟨r, hr⟩ := treeRep_valid h.rep hp
      have hdepth : π.length + 1 ≤ P.heap.length := by
        have := treeRep_depth h.rep hp
        simpa using this
      simp only [List.map_cons, List.nodup_cons] at hnd
      have hkrest : ∀ (k2 : String) (p2 : Nat), (k2, p2) ∈ rest → k2 ≠ k := by
        intro k2 p2 hmem heq
        subst heq
        exact hnd.1 (List.mem_map.2 ⟨(k2, p2), hmem, rfl⟩)
      -- the entry itself, with the subtree of its record
      have hentry : ∃ (L1 : List ReportLine) (V1 F1 : List Nat),
          V1.Nodup ∧ F1.Perm V1 ∧
          (∀ b, b ∈ V1 ↔ ∃ k1 p1 σ1, (k1, p1) ∈ r.m_subProfiles ∧
            paths[b]? = some ((π ++ [k]) ++ k1 :: σ1)) ∧
          L1 = V1.filterMap (P.lineOf mode paths) ∧ L1.length = V1.length ∧
          ∀ (f : Nat) (st : PrintState), P.heap.length + 1 ≤ f + 1 + π.length →
            p ∉ st.freed → (∀ b, b ∈ V1 → b ∉ st.freed) →
            P.printEntry mode (P.printStatsMap mode f) π.length st (k, p) =
              some { fs := st.fs ++ Profiler.printLine mode r π.length :: L1,
                     freed := st.freed ++ F1 ++ [p] } := by
        cases mode with
        | callGraph =>
          obtain ⟨L1, V1, F1, k1, k2, k3, k4, k5, k6⟩ :=
            ih (P.heap.length - (π.length + 1)) (by omega) (π ++ [k]) r.m_subProfiles
              (by simp) (by simpa using hdepth)
              (sorted_keys_nodup _ (h.sorted.2 p r hr))
              (fun k1 p1 hmem => (h.rep.subs p r (π ++ [k]) hr hp k1 p1).1
                (find_of_mem _ k1 p1 (sorted_keys_nodup _ (h.sorted.2 p r hr)) hmem))
          refine ⟨L1, V1, F1, k1, k2, k3, k4, k5, ?_⟩
          intro f st hf hfree hdis
          have hrun := k6 f { st with fs := st.fs ++ [Profiler.printLine .callGraph r π.length] }
            (by simp only [List.length_append, List.length_singleton]; omega) hdis
          simp only [List.length_append, List.length_singleton] at hrun
          simp only [Profiler.printEntry, hfree, if_false, hr, Profile.getSubProfiles, hrun,
            List.append_assoc, List.singleton_append]
        | flat =>
          have hnil : r.m_subProfiles = [] := h.flat rfl p r hr
          refine ⟨[], [], [], List.nodup_nil, List.Perm.refl _, ?_, rfl, rfl, ?_⟩
          · intro b
            simp [hnil]
          · intro f st hf hfree hdis
            simp only [Profiler.printEntry, hfree, if_false, hr, List.append_nil]
      obtain ⟨L1, V1, F1, v1, v2, v3, v4, v5, v6⟩ := hentry
      obtain ⟨L2, V2, F2, w1, w2, w3, w4, w5, w6⟩ :=
        ihE hnd.2 (fun k2 p2 hmem => hE k2 p2 (List.mem_cons_of_mem _ hmem))
      -- the three groups of records are apart
      have hV1 : ∀ b, b ∈ V1 → ∃ k1 σ1, paths[b]? = some (π ++ k :: k1 :: σ1) := by
        intro b hb
        obtain ⟨k1, p1, σ1, _, hpath⟩ := (v3 b).1 hb
        exact ⟨k1, σ1, by simpa using hpath⟩
      have hV2 : ∀ b, b ∈ V2 → ∃ k2 σ2, k2 ≠ k ∧ paths[b]? = some (π ++ k2 :: σ2) := by
        intro b hb
        obtain ⟨k2, p2, σ2, hmem, hpath⟩ := (w3 b).1 hb
        exact ⟨k2, σ2, hkrest k2 p2 hmem, hpath⟩
      have hpV1 : p ∉ V1 := by
        intro hmem
        obtain ⟨k1, σ1, hpath⟩ := hV1 p hmem
        rw [hp] at hpath
        have := List.append_cancel_left (Option.some.inj hpath)
        simp at this
      have hpV2 : p ∉ V2 := by
        intro hmem
        obtain ⟨k2, σ2, hne, hpath⟩ := hV2 p hmem
        rw [hp] at hpath
        have := List.append_cancel_left (Option.some.inj hpath)
        simp only [List.cons.injEq] at this
        exact hne this.1.symm
      have hV12 : ∀ b, b ∈ V1 → b ∉ V2 := by
        intro b hb1 hb2
        obtain ⟨k1, σ1, hpath1⟩ := hV1 b hb1
        obtain ⟨k2, σ2, hne, hpath2⟩ := hV2 b hb2
        rw [hpath1] at hpath2
        have := List.append_cancel_left (Option.some.inj hpath2)
        simp only [List.cons.injEq] at this
        exact hne this.1.symm
      refine ⟨Profiler.printLine mode r π.length :: (L1 ++ L2), p :: (V1 ++ V2),
        F1 ++ p :: F2, ?_, ?_, ?_, ?_, ?_, ?_⟩
      · rw [List.nodup_cons, List.mem_append, List.nodup_append]
        refine ⟨?_, v1, w1, ?_⟩
        · rintro (hm | hm)
          · exact hpV1 hm
          · exact hpV2 hm
        · intro b hb1 hb2
          exact hV12 b hb1 hb2
      · exact List.perm_middle.trans (List.Perm.cons p (List.Perm.append v2 w2))
      · intro b
        simp only [List.mem_cons, List.mem_append]
        constructor
        · rintro (hb | hb | hb)
          · subst hb
            exact ⟨k, b, [], Or.inl rfl, hp⟩
          · obtain ⟨k1, σ1, hpath⟩ := hV1 b hb
            exact ⟨k, p, k1 :: σ1, Or.inl rfl, hpath⟩
          · obtain ⟨k2, p2, σ2, hmem, hpath⟩ := (w3 b).1 hb
            exact ⟨k2, p2, σ2, Or.inr hmem, hpath⟩
        · rintro ⟨k0, p0, σ, hmem | hmem, hpath⟩
          · cases hmem
            cases σ with
            | nil => exact Or.inl (h.rep.inj b p _ hpath hp)
            | cons k1 σ1 =>
              right
              left
              obtain ⟨a, ha⟩ := treeRep_closed h.rep (π ++ [k, k1]) σ1 (by simp) b
                (by simpa using hpath)
              have hfind := (h.rep.subs p r (π ++ [k]) hr hp k1 a).2 (by simpa using ha)
              exact (v3 b).2 ⟨k1, a, σ1, mem_of_find _ _ _ hfind, by simpa using hpath⟩
          · exact Or.inr (Or.inr ((w3 b).2 ⟨k0, p0, σ, hmem, hpath⟩))
      · rw [List.filterMap_cons, lineOf_eq mode P paths p r π k hr hp, List.filterMap_append,
          ← v4, ← w4]
      · simp only [List.length_cons, List.length_append, v5, w5]
      · intro fuel st hfuel hdis
        obtain ⟨f, rfl⟩ : ∃ f, fuel = f + 1 := ⟨fuel - 1, by omega⟩
        have e1 := v6 f st (by omega) (hdis p (List.mem_cons_self _ _))
          (fun b hb => hdis b (List.mem_cons_of_mem _ (List.mem_append_left _ hb)))
        rw [printStatsMap_cons mode P f π.length st _ (k, p) rest e1]
        have e2 := w6 (f + 1)
          { fs := st.fs ++ Profiler.printLine mode r π.length :: L1,
            freed := st.freed ++ F1 ++ [p] } hfuel (by
            intro b hb
            simp only [List.mem_append, List.mem_singleton, not_or]
            refine ⟨⟨hdis b (List.mem_cons_of_mem _ (List.mem_append_right _ hb)), ?_⟩, ?_⟩
            · intro hF
              exact hV12 b (v2.subset hF) hb
            · intro hbp
              subst hbp
              exact hpV2 hb)
        rw [e2]
        simp

theorem report_nil (mode : Mode) (P : Profiler) (depth : Nat) :
    P.report mode [] depth = [] := rfl

/-- The traversal of sibling entries of a tree, in terms of `report`. -/
theorem report_tree (mode : Mode) {P : Profiler} {paths : List (List String)}
    (h : ReportInv mode P paths) (π : List String) (E : ProfileMap)
    (hπ : π.length ≤ P.heap.length) (hnd : (E.map Prod.fst).Nodup)
    (hE : ∀ (k : String) (p : Nat), (k, p) ∈ E → paths[p]? = some (π ++ [k])) :
    ∃ (V F : List Nat),
      V.Nodup ∧ F.Perm V ∧
      (∀ b, b ∈ V ↔ ∃ k p σ, (k, p) ∈ E ∧ paths[b]? = some (π ++ k :: σ)) ∧
      P.report mode E π.length = V.filterMap (P.lineOf mode paths) ∧
      (P.report mode E π.length).length = V.length ∧
      ∀ (fuel : Nat) (st : PrintState), P.heap.length + 1 ≤ fuel + π.length →
        (∀ b, b ∈ V → b ∉ st.freed) →
        P.printStatsMap mode fuel E π.length st =
          some { fs := st.fs ++ P.report mode E π.length, freed := st.freed ++ F } := by
  obtain ⟨L, V, F, k1, k2, k3, k4, k5, k6⟩ :=
    printStatsMap_tree mode h P.heap.length π E (by omega) hπ hnd hE
  have hrep : P.report mode E π.length = L := by
    have := k6 (P.heap.length + 1) { fs := [], freed := [] } (by omega)
      (fun b _ hb => by cases hb)
    simp only [Profiler.report, this, List.nil_append]
  rw [hrep]
  exact ⟨V, F, k1, k2, k3, k4, k5, k6⟩

/-- The report of sibling entries: the line of the first record, then the
report of its child map one level deeper, then the report of the entries
after it. -/
theorem report_cons (mode : Mode) {P : Profiler} {paths : List (List String)}
    (h : ReportInv mode P paths) (π : List String) (k : String) (p : Nat) (rest : ProfileMap)
    (hπ : π.length ≤ P.heap.length) (hnd : (((k, p) :: rest).map Prod.fst).Nodup)
    (hE : ∀ (k1 : String) (p1 : Nat), (k1, p1) ∈ (k, p) :: rest →
      paths[p1]? = some (π ++ [k1])) :
    ∃ r, P.heap[p]? = some r ∧ r.m_name = k ∧
      P.report mode ((k, p) :: rest) π.length =
        Profiler.printLine mode r π.length ::
          (P.report mode r.m_subProfiles (π.length + 1) ++ P.report mode rest π.length) := by
  have hp : paths[p]? = some (π ++ [k]) := hE k p (List.mem_cons_self _ _)
  obtain ⟨r, hr⟩ := treeRep_valid h.rep hp
  have hname : r.m_name = k := by
    have := h.rep.names p r _ hr hp
    simpa using this.symm
  have hdepth : π.length + 1 ≤ P.heap.length := by
    have := treeRep_depth h.rep hp
    simpa using this
  simp only [List.map_cons, List.nodup_cons] at hnd
  obtain ⟨V1, F1, _, v2, v3, _, _, v6⟩ := report_tree mode h (π ++ [k]) r.m_subProfiles
    (by simpa using hdepth) (sorted_keys_nodup _ (h.sorted.2 p r hr))
    (fun k1 p1 hmem => (h.rep.subs p r (π ++ [k]) hr hp k1 p1).1
      (find_of_mem _ k1 p1 (sorted_keys_nodup _ (h.sorted.2 p r hr)) hmem))
  obtain ⟨V2, F2, _, _, w3, _, _, w6⟩ := report_tree mode h π rest hπ hnd.2
    (fun k2 p2 hmem => hE k2 p2 (List.mem_cons_of_mem _ hmem))
  simp only [List.length_append, List.length_singleton] at v6
  refine ⟨r, hr, hname, ?_⟩
  have hV2 : ∀ b, b ∈ V2 → ∃ k2 σ2, k2 ≠ k ∧ paths[b]? = some (π ++ k2 :: σ2) := by
    intro b hb
    obtain ⟨k2, p2, σ2, hmem, hpath⟩ := (w3 b).1 hb
    refine ⟨k2, σ2, ?_, hpath⟩
    intro heq
    subst heq
    exact hnd.1 (List.mem_map.2 ⟨(k2, p2), hmem, rfl⟩)
  have hF1 : mode = .flat → F1 = [] := by
    intro hm
    have hnil : r.m_subProfiles = [] := h.flat hm p r hr
    have hV1 : V1 = [] := by
      rw [List.eq_nil_iff_forall_not_mem]
      intro b hb
      obtain ⟨k1, p1, σ1, hmem, _⟩ := (v3 b).1 hb
      rw [hnil] at hmem
      cases hmem
    rw [hV1] at v2
    exact v2.eq_nil
  have hentry : P.printEntry mode (P.printStatsMap mode P.heap.length) π.length
      { fs := [], freed := [] } (k, p) =
      some { fs := Profiler.printLine mode r π.length ::
                P.report mode r.m_subProfiles (π.length + 1),
             freed := F1 ++ [p] } := by
    cases mode with
    | callGraph =>
      have hrun := v6 P.heap.length
        { fs := [] ++ [Profiler.printLine .callGraph r π.length], freed := [] }
        (by omega) (fun b _ hb => by cases hb)
      simp only [List.nil_append] at hrun
      simp only [Profiler.printEntry, List.mem_nil_iff, if_false, hr, Profile.getSubProfiles,
        hrun, List.nil_append, List.singleton_append]
    | flat =>
      have hnil : r.m_subProfiles = [] := h.flat rfl p r hr
      simp only [Profiler.printEntry, List.mem_nil_iff, if_false, hr, hnil, report_nil,
        hF1 rfl, List.nil_append]
  have hrest := w6 (P.heap.length + 1)
    { fs := Profiler.printLine mode r π.length ::
        P.report mode r.m_subProfiles (π.length + 1),
      freed := F1 ++ [p] } (by omega) (by
      intro b hb
      obtain ⟨k2, σ2, hne, hpath2⟩ := hV2 b hb
      simp only [List.mem_append, List.mem_singleton, not_or]
      constructor
      · intro hF
        obtain ⟨k1, p1, σ1, _, hpath1⟩ := (v3 b).1 (v2.subset hF)
        rw [hpath2] at hpath1
        have := Option.some.inj hpath1
        rw [List.append_assoc] at this
        have := List.append_cancel_left this
        simp only [List.singleton_append, List.cons.injEq] at this
        exact hne this.1
      · intro hbp
        subst hbp
        rw [hp] at hpath2
        have := List.append_cancel_left (Option.some.inj hpath2)
        simp only [List.cons.injEq] at this
        exact hne this.1.symm)
  have hall : P.printStatsMap mode (P.heap.length + 1) ((k, p) :: rest) π.length
      { fs := [], freed := [] } =
      some { fs := Profiler.printLine mode r π.length ::
                (P.report mode r.m_subProfiles (π.length + 1) ++ P.report mode rest π.length),
             freed := F1 ++ [p] ++ F2 } := by
    rw [printStatsMap_cons mode P _ π.length _ _ (k, p) rest hentry, hrest]
    simp
  simp only [Profiler.report, hall]

theorem tabs_succ (d : Nat) : tabs (d + 1) = tabs d ++ "\t" := by
  simp [tabs, List.range_succ]

theorem tabs_data (d : Nat) : (tabs d).data = List.replicate d (Char.ofNat 9) := by
  induction d with
  | zero => rfl
  | succ d ih =>
    rw [tabs_succ, String.data_append, ih, List.replicate_succ']

theorem root_entries {P : Profiler} {paths : List (List String)} (hrep : TreeRep P paths)
    (hsorted : SortedMaps P) (k : String) (p : Nat) (hmem : (k, p) ∈ P.m_profiles) :
    paths[p]? = some ([] ++ [k]) :=
  (hrep.root k p).1 (find_of_mem _ k p (sorted_keys_nodup _ hsorted.1) hmem)

/-- The report of a tree: `printStats` succeeds, and its lines are the lines of
all the records, each once, every record at its depth; every record is
deleted once. -/
theorem printStats_tree (mode : Mode) {P : Profiler} {paths : List (List String)}
    (h : ReportInv mode P paths) :
    ∃ (st : PrintState) (V : List Nat),
      P.printStats mode true [] = some st ∧
      V.Perm (List.range P.heap.length) ∧
      st.fs = V.filterMap (P.lineOf mode paths) ∧
      st.fs.length = P.heap.length ∧
      st.freed.Perm (List.range P.heap.length) ∧
      st.fs = P.report mode P.m_profiles 0 := by
  obtain ⟨V, F, k1, k2, k3, k4, k5, k6⟩ := report_tree mode h [] P.m_profiles (Nat.zero_le _)
    (sorted_keys_nodup _ h.sorted.1) (root_entries h.rep h.sorted)
  have hV : V.Perm (List.range P.heap.length) := by
    rw [List.perm_ext_iff_of_nodup k1 (List.nodup_range _)]
    intro b
    rw [k3 b, List.mem_range]
    constructor
    · rintro ⟨k, p, σ, _, hpath⟩
      have := (List.getElem?_eq_some.1 hpath).1
      rw [h.rep.len] at this
      exact this
    · intro hb
      rw [← h.rep.len] at hb
      have hpath : paths[b]? = some paths[b] := List.getElem?_eq_getElem hb
      have hne := treeRep_ne_nil h.rep hpath
      cases hπ : paths[b] with
      | nil => exact absurd hπ hne
      | cons k σ =>
        rw [hπ] at hpath
        obtain ⟨a, ha⟩ := treeRep_closed h.rep [k] σ (by simp) b (by simpa using hpath)
        exact ⟨k, a, σ, mem_of_find _ _ _ ((h.rep.root k a).2 ha), by simpa using hpath⟩
  have hrun := k6 (P.heap.length + 1) { fs := [], freed := [] } (by omega)
    (fun b _ hb => by cases hb)
  simp only [List.length_nil, List.nil_append] at hrun k4 k5
  refine ⟨{ fs := P.report mode P.m_profiles 0, freed := F }, V, ?_, hV, k4, ?_,
    k2.trans hV, rfl⟩
  · simp only [Profiler.printStats, Bool.not_true, Bool.false_eq_true, if_false]
    exact hrun
  · show (P.report mode P.m_profiles 0).length = P.heap.length
    rw [k5, hV.length_eq, List.length_range]

/-- The report of the entries of a map of the tree from any entry on. -/
theorem report_suffix (mode : Mode) {P : Profiler} {paths : List (List String)}
    (h : ReportInv mode P paths) (π : List String) (m : ProfileMap)
    (hπ : π.length ≤ P.heap.length) (hm : m.Sorted)
    (hpaths : ∀ (k : String) (p : Nat), m.find k = some p ↔ paths[p]? = some (π ++ [k]))
    (pre : ProfileMap) (k : String) (p : Nat) (rest : ProfileMap)
    (heq : m = pre ++ (k, p) :: rest) :
    ∃ r, P.heap[p]? = some r ∧ r.m_name = k ∧
      P.report mode ((k, p) :: rest) π.length =
        Profiler.printLine mode r π.length ::
          (P.report mode r.m_subProfiles (π.length + 1) ++ P.report mode rest π.length) := by
  have hnd := sorted_keys_nodup m hm
  refine report_cons mode h π k p rest hπ ?_ ?_
  · rw [heq, List.map_append, List.nodup_append] at hnd
    exact hnd.2.1
  · intro k1 p1 hmem
    refine (hpaths k1 p1).1 (find_of_mem m k1 p1 hnd ?_)
    rw [heq]
    exact List.mem_append_right _ hmem

theorem sorted_lt (m : ProfileMap) (h : m.Sorted) : m.Pairwise (fun x y => x.1 < y.1) := by
  refine List.Pairwise.imp ?_ h
  intro a b hab
  exact (data_lt_iff _ _).1 hab

/-! ## Call-graph mode: the stack is a path of the tree -/

/-- The record at position `i` of the stack is the record of the first `i + 1`
names of the current call path. -/
theorem stackOn_getElem {paths : List (List String)} {st : List Nat} {cur : List String}
    (h : StackOn paths st cur) (i p : Nat) (hi : st[i]? = some p) :
    i < cur.length ∧ paths[p]? = some (cur.take (i + 1)) := by
  induction h with
  | nil => simp at hi
  | @snoc st cur a n hst ha ih =>
    have hlen := stackOn_length hst
    rcases (getElem?_snoc_eq_some _ _ _ _).1 hi with h1 | ⟨h1, h2⟩
    · obtain ⟨k1, k2⟩ := ih h1
      refine ⟨by simp only [List.length_append, List.length_singleton]; omega, ?_⟩
      rw [List.take_append_of_le_length (by omega)]
      exact k2
    · subst h2
      refine ⟨by simp only [List.length_append, List.length_singleton]; omega, ?_⟩
      rw [h1, hlen, List.take_of_length_le (by simp)]
      exact ha

/-- In a well-formed call-graph state the stack is a path of the record tree. -/
theorem stack_is_path {s : Exec} {paths hist : List (List String)} {cur : List String}
    (h : GraphInv s paths hist cur) :
    (∀ (p : Nat) (rest : List Nat), s.profiler.m_profileStack = p :: rest →
      ∃ r, s.profiler.heap[p]? = some r ∧ s.profiler.m_profiles.find r.m_name = some p) ∧
    (∀ (i q p : Nat), s.profiler.m_profileStack[i]? = some q →
      s.profiler.m_profileStack[i + 1]? = some p →
      ∃ rq r, s.profiler.heap[q]? = some rq ∧ s.profiler.heap[p]? = some r ∧
        rq.m_subProfiles.find r.m_name = some p) := by
  constructor
  · intro p rest hst
    obtain ⟨hlt, hpath⟩ := stackOn_getElem h.stack 0 p (by rw [hst]; simp)
    obtain ⟨r, hr⟩ := treeRep_valid h.rep hpath
    have hname := h.rep.names p r _ hr hpath
    cases hcur : cur with
    | nil => rw [hcur] at hlt; simp at hlt
    | cons n ns =>
      rw [hcur] at hpath hname
      simp only [Nat.zero_add, List.take_succ_cons, List.take_zero, List.getLast?_singleton,
        Option.some.injEq] at hpath hname
      refine ⟨r, hr, ?_⟩
      rw [← hname]
      exact (h.rep.root n p).2 hpath
  · intro i q p hq hp
    obtain ⟨_, hqpath⟩ := stackOn_getElem h.stack i q hq
    obtain ⟨hlt, hppath⟩ := stackOn_getElem h.stack (i + 1) p hp
    obtain ⟨rq, hrq⟩ := treeRep_valid h.rep hqpath
    obtain ⟨r, hr⟩ := treeRep_valid h.rep hppath
    have hname := h.rep.names p r _ hr hppath
    have htake : cur.take (i + 1 + 1) = cur.take (i + 1) ++ [cur[i + 1]] := by
      rw [List.take_succ, List.getElem?_eq_getElem hlt]
      rfl
    rw [htake] at hppath hname
    simp only [List.getLast?_append, List.getLast?_singleton, Option.or, Option.some.injEq]
      at hname
    refine ⟨rq, r, hrq, hr, ?_⟩
    rw [← hname]
    exact (h.rep.subs q rq _ hrq hqpath _ p).2 hppath

/-! ## Call-graph mode: no name twice on a path while recursive calls are omitted -/

theorem ctor_flag (mode : Mode) (P : Profiler) (n : String) (t : Int) :
    (ScopedProfile.ctor mode P n t).2.m_omitRecursiveCalls = P.m_omitRecursiveCalls := by
  rcases ctor_cases mode P n t with hc | ⟨n1, p, _, hc⟩
  · rw [hc]
  · rw [hc]
    cases mode with
    | callGraph => simp only [start_callGraph_eq, getProfile_flag]
    | flat =>
      simp only [Profile.start]
      split
      · exact getProfile_flag .flat P n1
      · exact getProfile_flag .flat P n1

theorem dtor_flag (mode : Mode) (g : ScopedProfile) (P : Profiler) (t : Int) :
    (g.dtor mode P t).m_omitRecursiveCalls = P.m_omitRecursiveCalls := by
  cases hg : g.m_profile with
  | none => simp [ScopedProfile.dtor, hg]
  | some p =>
    cases mode with
    | callGraph =>
      simp only [ScopedProfile.dtor, hg, Profile.stop, Profiler.popProfile,
        Profiler.modifyProfile]
      split <;> rfl
    | flat =>
      simp only [ScopedProfile.dtor, hg, Profile.stop, Profiler.modifyProfile]
      split <;> rfl

/-- The names of the records on the stack, from the bottom up, are the names
of the current call path. -/
theorem stackOn_nameList {P : Profiler} {paths : List (List String)} (hrep : TreeRep P paths)
    {st : List Nat} {cur : List String} (h : StackOn paths st cur) :
    st.filterMap P.nameOf = cur := by
  induction h with
  | nil => rfl
  | snoc a n _ ha ih =>
    obtain ⟨ra, hra⟩ := treeRep_valid hrep ha
    have hname : ra.m_name = n := by
      have := hrep.names a ra _ hra ha
      simpa using this.symm
    rw [List.filterMap_append, ih]
    simp [Profiler.nameOf, hra, Profile.getName, hname]

/-- While recursive calls are omitted, the current call path and the call
path of every activation started so far have no name twice. -/
theorem omitting_run (tr : List Event) (s : Exec) (paths hist : List (List String))
    (cur : List String) (h : GraphInv s paths hist cur)
    (hflag : s.profiler.m_omitRecursiveCalls = true) (hcur : cur.Nodup)
    (hhist : ∀ π, π ∈ hist → π.Nodup) (hk : keepsOmitting tr = true) :
    ∃ (paths1 hist1 : List (List String)) (cur1 : List String),
      GraphInv (run .callGraph s tr) paths1 hist1 cur1 ∧
      (run .callGraph s tr).profiler.m_omitRecursiveCalls = true ∧
      cur1.Nodup ∧ ∀ π, π ∈ hist1 → π.Nodup := by
  induction tr generalizing s paths hist cur with
  | nil => exact ⟨paths, hist, cur, h, hflag, hcur, hhist⟩
  | cons e tr ih =>
    rw [run_cons]
    cases e with
    | enter n now =>
      have hk1 : keepsOmitting tr = true := by simpa [keepsOmitting] using hk
      have hflag1 : (step .callGraph s (Event.enter n now)).profiler.m_omitRecursiveCalls =
          true := by
        simp only [step, ctor_flag, hflag]
      cases hin : s.profiler.isInStack n with
      | true =>
        have hs : step .callGraph s (Event.enter n now) =
            { profiler := s.profiler, guards := { m_profile := none } :: s.guards } := by
          simp only [step, ctor_omitted s.profiler n now hin hflag]
        have hinv : GraphInv (step .callGraph s (Event.enter n now)) paths hist cur := by
          rw [hs]
          exact ⟨h.rep, h.stack, by simpa [List.filterMap_cons] using h.guards, h.hist_iff,
            h.counts, h.bounded⟩
        exact ih _ paths hist cur hinv hflag1 hcur hhist hk1
      | false =>
        have hn : n ∉ cur := by
          intro hmem
          have := (graphInv_isInStack h n).2 hmem
          rw [hin] at this
          cases this
        obtain ⟨b, paths1, _, hinv⟩ := graphInv_enter_fresh h n now hn
        have hnew : (cur ++ [n]).Nodup := by
          rw [List.nodup_append]
          refine ⟨hcur, List.nodup_singleton n, ?_⟩
          intro x hx hx1
          rw [List.mem_singleton] at hx1
          subst hx1
          exact hn hx
        refine ih _ paths1 _ _ hinv hflag1 hnew ?_ hk1
        intro π hπ
        rcases List.mem_append.1 hπ with h1 | h1
        · exact hhist π h1
        · rw [List.mem_singleton] at h1
          rw [h1]
          exact hnew
    | leave now =>
      have hk1 : keepsOmitting tr = true := by simpa [keepsOmitting] using hk
      cases hG : s.guards with
      | nil =>
        have hs : step .callGraph s (Event.leave now) = s := by
          simp only [step, hG]
        rw [hs]
        exact ih s paths hist cur h hflag hcur hhist hk1
      | cons g G =>
        have hflag1 : (step .callGraph s (Event.leave now)).profiler.m_omitRecursiveCalls =
            true := by
          simp only [step, hG, dtor_flag, hflag]
        cases hg : g.m_profile with
        | none =>
          have hinv : GraphInv (step .callGraph s (Event.leave now)) paths hist cur := by
            simp only [step, hG, ScopedProfile.dtor, hg]
            have hgs := h.guards
            rw [hG] at hgs
            exact ⟨h.rep, h.stack, by simpa [List.filterMap_cons, hg] using hgs, h.hist_iff,
              h.counts, h.bounded⟩
          exact ih _ paths hist cur hinv hflag1 hcur hhist hk1
        | some p =>
          have hG1 : s.guards = { m_profile := some p } :: G := by
            rw [hG]
            congr
            cases g
            simp only [ScopedProfile.mk.injEq]
            exact hg
          obtain ⟨_, _, hinv⟩ := graphInv_leave_active h p G now hG1
          exact ih _ paths hist _ hinv hflag1
            (List.Nodup.sublist (List.dropLast_sublist cur) hcur) hhist hk1
    | setOmit b =>
      simp only [keepsOmitting, Bool.and_eq_true] at hk
      have hb : b = true := hk.1
      subst hb
      exact ih _ paths hist cur (graphInv_setOmit h true) rfl hcur hhist hk.2

/-! ## Call-graph mode: a fresh region inside a skipped activation -/

/-- A guard for a region that is not on the stack, constructed while the
innermost guard is a skipped one. -/
theorem fresh_region_skipped (s : Exec)
    (paths hist : List (List String)) (cur : List String) (G : List ScopedProfile)
    (k : String) (t : Nat) (now now2 : Int)
    (h : GraphInv s paths hist cur)
    (hskip : s.guards = { m_profile := none } :: G)
    (htop : s.profiler.m_profileStack.getLast? = some t)
    (hk : s.profiler.isInStack k = false) :
    ∃ (p : Nat) (paths1 : List (List String)),
      (s.profiler.getProfile .callGraph k).1 = some p ∧
      (step .callGraph s (.enter k now)).guards =
        { m_profile := some p } :: { m_profile := none } :: G ∧
      (step .callGraph s (.enter k now)).profiler.m_profileStack =
        s.profiler.m_profileStack ++ [p] ∧
      (∃ rt, (step .callGraph s (.enter k now)).profiler.heap[t]? = some rt ∧
        rt.m_subProfiles.find k = some p) ∧
      (∃ r, (step .callGraph s (.enter k now)).profiler.heap[p]? = some r ∧
        r.m_name = k ∧ r.m_timer.m_running = true ∧ r.m_timer.m_startTime = now) ∧
      (∀ (P : Profiler) (r : Profile), P.heap[p]? = some r →
        ∃ r', (ScopedProfile.dtor .callGraph { m_profile := some p } P now2).heap[p]? =
            some r' ∧
          r'.m_callCount = (r.m_callCount + 1) % UINT_RANGE) ∧
      (step .callGraph (step .callGraph s (.enter k now)) (.leave now2)).guards =
        { m_profile := none } :: G ∧
      (step .callGraph (step .callGraph s (.enter k now))
        (.leave now2)).profiler.m_profileStack = s.profiler.m_profileStack ∧
      (step .callGraph (step .callGraph s (.enter k now)) (.leave now2)).profiler =
        ScopedProfile.dtor .callGraph { m_profile := some p }
          (step .callGraph s (.enter k now)).profiler now2 ∧
      paths1[p]? = some (cur ++ [k]) ∧
      GraphInv (step .callGraph s (.enter k now)) paths1 (hist ++ [cur ++ [k]])
        (cur ++ [k]) := by
  have hsk : (s.profiler.isInStack k && s.profiler.getOmitRecursiveCalls) = false := by
    simp [hk]
  obtain ⟨p, hp, hc⟩ := ctor_callGraph_resolved s.profiler k now hsk
  simp only [hk, Bool.false_eq_true, if_false] at hp hc
  obtain ⟨b, paths1, hb, hinv⟩ := graphInv_activate h k now
  rw [hp] at hb
  cases hb
  have hstep : step .callGraph s (Event.enter k now) =
      { profiler := (Profile.start .callGraph (s.profiler.getProfile .callGraph k).2 p now).2,
        guards := { m_profile := some p } :: s.guards } := by
    simp only [step, hc]
  have hstack : (step .callGraph s (.enter k now)).profiler.m_profileStack =
      s.profiler.m_profileStack ++ [p] := by
    rw [hstep]
    simp only [start_stack_callGraph, getProfile_stack]
  rw [← hstep] at hinv
  have hst := hinv.stack
  rw [hstack] at hst
  obtain ⟨cur0, n0, he, hst0, hpath⟩ := stackOn_concat_inv hst
  obtain ⟨he1, he2⟩ := List.append_inj' he rfl
  simp only [List.cons.injEq, and_true] at he2
  subst he1
  subst he2
  have htpath : paths1[t]? = some cur := by
    rcases stackOn_top hst0 with ⟨h1, _⟩ | ⟨st', t', h1, _, h3, _⟩
    · rw [h1] at htop
      simp at htop
    · rw [h1] at htop
      simp only [List.getLast?_append, List.getLast?_singleton, Option.or,
        Option.some.injEq] at htop
      subst htop
      exact h3
  obtain ⟨rt, hrt⟩ := treeRep_valid hinv.rep htpath
  obtain ⟨r, hr⟩ := treeRep_valid hinv.rep hpath
  have hname : r.m_name = k := by
    have := hinv.rep.names p r _ hr hpath
    simpa using this.symm
  have hleave := graphInv_leave_active hinv p s.guards now2 (by rw [hstep])
  have hs2 : (step .callGraph (step .callGraph s (.enter k now)) (.leave now2)).profiler =
      ScopedProfile.dtor .callGraph { m_profile := some p }
        (step .callGraph s (.enter k now)).profiler now2 := by
    rw [hstep]
    rfl
  refine ⟨p, paths1, hp, by rw [hstep, hskip], hstack,
    ⟨rt, hrt, (hinv.rep.subs t rt cur hrt htpath k p).2 hpath⟩,
    ⟨r, hr, hname, ?_, ?_⟩, ?_, by rw [hleave.2.1, hskip], ?_, hs2, hpath, hinv⟩
  · rw [hstep] at hr
    simp only [start_callGraph_eq, getElem?_modifyAt_self, Option.map_eq_some'] at hr
    obtain ⟨r1, _, hr1⟩ := hr
    rw [← hr1]
    rfl
  · rw [hstep] at hr
    simp only [start_callGraph_eq, getElem?_modifyAt_self, Option.map_eq_some'] at hr
    obtain ⟨r1, _, hr1⟩ := hr
    rw [← hr1]
    rfl
  · intro P r0 hr0
    obtain ⟨r', h1, h2, _⟩ := stop_record .callGraph P p r0 now2 hr0 rfl
    exact ⟨r', h1, h2⟩
  · have hd := dtor_callGraph_stack_eq { m_profile := some p }
      (step .callGraph s (.enter k now)).profiler now2
    rw [hs2, hd]
    simp only [hstack, List.dropLast_concat]

/-- Activations of one region that do not overlap, inside the open scopes
`cur`: each is on the call path `cur ++ [name]`. -/
theorem sequentialCalls_paths_under (cur : List String) (name : String)
    (acts : List (Int × Int)) (hn : name ∉ cur) :
    nonRecursive cur (sequentialCalls name acts) = true ∧
    callPaths cur (sequentialCalls name acts) = List.replicate acts.length (cur ++ [name]) ∧
    openAfter cur (sequentialCalls name acts) = cur ∧
    keepsOmitting (sequentialCalls name acts) = true := by
  induction acts with
  | nil => exact ⟨rfl, rfl, rfl, rfl⟩
  | cons a acts ih =>
    obtain ⟨t0, t1⟩ := a
    obtain ⟨i1, i2, i3, i4⟩ := ih
    refine ⟨?_, ?_, ?_, ?_⟩
    · simp [sequentialCalls, nonRecursive, hn, i1]
    · simp [sequentialCalls, callPaths, i2, List.replicate_succ]
    · simp [sequentialCalls, openAfter, i3]
    · simpa [sequentialCalls, keepsOmitting] using i4

/-- The state in which `k` has completed `2 ^ 32 - 1` activations inside `f`
and a recursive activation of `f` has just been skipped. -/
theorem skipped_state (n : Nat) :
    ∃ (paths : List (List String)) (t : Nat),
      GraphInv
        (run .callGraph Exec.init (Event.enter "f" 0 ::
          (sequentialCalls "k" (List.replicate n (0, 1)) ++ [Event.enter "f" 1])))
        paths (["f"] :: List.replicate n ["f", "k"]) ["f"] ∧
      (run .callGraph Exec.init (Event.enter "f" 0 ::
        (sequentialCalls "k" (List.replicate n (0, 1)) ++
          [Event.enter "f" 1]))).profiler.m_omitRecursiveCalls = true ∧
      (run .callGraph Exec.init (Event.enter "f" 0 ::
        (sequentialCalls "k" (List.replicate n (0, 1)) ++ [Event.enter "f" 1]))).guards =
        { m_profile := none } ::
          (run .callGraph Exec.init (Event.enter "f" 0 ::
            sequentialCalls "k" (List.replicate n (0, 1)))).guards ∧
      (run .callGraph Exec.init (Event.enter "f" 0 ::
        (sequentialCalls "k" (List.replicate n (0, 1)) ++
          [Event.enter "f" 1]))).profiler.m_profileStack.getLast? = some t ∧
      (run .callGraph Exec.init (Event.enter "f" 0 ::
        (sequentialCalls "k" (List.replicate n (0, 1)) ++
          [Event.enter "f" 1]))).profiler.isInStack "k" = false := by
  have hkf : "k" ∉ ["f"] := by decide
  obtain ⟨q1, q2, q3, q4⟩ :=
    sequentialCalls_paths_under ["f"] "k" (List.replicate n (0, 1)) hkf
  have hnr : nonRecursive [] (Event.enter "f" 0 ::
      sequentialCalls "k" (List.replicate n (0, 1))) = true := by
    simpa [nonRecursive] using q1
  have hkeep : keepsOmitting (Event.enter "f" 0 ::
      sequentialCalls "k" (List.replicate n (0, 1))) = true := by
    simpa [keepsOmitting] using q4
  obtain ⟨paths, hinv⟩ := graphInv_run _ Exec.init [] [] [] graphInv_init
    (fun g hg => by cases hg) hnr
  have hcp : callPaths [] (Event.enter "f" 0 ::
      sequentialCalls "k" (List.replicate n (0, 1))) =
      ["f"] :: List.replicate n ["f", "k"] := by
    simp only [callPaths, List.nil_append, q2, List.length_replicate, List.singleton_append]
  have hoa : openAfter [] (Event.enter "f" 0 ::
      sequentialCalls "k" (List.replicate n (0, 1))) = ["f"] := by
    simp only [openAfter, List.nil_append, q3]
  rw [hcp, hoa, List.nil_append] at hinv
  obtain ⟨_, _, _, _, hflag, _, _⟩ :=
    omitting_run _ Exec.init [] [] [] graphInv_init rfl List.nodup_nil
      (fun π hπ => by cases hπ) hkeep
  have hin : (run .callGraph Exec.init (Event.enter "f" 0 ::
      sequentialCalls "k" (List.replicate n (0, 1)))).profiler.isInStack "f" = true :=
    (graphInv_isInStack hinv "f").2 (by decide)
  have hrun : run .callGraph Exec.init (Event.enter "f" 0 ::
      (sequentialCalls "k" (List.replicate n (0, 1)) ++ [Event.enter "f" 1])) =
      { profiler := (run .callGraph Exec.init (Event.enter "f" 0 ::
          sequentialCalls "k" (List.replicate n (0, 1)))).profiler,
        guards := { m_profile := none } ::
          (run .callGraph Exec.init (Event.enter "f" 0 ::
            sequentialCalls "k" (List.replicate n (0, 1)))).guards } := by
    rw [← List.cons_append, run_append, run_cons, run_nil]
    simp only [step, ctor_omitted _ "f" 1 hin hflag]
  have hinv2 : GraphInv
      { profiler := (run .callGraph Exec.init (Event.enter "f" 0 ::
          sequentialCalls "k" (List.replicate n (0, 1)))).profiler,
        guards := { m_profile := none } ::
          (run .callGraph Exec.init (Event.enter "f" 0 ::
            sequentialCalls "k" (List.replicate n (0, 1)))).guards }
      paths (["f"] :: List.replicate n ["f", "k"]) ["f"] :=
    ⟨hinv.rep, hinv.stack, by simpa [List.filterMap_cons] using hinv.guards, hinv.hist_iff,
      hinv.counts, hinv.bounded⟩
  obtain ⟨t, ht⟩ : ∃ t, (run .callGraph Exec.init (Event.enter "f" 0 ::
      sequentialCalls "k" (List.replicate n (0, 1)))).profiler.m_profileStack.getLast? =
      some t := by
    rcases stackOn_top hinv.stack with ⟨_, h2⟩ | ⟨st', t, h1, _, _, _⟩
    · cases h2
    · exact ⟨t, by rw [h1]; simp⟩
  have hnk : (run .callGraph Exec.init (Event.enter "f" 0 ::
      sequentialCalls "k" (List.replicate n (0, 1)))).profiler.isInStack "k" = false := by
    cases hx : (run .callGraph Exec.init (Event.enter "f" 0 ::
      sequentialCalls "k" (List.replicate n (0, 1)))).profiler.isInStack "k" with
    | false => rfl
    | true => exact absurd ((graphInv_isInStack hinv "k").1 hx) hkf
  rw [hrun]
  exact ⟨paths, t, hinv2, hflag, rfl, ht, hnk⟩

/-- In that state the next activation of `k` is instrumented, finds the call
count `n % 2 ^ 32` and leaves the call count `(n + 1) % 2 ^ 32`. -/
theorem skipped_state_counts (n : Nat) :
    ∃ (G : List ScopedProfile) (p : Nat) (r r' : Profile),
      (run .callGraph Exec.init (skippedAfter n)).profiler.m_omitRecursiveCalls = true ∧
      (run .callGraph Exec.init (skippedAfter n)).guards = { m_profile := none } :: G ∧
      (run .callGraph Exec.init (skippedAfter n)).profiler.isInStack "k" = false ∧
      (step .callGraph (run .callGraph Exec.init (skippedAfter n))
        (Event.enter "k" 2)).guards = { m_profile := some p } :: { m_profile := none } :: G ∧
      (step .callGraph (run .callGraph Exec.init (skippedAfter n))
        (Event.enter "k" 2)).profiler.heap[p]? = some r ∧
      r.m_name = "k" ∧ r.m_callCount = n % UINT_RANGE ∧
      (step .callGraph (step .callGraph (run .callGraph Exec.init (skippedAfter n))
        (Event.enter "k" 2)) (Event.leave 3)).profiler.heap[p]? = some r' ∧
      r'.m_callCount = (n + 1) % UINT_RANGE := by
  unfold skippedAfter
  obtain ⟨paths, t, hinv, hflag, hguards, htop, hnk⟩ := skipped_state n
  obtain ⟨p, paths1, _, g1, g2, _, ⟨r, hr, hname, _, _⟩, g3, _, _, g4, hpath, hinv1⟩ :=
    fresh_region_skipped _ paths _ _ _ "k" t 2 3 hinv hguards htop hnk
  have hc := hinv1.counts p r _ hr hpath
  have hb := hinv1.bounded p r hr
  have hcount : List.count (["f"] ++ ["k"])
      ((["f"] :: List.replicate n ["f", "k"]) ++ [["f"] ++ ["k"]]) = n + 1 := by
    rw [List.count_append, List.count_cons]
    simp only [List.singleton_append, List.count_replicate_self, List.count_singleton_self]
    simp
  rw [g2, hcount] at hc
  simp only [List.mem_append, List.mem_singleton, or_true, if_true] at hc
  have hcc : r.m_callCount = n % UINT_RANGE := by
    simp only [UINT_RANGE] at hc hb ⊢
    omega
  obtain ⟨r', hr', hcc'⟩ := g3 _ r hr
  refine ⟨_, p, r, r', hflag, hguards, hnk, g1, hr, hname, hcc, ?_, ?_⟩
  · rw [g4]
    exact hr'
  · rw [hcc', hcc]
    simp only [UINT_RANGE]
    omega

end

/-! ## The claims -/

/-- C1 (as stated, refuted): in call-graph mode, after `2 ^ 32` activations of
`f` one after the other (well nested, fully closed, never opened while an
activation of `f` is open) the node at the call path `f` has a call count
other than the number of activations opened on that call path: the
`unsigned int` counter has wrapped around. -/
theorem C1_counterexample :
    closes 0 (sequentialCalls "f" (List.replicate UINT_RANGE (0, 1))) = true ∧
    nonRecursive [] (sequentialCalls "f" (List.replicate UINT_RANGE (0, 1))) = true ∧
    ∃ (a : Nat) (r : Profile),
      (run .callGraph Exec.init
        (sequentialCalls "f" (List.replicate UINT_RANGE (0, 1)))).profiler.nodeAt ["f"]
          = some a ∧
      (run .callGraph Exec.init
        (sequentialCalls "f" (List.replicate UINT_RANGE (0, 1)))).profiler.heap[a]? = some r ∧
      r.m_callCount ≠
        (callPaths [] (sequentialCalls "f" (List.replicate UINT_RANGE (0, 1)))).count ["f"] := by
  have hclosed := (sequentialCalls_counts "f" (List.replicate UINT_RANGE (0, 1))).1
  obtain ⟨hnr, hpaths⟩ := sequentialCalls_paths "f" (List.replicate UINT_RANGE (0, 1))
  refine ⟨hclosed, hnr, ?_⟩
  obtain ⟨paths, hinv⟩ := callGraph_closed_run _ hclosed hnr
  obtain ⟨h1, h2, _, _⟩ := graphInv_final hinv
  have hmem : ["f"] ∈ callPaths [] (sequentialCalls "f" (List.replicate UINT_RANGE (0, 1))) := by
    rw [hpaths, List.length_replicate, List.mem_replicate]
    exact ⟨by decide, rfl⟩
  obtain ⟨a, ha⟩ := Option.isSome_iff_exists.1 ((h1 ["f"]).2 hmem)
  obtain ⟨r, hr, _, hc⟩ := h2 ["f"] a ha
  refine ⟨a, r, ha, hr, ?_⟩
  rw [hc, hpaths, List.length_replicate, List.count_replicate_self, Nat.mod_self]
  decide

section

variable [TimeArith]

/-- C1 (amended): in call-graph mode, after every well-nested, fully closed
sequence of scope activations from the initial state in which no region is
opened while an activation of the same name is open, the record tree has a
node at a call path exactly when an activation was opened on that call path;
distinct call paths have distinct nodes and there are no other records (the
number of records is the number of distinct call paths); each node is named
by the last name of its call path and its call count equals, modulo `2 ^ 32`,
the number of activations opened on exactly that call path. -/
theorem C1_call_graph_mirrors_nesting (tr : List Event) (hclosed : closes 0 tr = true)
    (hnr : nonRecursive [] tr = true) :
    (∀ π : List String,
      ((run .callGraph Exec.init tr).profiler.nodeAt π).isSome = true ↔
        π ∈ callPaths [] tr) ∧
    (∀ (π : List String) (a : Nat),
      (run .callGraph Exec.init tr).profiler.nodeAt π = some a →
      ∃ r, (run .callGraph Exec.init tr).profiler.heap[a]? = some r ∧
        π.getLast? = some r.m_name ∧
        r.m_callCount = (callPaths [] tr).count π % UINT_RANGE) ∧
    (∀ (π π' : List String) (a : Nat),
      (run .callGraph Exec.init tr).profiler.nodeAt π = some a →
      (run .callGraph Exec.init tr).profiler.nodeAt π' = some a → π = π') ∧
    (run .callGraph Exec.init tr).profiler.heap.length = (callPaths [] tr).dedup.length := by
  obtain ⟨paths, hinv⟩ := callGraph_closed_run tr hclosed hnr
  exact graphInv_final hinv

end

theorem C1_call_graph_mirrors_nesting_witness :
    closes 0 [Event.enter "main" 0, .enter "f" 1, .leave 2, .enter "f" 3, .enter "k" 4,
      .leave 5, .leave 6, .leave 7] = true ∧
    nonRecursive [] [Event.enter "main" 0, .enter "f" 1, .leave 2, .enter "f" 3, .enter "k" 4,
      .leave 5, .leave 6, .leave 7] = true ∧
    (run .callGraph Exec.init [Event.enter "main" 0, .enter "f" 1, .leave 2, .enter "f" 3,
      .enter "k" 4, .leave 5, .leave 6, .leave 7]).profiler.heap.length =
      (callPaths [] [Event.enter "main" 0, .enter "f" 1, .leave 2, .enter "f" 3, .enter "k" 4,
        .leave 5, .leave 6, .leave 7]).dedup.length :=
  ⟨by decide, by decide,
    (C1_call_graph_mirrors_nesting [Event.enter "main" 0, .enter "f" 1, .leave 2, .enter "f" 3,
      .enter "k" 4, .leave 5, .leave 6, .leave 7] (by decide) (by decide)).2.2.2⟩

/-- C2 (as stated, refuted): in flat mode, after `2 ^ 32` activations of `g`
one after the other (a well-nested, fully closed sequence, each opened while
no activation of `g` is open) the call count of `g` is not `2 ^ 32`: the
`unsigned int` counter has wrapped around. -/
theorem C2_counterexample :
    closes 0 (sequentialCalls "g" (List.replicate UINT_RANGE (0, 1))) = true ∧
    (run .flat Exec.init
        (sequentialCalls "g" (List.replicate UINT_RANGE (0, 1)))).profiler.callCountOf "g" ≠
      outermostOpens "g" [] (sequentialCalls "g" (List.replicate UINT_RANGE (0, 1))) := by
  refine ⟨(sequentialCalls_counts "g" _).1, ?_⟩
  rw [(flat_wrapped "g").1, (sequentialCalls_counts "g" _).2, List.length_replicate]
  decide

section

variable [TimeArith]

/-- C2 (amended): in flat mode, after every well-nested, fully closed sequence
of scope activations from the initial state, the call count of each region
equals, modulo `2 ^ 32`, the number of its activations that were opened while
no other activation of the same name was open.  In particular a region
recursing to any depth `D >= 1` ends with call count 1, and after `h1(9)` of
the demo both `h1` and `h2` have call count 1. -/
theorem C2_flat_counts_outermost_activations (tr : List Event) (name : String)
    (hclosed : closes 0 tr = true) :
    (run .flat Exec.init tr).profiler.callCountOf name =
      outermostOpens name [] tr % UINT_RANGE ∧
    (∀ (g : String) (D : Nat) (ts us : List Int), 1 ≤ D → ts.length = D → us.length = D →
      (run .flat Exec.init
        (ts.map (Event.enter g) ++ us.map Event.leave)).profiler.callCountOf g = 1) ∧
    (∀ clock : Nat → Int,
      (run .flat Exec.init (demoH clock)).profiler.callCountOf "h1:37" = 1 ∧
      (run .flat Exec.init (demoH clock)).profiler.callCountOf "h2:45" = 1) := by
  refine ⟨flat_closed_count tr name hclosed, ?_, ?_⟩
  · intro g D ts us hD hts hus
    obtain ⟨h1, h2⟩ := recursion_counts g D ts us hD hts hus
    rw [flat_closed_count _ g h1, h2]
    decide
  · intro clock
    obtain ⟨h1, h2, h3⟩ := demoH_counts clock
    rw [flat_closed_count _ "h1:37" h1, flat_closed_count _ "h2:45" h1, h2, h3]
    decide

end

theorem C2_flat_counts_outermost_activations_witness :
    closes 0 (demoMain (fun i => i)) = true ∧
    (run .flat Exec.init (demoMain (fun i => i))).profiler.callCountOf "g:23" =
      outermostOpens "g:23" [] (demoMain (fun i => i)) % UINT_RANGE :=
  ⟨(demoMain_counts _).1,
    (C2_flat_counts_outermost_activations (demoMain (fun i => i)) "g:23"
      (demoMain_counts _).1).1⟩

/-- C3 (as stated, refuted): in flat mode, after `N = 2 ^ 32` activations of
`f` that do not overlap, the call count of `f` is not `N`; and, in the
arithmetic of `double`, after the two activations from reading 0 to reading 1
and from reading 1 to reading `2 ^ 53 + 2` the wall time of `f` is `2 ^ 53`
(the second difference `2 ^ 53 + 1` is rounded to `2 ^ 53`, and so is
`1 + 2 ^ 53`), not the sum `2 ^ 53 + 2` of the two differences. -/
theorem C3_counterexample :
    (List.replicate UINT_RANGE ((0 : Int), (1 : Int))).length = 4294967296 ∧
    (run .flat Exec.init
        (sequentialCalls "f" (List.replicate UINT_RANGE (0, 1)))).profiler.callCountOf "f" ≠
      4294967296 ∧
    (run .flat Exec.init
        (sequentialCalls "f" [(0, 1), (1, 9007199254740994)])).profiler.wallTimeOf "f" =
      9007199254740992 ∧
    (run .flat Exec.init
        (sequentialCalls "f" [(0, 1), (1, 9007199254740994)])).profiler.wallTimeOf "f" ≠
      (1 - 0) + (9007199254740994 - 1) := by
  refine ⟨List.length_replicate _ _, ?_, by decide, by decide⟩
  rw [(flat_wrapped "f").1]
  decide

section

variable [TimeArith]

/-- C3 (amended): in flat mode, after `N` activations of one region that do
not overlap, from the initial state, the region's record has call count
`N mod 2 ^ 32` (which is `N` when `N < 2 ^ 32`), and its wall time is what
`m_wallTime += m_timer.getElapsedTime()` accumulates from 0, one activation
after the other, the elapsed time of an activation being the clock reading at
the stop minus the reading at the start, with the addition and the
subtraction of the clock's number type (`totalElapsed`; nothing is assumed
about the two operations).  Started in any state in which the region is not
running, the `N` activations add `N` to its call count modulo `2 ^ 32` and
accumulate the `N` elapsed times on its wall time in the same way.  The two
consecutive calls of `f` in the demo give call count 2. -/
theorem C3_flat_sequential_calls (f : String) (N : Nat) (acts : List (Int × Int))
    (hN : acts.length = N) :
    (run .flat Exec.init (sequentialCalls f acts)).profiler.callCountOf f = N % UINT_RANGE ∧
    (run .flat Exec.init (sequentialCalls f acts)).profiler.wallTimeOf f =
      totalElapsed 0 acts ∧
    (N < UINT_RANGE →
      (run .flat Exec.init (sequentialCalls f acts)).profiler.callCountOf f = N) ∧
    (∀ (P : Profiler) (G : List ScopedProfile),
      (∀ p, P.m_profiles.find f = some p →
        ∃ r, P.heap[p]? = some r ∧ r.m_timeStarted = false) →
      P.callCountOf f < UINT_RANGE →
      (run .flat { profiler := P, guards := G } (sequentialCalls f acts)).guards = G ∧
      (run .flat { profiler := P, guards := G }
          (sequentialCalls f acts)).profiler.callCountOf f =
        (P.callCountOf f + N) % UINT_RANGE ∧
      (run .flat { profiler := P, guards := G }
          (sequentialCalls f acts)).profiler.wallTimeOf f =
        totalElapsed (P.wallTimeOf f) acts) ∧
    ((∀ w : Int, totalElapsed w [] = w) ∧
      ∀ (w t0 t1 : Int) (rest : List (Int × Int)),
        totalElapsed w ((t0, t1) :: rest) =
          totalElapsed (TimeArith.add w (TimeArith.sub t1 t0)) rest) ∧
    (∀ clock : Nat → Int,
      (run .flat Exec.init (demoMain clock)).profiler.callCountOf "f:8" = 2) := by
  obtain ⟨h1, h2⟩ := flat_sequential_calls_init f acts
  rw [hN] at h1
  refine ⟨h1, h2, fun hlt => by rw [h1, Nat.mod_eq_of_lt hlt], ?_,
    ⟨fun w => rfl, fun w t0 t1 rest => rfl⟩, ?_⟩
  · intro P G hidle hlt
    obtain ⟨P', hrun, hc, hw⟩ := flat_sequential_calls f acts P G hidle hlt
    rw [hrun]
    exact ⟨rfl, by rw [hc, hN], hw⟩
  intro clock
  obtain ⟨k1, k2, _⟩ := demoMain_counts clock
  rw [flat_closed_count _ "f:8" k1, k2]
  decide

end

theorem C3_flat_sequential_calls_witness :
    [((0 : Int), (5 : Int)), (7, 9), (10, 14)].length = 3 ∧
    (run .flat Exec.init
      (sequentialCalls "f" [(0, 5), (7, 9), (10, 14)])).profiler.callCountOf "f" =
        3 % UINT_RANGE ∧
    (run .flat Exec.init
      (sequentialCalls "f" [(0, 5), (7, 9), (10, 14)])).profiler.wallTimeOf "f" =
        totalElapsed 0 [(0, 5), (7, 9), (10, 14)] ∧
    totalElapsed 0 [(0, 5), (7, 9), (10, 14)] = 11 :=
  ⟨rfl, (C3_flat_sequential_calls "f" 3 [(0, 5), (7, 9), (10, 14)] rfl).1,
    (C3_flat_sequential_calls "f" 3 [(0, 5), (7, 9), (10, 14)] rfl).2.1, by decide⟩

section

variable [TimeArith]

/-- C4: in call-graph mode with `omitRecursiveCalls` true (the initial value),
a region `g` recursing to any depth `D >= 1` (`D` nested activations, then all
closed) leaves a record tree with exactly one node: it is stored under `g` in
the root map, is named `g`, has no children and has `callCount == 1`. -/
theorem C4_omitted_recursion_single_node (g : String) (D : Nat) (ts us : List Int)
    (hD : 1 ≤ D) (hts : ts.length = D) (hus : us.length = D) :
    (run .callGraph Exec.init
        (ts.map (Event.enter g) ++ us.map Event.leave)).profiler.m_profiles = [(g, 0)] ∧
    (run .callGraph Exec.init
        (ts.map (Event.enter g) ++ us.map Event.leave)).profiler.m_profileStack = [] ∧
    ∃ r, (run .callGraph Exec.init
        (ts.map (Event.enter g) ++ us.map Event.leave)).profiler.heap = [r] ∧
      r.m_name = g ∧ r.m_callCount = 1 ∧ r.m_subProfiles = [] := by
  cases ts with
  | nil => simp at hts; omega
  | cons t0 ts =>
    rcases List.eq_nil_or_concat us with hnil | ⟨us', u, hcat⟩
    · subst hnil; simp at hus; omega
    · rw [List.concat_eq_append] at hcat
      subst hcat
      have hlen : us'.length = ts.length := by
        simp only [List.length_append, List.length_cons, List.length_nil] at hus hts
        omega
      rw [List.map_cons, List.map_append, List.map_cons, List.map_nil,
        run_recursion_omitted g t0 ts us' u hlen]
      exact ⟨rfl, rfl, _, rfl, rfl, rfl, rfl⟩

end

theorem C4_omitted_recursion_single_node_witness :
    1 ≤ 3 ∧ [0, 1, 2].length = 3 ∧ [5, 6, 7].length = 3 ∧
    (run .callGraph Exec.init
      ([0, 1, 2].map (Event.enter "g") ++ [5, 6, 7].map Event.leave)).profiler.m_profiles
        = [("g", 0)] :=
  ⟨by decide, rfl, rfl,
    (C4_omitted_recursion_single_node "g" 3 [0, 1, 2] [5, 6, 7] (by decide) rfl rfl).1⟩

/-- C5 (as stated, refuted): with recursive calls marked, after `g` has
recursed to depth 3 there is no node `RECURSIVE@g`, sibling or child of the
node `g`, whose call count added to that of `g` gives 3. -/
theorem C5_counterexample :
    ¬ ∃ a b ra rb,
      (run .callGraph Exec.init (Event.setOmit false ::
        ([0, 1, 2].map (Event.enter "g") ++ [3, 4, 5].map Event.leave))).profiler.m_profiles.find "g"
          = some a ∧
      (run .callGraph Exec.init (Event.setOmit false ::
        ([0, 1, 2].map (Event.enter "g") ++ [3, 4, 5].map Event.leave))).profiler.heap[a]?
          = some ra ∧
      ((run .callGraph Exec.init (Event.setOmit false ::
        ([0, 1, 2].map (Event.enter "g") ++ [3, 4, 5].map Event.leave))).profiler.m_profiles.find
          (RECURSIVE_MARK ++ "g") = some b ∨
        ra.m_subProfiles.find (RECURSIVE_MARK ++ "g") = some b) ∧
      (run .callGraph Exec.init (Event.setOmit false ::
        ([0, 1, 2].map (Event.enter "g") ++ [3, 4, 5].map Event.leave))).profiler.heap[b]?
          = some rb ∧
      ra.m_callCount + rb.m_callCount = 3 := by
  rintro ⟨a, b, ra, rb, h1, h2, h3, h4, h5⟩
  obtain ⟨_, _, hroot, _, hrec⟩ :=
    recChain_recursion "g" 3 [0, 1, 2] [3, 4, 5] (by decide) rfl rfl
  rw [hroot] at h1 h3
  have ha : a = 0 := by
    simp only [ProfileMap.find, if_true, Option.some.injEq] at h1
    exact h1.symm
  subst ha
  obtain ⟨r0, k0, _, ks0, kc0⟩ := hrec 0 (by decide)
  rw [k0] at h2
  cases h2
  have hne : ¬ ("g" = RECURSIVE_MARK ++ "g") := by decide
  have hb : b = 1 := by
    rcases h3 with h3 | h3
    · simp [ProfileMap.find, hne] at h3
    · rw [ks0] at h3
      simp only [ProfileMap.find] at h3
      simpa using h3.symm
  subst hb
  obtain ⟨r1, k1, _, _, kc1⟩ := hrec 1 (by decide)
  rw [k1] at h4
  cases h4
  rw [kc0, kc1] at h5
  simp at h5

section

variable [TimeArith]

/-- C5 (amended): in call-graph mode with `omitRecursiveCalls` false, a region
`g` recursing to depth `D >= 2` leaves exactly `D` records: a node `g` in the
root map and `D - 1` nodes named `RECURSIVE@g` forming a chain (the first is
the only child of `g`, each next one the only child of the one before, the
last has no child); every one of them has `callCount == 1`, so the call
counts of `g` and of all the recursive-marked nodes add up to `D`. -/
theorem C5_marked_recursion_chain (g : String) (D : Nat) (ts us : List Int)
    (hD : 2 ≤ D) (hts : ts.length = D) (hus : us.length = D) :
    (run .callGraph Exec.init (Event.setOmit false ::
        (ts.map (Event.enter g) ++ us.map Event.leave))).profiler.heap.length = D ∧
    (run .callGraph Exec.init (Event.setOmit false ::
        (ts.map (Event.enter g) ++ us.map Event.leave))).profiler.m_profiles = [(g, 0)] ∧
    (∀ i, i < D → ∃ r,
      (run .callGraph Exec.init (Event.setOmit false ::
        (ts.map (Event.enter g) ++ us.map Event.leave))).profiler.heap[i]? = some r ∧
      r.m_name = (if i = 0 then g else RECURSIVE_MARK ++ g) ∧
      r.m_subProfiles = (if i + 1 < D then [(RECURSIVE_MARK ++ g, i + 1)] else []) ∧
      r.m_callCount = 1) ∧
    ((run .callGraph Exec.init (Event.setOmit false ::
        (ts.map (Event.enter g) ++ us.map Event.leave))).profiler.heap.map
          Profile.getCallCount).sum = D := by
  obtain ⟨hlen, _, hroot, _, hrec⟩ := recChain_recursion g D ts us (by omega) hts hus
  refine ⟨hlen, hroot, ?_, ?_⟩
  · intro i hi
    obtain ⟨r, h1, h2, h3, h4⟩ := hrec i hi
    exact ⟨r, h1, h2, h3, by simpa using h4⟩
  · rw [sum_map_eq_length, hlen]
    intro i r hi
    have hi' : i < D := by
      rw [← hlen]
      exact (List.getElem?_eq_some.1 hi).1
    obtain ⟨r', h1, _, _, h4⟩ := hrec i hi'
    rw [hi] at h1
    cases h1
    simpa [Profile.getCallCount] using h4

end

theorem C5_marked_recursion_chain_witness :
    2 ≤ 3 ∧ [0, 1, 2].length = 3 ∧ [3, 4, 5].length = 3 ∧
    ((run .callGraph Exec.init (Event.setOmit false ::
        ([0, 1, 2].map (Event.enter "g") ++ [3, 4, 5].map Event.leave))).profiler.heap.map
          Profile.getCallCount).sum = 3 :=
  ⟨by decide, rfl, rfl,
    (C5_marked_recursion_chain "g" 3 [0, 1, 2] [3, 4, 5] (by decide) rfl rfl).2.2.2⟩

section

variable [TimeArith]

/-- C6: in call-graph mode, when the name is already the name of a record on
the activation stack and `omitRecursiveCalls` is true, constructing a guard
for it leaves the whole profiler state unchanged and yields an inert guard,
whose destruction (in whatever later state) leaves the state unchanged too. -/
theorem C6_omitted_recursive_guard_is_inert (P : Profiler) (name : String) (now : Int)
    (hname : ∃ p ∈ P.m_profileStack, ∃ r, P.heap[p]? = some r ∧ r.m_name = name)
    (homit : P.m_omitRecursiveCalls = true) :
    ScopedProfile.ctor .callGraph P name now = ({ m_profile := none }, P) ∧
    ∀ (P' : Profiler) (later : Int),
      (ScopedProfile.ctor .callGraph P name now).1.dtor .callGraph P' later = P' := by
  have h := ctor_omitted P name now ((isInStack_iff P name).2 hname) homit
  refine ⟨h, fun P' later => ?_⟩
  rw [h]
  rfl

end

theorem C6_omitted_recursive_guard_is_inert_witness :
    (∃ p ∈ witnessOnStack.m_profileStack,
        ∃ r, witnessOnStack.heap[p]? = some r ∧ r.m_name = "g") ∧
    witnessOnStack.m_omitRecursiveCalls = true ∧
    ScopedProfile.ctor .callGraph witnessOnStack "g" 5 = ({ m_profile := none }, witnessOnStack) :=
  ⟨⟨0, by decide, Profile.ctor "g", rfl, rfl⟩, rfl,
    (C6_omitted_recursive_guard_is_inert witnessOnStack "g" 5
      ⟨0, by decide, Profile.ctor "g", rfl, rfl⟩ rfl).1⟩

section

variable [TimeArith]

/-- C7: in flat mode `Profile::start` returns false exactly when the record is
already running and `Profile::stop` returns false exactly when it is not
running; a call that returns false leaves the whole state, hence the record,
unchanged; and a guard constructed for a running record holds no record, the
state is unchanged and its destruction changes nothing. -/
theorem C7_flat_failed_start_stop (P : Profiler) (p : Nat) (r : Profile) (now : Int)
    (hp : P.heap[p]? = some r) :
    ((Profile.start .flat P p now).1 = false ↔ r.m_timeStarted = true) ∧
    ((Profile.stop .flat P p now).1 = false ↔ r.m_timeStarted = false) ∧
    ((Profile.start .flat P p now).1 = false → (Profile.start .flat P p now).2 = P) ∧
    ((Profile.stop .flat P p now).1 = false → (Profile.stop .flat P p now).2 = P) ∧
    (∀ name, P.m_profiles.find name = some p → r.m_timeStarted = true →
      ScopedProfile.ctor .flat P name now = ({ m_profile := none }, P) ∧
      ∀ (P' : Profiler) (later : Int),
        (ScopedProfile.ctor .flat P name now).1.dtor .flat P' later = P') := by
  have h1 := flat_start_fst P p r now hp
  have h2 := flat_stop_fst P p r now hp
  refine ⟨?_, ?_, ?_, ?_, ?_⟩
  · rw [h1]; cases r.m_timeStarted <;> simp
  · rw [h2]
  · intro h
    rw [h1] at h
    rw [flat_start_running P p r now hp (by simpa using h)]
  · intro h
    rw [h2] at h
    rw [flat_stop_idle P p r now hp h]
  · intro name hfind hrun
    have h := flat_ctor_running P name p r now hfind hp hrun
    refine ⟨h, fun P' later => ?_⟩
    rw [h]
    rfl

end

theorem C7_flat_failed_start_stop_witness :
    witnessRunning.heap[0]? =
      some { Profile.ctor "g" with m_timeStarted := true, m_timer := Timer.ctor.start 3 } ∧
    (Profile.start .flat witnessRunning 0 7).1 = false ∧
    (Profile.start .flat witnessRunning 0 7).2 = witnessRunning :=
  ⟨rfl,
    (C7_flat_failed_start_stop witnessRunning 0 _ 7 rfl).1.2 rfl,
    (C7_flat_failed_start_stop witnessRunning 0 _ 7 rfl).2.2.1
      ((C7_flat_failed_start_stop witnessRunning 0 _ 7 rfl).1.2 rfl)⟩

/-- C8 (as stated, refuted): a successful stop does not always increment the
call count by exactly 1, nor add exactly the elapsed time to the wall time.
The call count `2 ^ 32 - 1` is reached after that many activations; in a
state where the record `f` has this count, the wall time `2 ^ 53` and is
running since reading 0, the stop at reading 1 succeeds and leaves the call
count 0 (the `unsigned int` wraps around) and, in the arithmetic of `double`,
the wall time `2 ^ 53` (the sum `2 ^ 53 + 1` is rounded).  From the initial
state, the activation of `f` started at reading 1 and stopped at reading
`2 ^ 53 + 2` leaves the wall time `2 ^ 53`, not the difference `2 ^ 53 + 1`
of the two readings. -/
theorem C8_counterexample :
    (run .flat Exec.init
      (sequentialCalls "f" (List.replicate 4294967295 (0, 1)))).profiler.callCountOf "f" =
        4294967295 ∧
    (Profile.stop .flat witnessSaturated 0 1).1 = true ∧
    ∃ r r', witnessSaturated.heap[0]? = some r ∧
      (Profile.stop .flat witnessSaturated 0 1).2.heap[0]? = some r' ∧
      r.m_callCount = 4294967295 ∧ r'.m_callCount = 0 ∧
      r'.m_callCount ≠ r.m_callCount + 1 ∧
      r.m_wallTime = 9007199254740992 ∧ r.m_timer.m_startTime = 0 ∧
      r'.m_wallTime = 9007199254740992 ∧
      r'.m_wallTime ≠ r.m_wallTime + (1 - r.m_timer.m_startTime) ∧
      (run .flat Exec.init
        [Event.enter "f" 1, Event.leave 9007199254740994]).profiler.wallTimeOf "f" =
          9007199254740992 ∧
      (run .flat Exec.init
        [Event.enter "f" 1, Event.leave 9007199254740994]).profiler.wallTimeOf "f" ≠
          0 + (9007199254740994 - 1) := by
  refine ⟨?_, by decide, _, _, rfl, rfl, by decide, by decide, by decide, by decide, by decide,
    by decide, by decide, by decide, by decide⟩
  rw [(flat_sequential_calls_init "f" _).1, List.length_replicate]
  decide

section

variable [TimeArith]

/-- C8 (amended): in call-graph mode `Profile::start` returns true and appends
the record as the new top of the activation stack, and `Profile::stop` returns
true and removes the top of the stack.  In both modes a successful stop
increments the record's call count by one modulo `2 ^ 32` (by exactly one
unless the count is `2 ^ 32 - 1`, which wraps around to 0) and leaves every
other record unchanged; and when the record was started at reading `t0`,
calls on other records follow, and it is then stopped at reading `t1`, the
stop succeeds and replaces the wall time `w` by `w + (t1 - t0)` computed with
the addition and the subtraction of the clock's number type (nothing is
assumed about the two operations). -/
theorem C8_start_stop_effects (P : Profiler) (p : Nat) (r : Profile) (now : Int)
    (hp : P.heap[p]? = some r) :
    ((Profile.start .callGraph P p now).1 = true ∧
      (Profile.start .callGraph P p now).2.m_profileStack = P.m_profileStack ++ [p]) ∧
    ((Profile.stop .callGraph P p now).1 = true ∧
      (Profile.stop .callGraph P p now).2.m_profileStack = P.m_profileStack.dropLast ∧
      ∀ S top, P.m_profileStack = S ++ [top] →
        (Profile.stop .callGraph P p now).2.m_profileStack = S) ∧
    (∀ mode, (Profile.stop mode P p now).1 = true →
      (∃ r', (Profile.stop mode P p now).2.heap[p]? = some r' ∧
        r'.m_callCount = (r.m_callCount + 1) % UINT_RANGE ∧
        (r.m_callCount + 1 < UINT_RANGE → r'.m_callCount = r.m_callCount + 1) ∧
        (r.m_callCount + 1 = UINT_RANGE → r'.m_callCount = 0) ∧
        r'.m_wallTime =
          TimeArith.add r.m_wallTime (TimeArith.sub now r.m_timer.m_startTime)) ∧
      (Profile.stop mode P p now).2.heap.length = P.heap.length ∧
      ∀ q, q ≠ p → (Profile.stop mode P p now).2.heap[q]? = P.heap[q]?) ∧
    (∀ mode (cs : List Call) (t1 : Int),
      (Profile.start mode P p now).1 = true → (∀ c ∈ cs, c.target ≠ p) →
      (Profile.stop mode (applyCalls mode (Profile.start mode P p now).2 cs) p t1).1 = true ∧
      ∃ r', (Profile.stop mode (applyCalls mode (Profile.start mode P p now).2 cs) p t1).2.heap[p]?
            = some r' ∧
        r'.m_callCount = (r.m_callCount + 1) % UINT_RANGE ∧
        (r.m_callCount + 1 < UINT_RANGE → r'.m_callCount = r.m_callCount + 1) ∧
        r'.m_wallTime = TimeArith.add r.m_wallTime (TimeArith.sub t1 now)) := by
  refine ⟨⟨rfl, rfl⟩, ⟨rfl, stop_stack_callGraph P p now, ?_⟩, ?_, ?_⟩
  · intro S top hS
    rw [stop_stack_callGraph, hS, List.dropLast_concat]
  · intro mode h
    refine ⟨?_, ?_, fun q hq => stop_other mode P p q now hq⟩
    · obtain ⟨r', h1, h2, h3, _⟩ := stop_record mode P p r now hp h
      refine ⟨r', h1, h2, ?_, ?_, h3⟩
      · intro hlt
        rw [h2, Nat.mod_eq_of_lt hlt]
      · intro heq
        rw [h2, heq, Nat.mod_self]
    · rw [stop_heap mode P p now h, length_modifyAt]
  · intro mode cs t1 hstart hcs
    obtain ⟨r1, h1, h2, h3, h4, _, _, h5⟩ := start_record mode P p r now hp hstart
    have h6 : (applyCalls mode (Profile.start mode P p now).2 cs).heap[p]? = some r1 := by
      rw [applyCalls_other mode cs _ p hcs, h1]
    have h7 := stop_fst_of_started mode _ p r1 t1 h6 h5
    refine ⟨h7, ?_⟩
    obtain ⟨r', k1, k2, k3, _⟩ := stop_record mode _ p r1 t1 h6 h7
    refine ⟨r', k1, by rw [k2, h3], ?_, by rw [k3, h4, h2]⟩
    intro hlt
    rw [k2, h3, Nat.mod_eq_of_lt hlt]

end

theorem C8_start_stop_effects_witness :
    witnessTwoRecords.heap[0]? =
      some { Profile.ctor "f" with m_callCount := 4, m_wallTime := 10 } ∧
    ∃ r', (Profile.stop .flat (applyCalls .flat (Profile.start .flat witnessTwoRecords 0 20).2
            [Call.start 1 21, Call.stop 1 25]) 0 30).2.heap[0]? = some r' ∧
      r'.m_callCount = 4 + 1 ∧ r'.m_wallTime = TimeArith.add 10 (TimeArith.sub 30 20) ∧
      TimeArith.add 10 (TimeArith.sub 30 20) = 20 :=
  ⟨rfl,
    ((C8_start_stop_effects witnessTwoRecords 0 _ 20 rfl).2.2.2 .flat
      [Call.start 1 21, Call.stop 1 25] 30 rfl (by decide)).2.elim
      fun r' h => ⟨r', h.1, h.2.2.1 (by decide), h.2.2.2, by decide⟩⟩

/-- C9 (as stated, refuted): after `2 ^ 32` activations of `f` that each take
one clock tick, the record of `f` has call count 0 (the `unsigned int` has
wrapped around) and a wall time that is not 0. -/
theorem C9_counterexample :
    ∃ (p : Nat) (r : Profile),
      (run .flat Exec.init
        (sequentialCalls "f" (List.replicate UINT_RANGE (0, 1)))).profiler.heap[p]? = some r ∧
      r.m_callCount = 0 ∧ r.m_wallTime ≠ 0 := by
  obtain ⟨h1, h2⟩ := flat_wrapped "f"
  have hw : (run .flat Exec.init
      (sequentialCalls "f" (List.replicate UINT_RANGE (0, 1)))).profiler.wallTimeOf "f" ≠ 0 := by
    rw [h2]
    exact uint_range_cast_ne_zero
  obtain ⟨p, r, _, hr, k1, k2⟩ := record_of_wallTimeOf_ne_zero _ "f" hw
  exact ⟨p, r, hr, by rw [k2, h1], by rw [k1]; exact hw⟩

section

variable [TimeArith]

/-- C9 (amended): in either mode, in every state reached from the initial
state by a sequence of guard constructions and destructions with fewer than
`2 ^ 32` destructions, every record with `callCount == 0` has `wallTime == 0`. -/
theorem C9_zero_calls_zero_time (mode : Mode) (tr : List Event) (p : Nat) (r : Profile)
    (hfew : destructions tr < UINT_RANGE)
    (hr : (run mode Exec.init tr).profiler.heap[p]? = some r)
    (h0 : r.m_callCount = 0) : r.m_wallTime = 0 := by
  have hinit : CountsSound Exec.init.profiler.heap 0 := by
    intro q r' hq
    simp [Exec.init, Profiler.ctor] at hq
  have h := run_countsSound mode tr Exec.init 0 hinit (by omega)
  exact (h p r hr).2 h0

end

theorem C9_zero_calls_zero_time_witness :
    destructions [Event.enter "f" 3] < UINT_RANGE ∧
    (run .callGraph Exec.init [Event.enter "f" 3]).profiler.heap[0]? =
      some { Profile.ctor "f" with m_timer := Timer.ctor.start 3 } ∧
    ({ Profile.ctor "f" with m_timer := Timer.ctor.start 3 } : Profile).m_callCount = 0 ∧
    ({ Profile.ctor "f" with m_timer := Timer.ctor.start 3 } : Profile).m_wallTime = 0 :=
  ⟨by decide, rfl, rfl,
    C9_zero_calls_zero_time .callGraph [Event.enter "f" 3] 0
      { Profile.ctor "f" with m_timer := Timer.ctor.start 3 } (by decide) rfl rfl⟩

/-- C10 (as stated, refuted): after `g` is entered twice with recursive calls
omitted, two guards are open but the activation stack holds one record. -/
theorem C10_counterexample :
    (run .callGraph Exec.init [.enter "g" 0, .enter "g" 1]).profiler.m_profileStack.length ≠
      (run .callGraph Exec.init [.enter "g" 0, .enter "g" 1]).guards.length := by
  decide

section

variable [TimeArith]

/-- C10 (amended): in call-graph mode, after every sequence of guard
constructions and destructions from the initial state, the length of the
activation stack equals the number of open guards that hold a record (the
guards skipped as recursive are open but have no stack entry). -/
theorem C10_stack_length_eq_active_guards (tr : List Event) :
    (run .callGraph Exec.init tr).profiler.m_profileStack.length =
      ((run .callGraph Exec.init tr).guards.filter ScopedProfile.active).length :=
  run_stack_length tr Exec.init rfl

end

section

variable [TimeArith]

end

/-- C12 (the code deviates): `printStats` of `src/Profiny.h` does not only read
the records.  After one completed activation of `f`, in either mode, the first
`printStats` writes the line of `f` and deletes its record (`delete
it->second`), while `m_profiles` keeps the pointer; a second `printStats` with
no activation in between then reads the deleted record, which is undefined
behaviour, instead of producing the same report. -/
theorem C12_printStats_deletes_records :
    ((run .flat Exec.init [.enter "f" 0, .leave 1]).profiler.printStats .flat true [] =
      some { fs := [{ indent := "", name := "f", wall := 1, cc := 1, dividend := 1000,
                      divisor := 1 }],
             freed := [0] } ∧
      (run .flat Exec.init [.enter "f" 0, .leave 1]).profiler.m_profiles.find "f" = some 0 ∧
      (run .flat Exec.init [.enter "f" 0, .leave 1]).profiler.printStats .flat true [0] =
        none) ∧
    ((run .callGraph Exec.init [.enter "f" 0, .leave 1]).profiler.printStats .callGraph true [] =
      some { fs := [{ indent := "", name := "f", wall := 1, cc := 1, dividend := 1000,
                      divisor := 1 }],
             freed := [0] } ∧
      (run .callGraph Exec.init [.enter "f" 0, .leave 1]).profiler.m_profiles.find "f" =
        some 0 ∧
      (run .callGraph Exec.init [.enter "f" 0, .leave 1]).profiler.printStats .callGraph true
        [0] = none) := by
  decide

section

variable [TimeArith]

/-- C13: `setOmitRecursiveCalls(b)` changes only the flag (the free store, the
root map and the activation stack are unchanged), and destroying a guard
that is already constructed has the same effect on the records and on the
stack whatever the value of the flag at that moment: destruction commutes
with setting the flag. -/
theorem C13_toggle_not_retroactive (mode : Mode) (P : Profiler) (b : Bool)
    (g : ScopedProfile) (now : Int) :
    (P.setOmitRecursiveCalls b).getOmitRecursiveCalls = b ∧
    (P.setOmitRecursiveCalls b).heap = P.heap ∧
    (P.setOmitRecursiveCalls b).m_profiles = P.m_profiles ∧
    (P.setOmitRecursiveCalls b).m_profileStack = P.m_profileStack ∧
    g.dtor mode (P.setOmitRecursiveCalls b) now =
      (g.dtor mode P now).setOmitRecursiveCalls b ∧
    (g.dtor mode (P.setOmitRecursiveCalls b) now).heap = (g.dtor mode P now).heap ∧
    (g.dtor mode (P.setOmitRecursiveCalls b) now).m_profiles = (g.dtor mode P now).m_profiles ∧
    (g.dtor mode (P.setOmitRecursiveCalls b) now).m_profileStack =
      (g.dtor mode P now).m_profileStack := by
  have hd : g.dtor mode (P.setOmitRecursiveCalls b) now =
      (g.dtor mode P now).setOmitRecursiveCalls b := by
    cases hg : g.m_profile with
    | none => simp [ScopedProfile.dtor, hg]
    | some p =>
      cases mode with
      | callGraph =>
        simp only [ScopedProfile.dtor, hg, Profile.stop, Profiler.popProfile,
          Profiler.setOmitRecursiveCalls, Profiler.modifyProfile]
        split <;> rfl
      | flat =>
        simp only [ScopedProfile.dtor, hg, Profile.stop, Profiler.setOmitRecursiveCalls,
          Profiler.modifyProfile]
        split <;> rfl
  refine ⟨rfl, rfl, rfl, rfl, hd, ?_, ?_, ?_⟩ <;> rw [hd] <;> rfl

end

section

variable [TimeArith]

/-- C14: `getProfile` is find-or-create and idempotent.  It looks the name up
in the root map when the stack is empty (always, in flat mode) and in the
child map of the stack's top record otherwise; a record stored under the name
is returned and the state is unchanged; otherwise exactly one record, with
that name, call count 0, wall time 0 and no children, is appended to the free
store and stored under the name in that map, nothing else changes; a second
`getProfile` with the same name at the same position returns the same record
and changes nothing. -/
theorem C14_getProfile_find_or_create (mode : Mode) (P : Profiler) (name : String)
    (htop : ∀ t, P.m_profileStack.getLast? = some t → t < P.heap.length) :
    ((mode = .flat ∨ P.m_profileStack = []) →
      (∀ p, P.m_profiles.find name = some p → P.getProfile mode name = (some p, P)) ∧
      (P.m_profiles.find name = none →
        P.getProfile mode name =
          (some P.heap.length,
            { P with heap := P.heap ++ [Profile.ctor name],
                     m_profiles := P.m_profiles.insert name P.heap.length }))) ∧
    (∀ (S : List Nat) (t : Nat) (rt : Profile),
      mode = .callGraph → P.m_profileStack = S ++ [t] → P.heap[t]? = some rt →
      (∀ p, rt.m_subProfiles.find name = some p → P.getProfile mode name = (some p, P)) ∧
      (rt.m_subProfiles.find name = none →
        P.getProfile mode name =
          (some P.heap.length,
            { P with
              heap := (modifyAt
                (fun r => { r with m_subProfiles := rt.m_subProfiles.insert name P.heap.length })
                (P.heap ++ [Profile.ctor name]) t) }) ∧
        (modifyAt
            (fun r => { r with m_subProfiles := rt.m_subProfiles.insert name P.heap.length })
            (P.heap ++ [Profile.ctor name]) t)[P.heap.length]? = some (Profile.ctor name) ∧
        ∀ a, a ≠ t → a < P.heap.length →
          (modifyAt
            (fun r => { r with m_subProfiles := rt.m_subProfiles.insert name P.heap.length })
            (P.heap ++ [Profile.ctor name]) t)[a]? = P.heap[a]?)) ∧
    ((Profile.ctor name).m_name = name ∧ (Profile.ctor name).m_callCount = 0 ∧
      (Profile.ctor name).m_wallTime = 0 ∧ (Profile.ctor name).m_subProfiles = []) ∧
    (∀ (m : ProfileMap) (v : Nat) (k : String),
      (m.insert name v).find k = if name = k then some v else m.find k) ∧
    (P.getProfile mode name).2.getProfile mode name =
      ((P.getProfile mode name).1, (P.getProfile mode name).2) := by
  refine ⟨?_, ?_, ⟨rfl, rfl, rfl, rfl⟩, fun m v k => find_insert m name v k,
    getProfile_idem mode P name htop⟩
  · intro hroot
    have hloc : mode = .flat ∨ P.getCurrentProfilesRoot = none := by
      rcases hroot with h | h
      · exact Or.inl h
      · exact Or.inr (by simp [Profiler.getCurrentProfilesRoot, h])
    constructor
    · intro p hp
      cases mode with
      | flat => exact flat_getProfile_found P name p hp
      | callGraph =>
        rcases hloc with h | h
        · cases h
        · exact getProfile_found P name p (by rw [h]; exact hp)
    · intro hp
      cases mode with
      | flat => exact flat_getProfile_alloc P name hp
      | callGraph =>
        rcases hloc with h | h
        · cases h
        · rw [getProfile_alloc P name (by rw [h]; exact hp), h]
          rfl
  · intro S t rt hmode hstack hrt
    subst hmode
    have hloc : P.getCurrentProfilesRoot = some t := by
      simp [Profiler.getCurrentProfilesRoot, hstack]
    have hread : P.readMap (some t) = rt.m_subProfiles := by
      simp [Profiler.readMap, hrt, Profile.getSubProfiles]
    have htlt : t < P.heap.length := (List.getElem?_eq_some.1 hrt).1
    constructor
    · intro p hp
      exact getProfile_found P name p (by rw [hloc, hread]; exact hp)
    · intro hp
      refine ⟨?_, ?_, ?_⟩
      · rw [getProfile_alloc P name (by rw [hloc, hread]; exact hp), hloc, hread]
        rfl
      · rw [getElem?_modifyAt_ne _ _ (by omega)]
        simp
      · intro a hat halt
        rw [getElem?_modifyAt_ne _ _ hat, List.getElem?_append_left halt]

end

theorem C14_getProfile_find_or_create_witness :
    (∀ t, witnessResolve.m_profileStack.getLast? = some t → t < witnessResolve.heap.length) ∧
    (witnessResolve.getProfile .callGraph "g").2.getProfile .callGraph "g" =
      ((witnessResolve.getProfile .callGraph "g").1,
        (witnessResolve.getProfile .callGraph "g").2) ∧
    witnessResolve.getProfile .callGraph "f" = (some 1, witnessResolve) :=
  ⟨by decide,
    (C14_getProfile_find_or_create .callGraph witnessResolve "g" (by decide)).2.2.2.2,
    ((C14_getProfile_find_or_create .callGraph witnessResolve "f" (by decide)).2.1
      [] 0 _ rfl rfl rfl).1 1 rfl⟩

section

variable [TimeArith]

/-- C15: in call-graph mode mutual recursion is treated per region name like
self-recursion.  For two distinct regions `h1`, `h2` nested alternately to any
depth `D >= 2` (`h1`, inside it `h2`, inside it `h1`, ..., then all closed):
with `omitRecursiveCalls = true` (the initial value) the record tree has
exactly two records, `h1` in the root map and `h2` as its only child, each
with call count 1; with `omitRecursiveCalls = false` the tree is one chain of
`D` records named `h1`, `h2`, `RECURSIVE@h1`, `RECURSIVE@h2`, ..., each with
call count 1, so that only the first activation of each region is recorded
under the plain name; and in every reachable state with the flag false, a
guard for a region whose name is on the stack holds the record resolved under
`"RECURSIVE@" + name`, whose name is the marked one and not the plain one. -/
theorem C15_mutual_recursion_per_name (h1 h2 : String) (D : Nat) (ts us : List Int)
    (hne : h1 ≠ h2) (hD : 2 ≤ D) (hts : ts.length = D) (hus : us.length = D) :
    ((run .callGraph Exec.init
        (alternating h1 h2 ts ++ us.map Event.leave)).profiler.m_profiles = [(h1, 0)] ∧
      (run .callGraph Exec.init
        (alternating h1 h2 ts ++ us.map Event.leave)).profiler.m_profileStack = [] ∧
      ∃ r1 r2, (run .callGraph Exec.init
          (alternating h1 h2 ts ++ us.map Event.leave)).profiler.heap = [r1, r2] ∧
        r1.m_name = h1 ∧ r1.m_callCount = 1 ∧ r1.m_subProfiles = [(h2, 1)] ∧
        r2.m_name = h2 ∧ r2.m_callCount = 1 ∧ r2.m_subProfiles = []) ∧
    ((run .callGraph Exec.init (Event.setOmit false ::
        (alternating h1 h2 ts ++ us.map Event.leave))).profiler.heap.length = D ∧
      (∀ π : List String,
        ((run .callGraph Exec.init (Event.setOmit false ::
          (alternating h1 h2 ts ++ us.map Event.leave))).profiler.nodeAt π).isSome = true ↔
        ∃ j, j < D ∧ π = chainPath h1 h2 (j + 1)) ∧
      (∀ j, j < D → ∃ a r,
        (run .callGraph Exec.init (Event.setOmit false ::
          (alternating h1 h2 ts ++ us.map Event.leave))).profiler.nodeAt
            (chainPath h1 h2 (j + 1)) = some a ∧
        (run .callGraph Exec.init (Event.setOmit false ::
          (alternating h1 h2 ts ++ us.map Event.leave))).profiler.heap[a]? = some r ∧
        r.m_name = (if j < 2 then altName h1 h2 j else RECURSIVE_MARK ++ altName h1 h2 j) ∧
        r.m_callCount = 1)) ∧
    (∀ (tr : List Event) (n : String) (now : Int),
      (run .callGraph Exec.init tr).profiler.m_omitRecursiveCalls = false →
      (run .callGraph Exec.init tr).profiler.isInStack n = true →
      ∃ p r,
        ((run .callGraph Exec.init tr).profiler.getProfile .callGraph
          (RECURSIVE_MARK ++ n)).1 = some p ∧
        (step .callGraph (run .callGraph Exec.init tr) (Event.enter n now)).guards =
          { m_profile := some p } :: (run .callGraph Exec.init tr).guards ∧
        (step .callGraph (run .callGraph Exec.init tr)
          (Event.enter n now)).profiler.m_profileStack =
            (run .callGraph Exec.init tr).profiler.m_profileStack ++ [p] ∧
        (step .callGraph (run .callGraph Exec.init tr) (Event.enter n now)).profiler.heap[p]? =
          some r ∧
        r.m_name = RECURSIVE_MARK ++ n ∧ r.m_name ≠ n) := by
  refine ⟨?_, mutual_marked_final h1 h2 hne D ts us hts hus, ?_⟩
  · match ts, hts with
    | [], hts => simp at hts; omega
    | [_], hts => simp at hts; omega
    | t0 :: t1 :: ts, hts =>
      rcases List.eq_nil_or_concat us with hnil | ⟨us1, u0, hcat⟩
      · subst hnil; simp at hus; omega
      · rw [List.concat_eq_append] at hcat
        subst hcat
        rcases List.eq_nil_or_concat us1 with hnil | ⟨us2, u1, hcat⟩
        · subst hnil; simp at hus; omega
        · rw [List.concat_eq_append] at hcat
          subst hcat
          have hlen : us2.length = ts.length := by
            simp only [List.length_append, List.length_cons, List.length_nil] at hus hts
            omega
          have hmap : (us2 ++ [u1] ++ [u0]).map Event.leave =
              us2.map Event.leave ++ [Event.leave u1, Event.leave u0] := by
            simp
          rw [hmap, run_mutual_omitted h1 h2 hne t0 t1 ts us2 u1 u0 hlen]
          exact ⟨rfl, rfl, _, _, rfl, rfl, rfl, rfl, rfl, rfl, rfl⟩
  · intro tr n now hflag hin
    obtain ⟨p, r, k1, k2, k3, k4, k5⟩ := enter_marking_record tr n now hflag hin
    exact ⟨p, r, k1, k2, k3, k4, k5, by rw [k5]; exact mark_ne n⟩

end

theorem C15_mutual_recursion_per_name_witness :
    "h1" ≠ "h2" ∧ 2 ≤ 3 ∧ [0, 1, 2].length = 3 ∧ [5, 6, 7].length = 3 ∧
    (run .callGraph Exec.init
      (alternating "h1" "h2" [0, 1, 2] ++ [5, 6, 7].map Event.leave)).profiler.m_profiles =
        [("h1", 0)] ∧
    (run .callGraph Exec.init (Event.setOmit false ::
      (alternating "h1" "h2" [0, 1, 2] ++ [5, 6, 7].map Event.leave))).profiler.heap.length = 3 ∧
    (∃ p r,
      (step .callGraph (run .callGraph Exec.init [Event.setOmit false, .enter "h1" 0])
        (Event.enter "h1" 1)).guards =
          { m_profile := some p } ::
            (run .callGraph Exec.init [Event.setOmit false, .enter "h1" 0]).guards ∧
      (step .callGraph (run .callGraph Exec.init [Event.setOmit false, .enter "h1" 0])
        (Event.enter "h1" 1)).profiler.heap[p]? = some r ∧
      r.m_name = RECURSIVE_MARK ++ "h1") :=
  ⟨by decide, by decide, rfl, rfl,
    (C15_mutual_recursion_per_name "h1" "h2" 3 [0, 1, 2] [5, 6, 7] (by decide) (by decide)
      rfl rfl).1.1,
    (C15_mutual_recursion_per_name "h1" "h2" 3 [0, 1, 2] [5, 6, 7] (by decide) (by decide)
      rfl rfl).2.1.1,
    ((C15_mutual_recursion_per_name "h1" "h2" 3 [0, 1, 2] [5, 6, 7] (by decide) (by decide)
      rfl rfl).2.2 [Event.setOmit false, .enter "h1" 0] "h1" 1 rfl (by decide)).elim
      fun p hp => hp.elim fun r hr => ⟨p, r, hr.2.1, hr.2.2.2.1, hr.2.2.2.2.1⟩⟩

section

variable [TimeArith]

/-- C16: the layout of the report.  For every record tree (the free store and
the maps represent call paths, the maps list their entries in ascending order
of name, and in flat mode no record has children; every state an execution
reaches from the initial one is such a tree), `printStats` succeeds and: the
report has exactly one line per record (its lines are the lines of a
permutation of all the records, and every record is visited once); the report
of the entries of a map from any entry on is the line of that entry's record,
then the report of the record's child map one level deeper, then the report of
the entries after it, so the records of one map are written in the order of
the map, which is ascending in the names, each followed immediately by its
whole subtree; the line of a record at depth `d` (the length of its call path
minus one) starts with `d` tab characters followed by the record's name in
call-graph mode, and is not indented in flat mode. -/
theorem C16_report_layout (mode : Mode) (P : Profiler) (paths : List (List String))
    (h : ReportInv mode P paths) :
    (∃ (st : PrintState) (V : List Nat),
      P.printStats mode true [] = some st ∧
      V.Perm (List.range P.heap.length) ∧
      st.fs = V.filterMap (P.lineOf mode paths) ∧
      st.fs.length = P.heap.length ∧
      st.freed.Perm (List.range P.heap.length) ∧
      st.fs = P.report mode P.m_profiles 0) ∧
    (∀ (b : Nat) (r : Profile) (π : List String), P.heap[b]? = some r → paths[b]? = some π →
      P.lineOf mode paths b = some (Profiler.printLine mode r (π.length - 1))) ∧
    (∀ (pre : ProfileMap) (k : String) (p : Nat) (rest : ProfileMap),
      P.m_profiles = pre ++ (k, p) :: rest →
      ∃ r, P.heap[p]? = some r ∧ r.m_name = k ∧
        P.report mode ((k, p) :: rest) 0 =
          Profiler.printLine mode r 0 ::
            (P.report mode r.m_subProfiles 1 ++ P.report mode rest 0)) ∧
    (∀ (a : Nat) (ra : Profile) (π : List String),
      P.heap[a]? = some ra → paths[a]? = some π →
      ∀ (pre : ProfileMap) (k : String) (p : Nat) (rest : ProfileMap),
        ra.m_subProfiles = pre ++ (k, p) :: rest →
        ∃ r, P.heap[p]? = some r ∧ r.m_name = k ∧
          P.report mode ((k, p) :: rest) π.length =
            Profiler.printLine mode r π.length ::
              (P.report mode r.m_subProfiles (π.length + 1) ++
                P.report mode rest π.length)) ∧
    (∀ d : Nat, P.report mode [] d = []) ∧
    (P.m_profiles.Pairwise (fun x y => x.1 < y.1) ∧
      ∀ (a : Nat) (ra : Profile), P.heap[a]? = some ra →
        ra.m_subProfiles.Pairwise (fun x y => x.1 < y.1)) ∧
    (∀ (r : Profile) (d : Nat),
      (Profiler.printLine .callGraph r d).indent.data = List.replicate d (Char.ofNat 9) ∧
      (Profiler.printLine .callGraph r d).name = r.m_name ∧
      (Profiler.printLine .flat r d).indent = "" ∧
      (Profiler.printLine .flat r d).name = r.m_name) ∧
    (∀ (m : Mode) (tr : List Event),
      ∃ paths1, ReportInv m (run m Exec.init tr).profiler paths1) := by
  refine ⟨printStats_tree mode h, ?_, ?_, ?_, fun d => report_nil mode P d,
    ⟨sorted_lt _ h.sorted.1, fun a ra hra => sorted_lt _ (h.sorted.2 a ra hra)⟩, ?_,
    fun m tr => reportInv_reach m tr⟩
  · intro b r π hr hπ
    simp [Profiler.lineOf, hr, hπ]
  · intro pre k p rest heq
    exact report_suffix mode h [] P.m_profiles (Nat.zero_le _) h.sorted.1
      (fun k1 p1 => by simpa using h.rep.root k1 p1) pre k p rest heq
  · intro a ra π hra hπ pre k p rest heq
    exact report_suffix mode h π ra.m_subProfiles (treeRep_depth h.rep hπ) (h.sorted.2 a ra hra)
      (h.rep.subs a ra π hra hπ) pre k p rest heq
  · intro r d
    exact ⟨tabs_data d, rfl, rfl, rfl⟩

end

theorem C16_report_layout_witness :
    ∃ st,
      (run .callGraph Exec.init [.enter "f" 0, .enter "g" 1, .leave 2, .enter "a" 3, .leave 5,
        .leave 7, .enter "b" 8, .leave 9]).profiler.printStats .callGraph true [] = some st ∧
      st.fs.length =
        (run .callGraph Exec.init [.enter "f" 0, .enter "g" 1, .leave 2, .enter "a" 3, .leave 5,
          .leave 7, .enter "b" 8, .leave 9]).profiler.heap.length ∧
      st.fs.map (fun l => (l.indent, l.name)) = [("", "b"), ("", "f"), ("\t", "a"), ("\t", "g")] :=
  (reportInv_reach .callGraph [.enter "f" 0, .enter "g" 1, .leave 2, .enter "a" 3, .leave 5,
    .leave 7, .enter "b" 8, .leave 9]).elim fun paths h =>
    (C16_report_layout .callGraph _ paths h).1.elim fun st hst =>
      hst.elim fun V hV => ⟨st, hV.1, hV.2.2.2.1, by
        have h1 := hV.1
        have h2 : (run .callGraph Exec.init [.enter "f" 0, .enter "g" 1, .leave 2, .enter "a" 3,
            .leave 5, .leave 7, .enter "b" 8, .leave 9]).profiler.printStats .callGraph true [] =
            some { fs := [{ indent := "", name := "b", wall := 1, cc := 1, dividend := 1000,
                            divisor := 1 },
                          { indent := "", name := "f", wall := 7, cc := 1, dividend := 7000,
                            divisor := 1 },
                          { indent := "\t", name := "a", wall := 2, cc := 1, dividend := 2000,
                            divisor := 1 },
                          { indent := "\t", name := "g", wall := 1, cc := 1, dividend := 1000,
                            divisor := 1 }],
                   freed := [3, 2, 1, 0] } := by decide
        rw [h2] at h1
        cases h1
        rfl⟩

section

variable [TimeArith]

/-- C17: a record is never removed by a guard construction, a guard
destruction or a policy toggle: for every state and every such event (and
every sequence of them), a record found at a path of names from the root map
before is found at the same path afterwards, it is the same record, and it
has the same name. -/
theorem C17_records_never_removed (mode : Mode) (s : Exec) (e : Event) (path : List String)
    (a : Nat) (h : s.profiler.nodeAt path = some a) :
    (step mode s e).profiler.nodeAt path = some a ∧
    (∀ r, s.profiler.heap[a]? = some r →
      ∃ r', (step mode s e).profiler.heap[a]? = some r' ∧ r'.m_name = r.m_name) ∧
    (∀ tr : List Event, (run mode s tr).profiler.nodeAt path = some a ∧
      ∀ r, s.profiler.heap[a]? = some r →
        ∃ r', (run mode s tr).profiler.heap[a]? = some r' ∧ r'.m_name = r.m_name) := by
  have hstep := mapsGrow_step mode s e
  refine ⟨mapsGrow_walk hstep path _ _ hstep.1 a h, ?_, ?_⟩
  · intro r hr
    obtain ⟨r', h1, h2, _⟩ := hstep.2 a r hr
    exact ⟨r', h1, h2⟩
  · intro tr
    have hrun := mapsGrow_run mode tr s
    refine ⟨mapsGrow_walk hrun path _ _ hrun.1 a h, ?_⟩
    intro r hr
    obtain ⟨r', h1, h2, _⟩ := hrun.2 a r hr
    exact ⟨r', h1, h2⟩

end

theorem C17_records_never_removed_witness :
    Profiler.nodeAt witnessResolve ["main", "f"] = some 1 ∧
    (step .callGraph { profiler := witnessResolve, guards := [{ m_profile := some 0 }] }
      (Event.enter "g" 4)).profiler.nodeAt ["main", "f"] = some 1 :=
  ⟨by decide,
    (C17_records_never_removed .callGraph
      { profiler := witnessResolve, guards := [{ m_profile := some 0 }] }
      (Event.enter "g" 4) ["main", "f"] 1 (by decide)).1⟩

/-- C18 (as stated, refuted): in the arithmetic of `double`, a timer started
at clock reading 1 and stopped at reading `2 ^ 53 + 2` does not return
`t1 - t0 = 2 ^ 53 + 1`, which is not a `double`, but `2 ^ 53`; the same holds
for the timer read at `2 ^ 53 + 2` while it is still running. -/
theorem C18_counterexample :
    ((Timer.ctor.start 1).stop 9007199254740994).getElapsedTime 9007199254740994 =
      9007199254740992 ∧
    ((Timer.ctor.start 1).stop 9007199254740994).getElapsedTime 9007199254740994 ≠
      9007199254740994 - 1 ∧
    (Timer.ctor.start 1).getElapsedTime 9007199254740994 ≠ 9007199254740994 - 1 := by
  decide

section

variable [TimeArith]

/-- C18 (amended): for the timer over an abstract clock, after `start()` at
reading `t0` and `stop()` at reading `t1`, `getElapsedTime()` returns, at
every later clock reading, the difference `t1 - t0` as the subtraction of the
clock's number type computes it (nothing is assumed about that operation);
while the timer is running `getElapsedTime()` at reading `t` returns the
difference `t - t0` computed in the same way and the timer stays running with
the same origin; a timer that was never started returns 0.  In the arithmetic
of `double` on whole-number readings both differences are the exact ones
whenever they are smaller than `2 ^ 53` in absolute value. -/
theorem C18_timer_elapsed (tm : Timer) (t0 t1 t : Int) :
    ((tm.start t0).stop t1).getElapsedTime t = TimeArith.sub t1 t0 ∧
    ((tm.start t0).stop t1).m_running = false ∧
    (tm.start t0).getElapsedTime t = TimeArith.sub t t0 ∧
    (tm.start t0).m_running = true ∧ (tm.start t0).m_startTime = t0 ∧
    Timer.ctor.getElapsedTime t = 0 ∧
    (-(2 : Int) ^ 53 < t1 - t0 → t1 - t0 < 2 ^ 53 →
      @Timer.getElapsedTime doubleArith (@Timer.stop doubleArith (tm.start t0) t1) t =
        t1 - t0) ∧
    (-(2 : Int) ^ 53 < t - t0 → t - t0 < 2 ^ 53 →
      @Timer.getElapsedTime doubleArith (tm.start t0) t = t - t0) := by
  refine ⟨?_, rfl, ?_, rfl, rfl, rfl, ?_, ?_⟩
  · simp [Timer.start, Timer.stop, Timer.getElapsedTime]
  · simp [Timer.start, Timer.getElapsedTime]
  · intro h1 h2
    simp only [Timer.start, Timer.stop, Timer.getElapsedTime, Bool.false_eq_true, if_false]
    exact roundDouble_small _ h1 h2
  · intro h1 h2
    simp only [Timer.start, Timer.getElapsedTime, if_true]
    exact roundDouble_small _ h1 h2

end

theorem C18_timer_elapsed_witness :
    ((Timer.ctor.start 3).stop 10).getElapsedTime 12 = 7 ∧
    (Timer.ctor.start 3).getElapsedTime 12 = 9 :=
  ⟨(C18_timer_elapsed Timer.ctor 3 10 12).2.2.2.2.2.2.1 (by decide) (by decide),
    (C18_timer_elapsed Timer.ctor 3 10 12).2.2.2.2.2.2.2 (by decide) (by decide)⟩

/-- C19 (counterexample): in call-graph mode with the policy flag at its
initial value `true`, let `f` be entered, `k` be entered and left
`2 ^ 32 - 1` times inside `f`, and `f` be entered again.  The state reached
has `omitRecursiveCalls = true`, its innermost guard is a skipped one, and `k`
is not the name of any record on the stack.  The guard then constructed for
`k` is instrumented (it holds a record `p` named `k`), the call count of `p`
is `2 ^ 32 - 1` while the guard is alive, and after the destruction of the
guard it is 0: it has not increased by 1. -/
theorem C19_counterexample :
    ∃ (G : List ScopedProfile) (p : Nat) (r r' : Profile),
      (run .callGraph Exec.init (skippedAfter 4294967295)).profiler.m_omitRecursiveCalls =
        true ∧
      (run .callGraph Exec.init (skippedAfter 4294967295)).guards =
        { m_profile := none } :: G ∧
      (run .callGraph Exec.init (skippedAfter 4294967295)).profiler.isInStack "k" = false ∧
      (step .callGraph (run .callGraph Exec.init (skippedAfter 4294967295))
        (Event.enter "k" 2)).guards = { m_profile := some p } :: { m_profile := none } :: G ∧
      (step .callGraph (run .callGraph Exec.init (skippedAfter 4294967295))
        (Event.enter "k" 2)).profiler.heap[p]? = some r ∧
      r.m_name = "k" ∧ r.m_callCount = 4294967295 ∧
      (step .callGraph (step .callGraph (run .callGraph Exec.init (skippedAfter 4294967295))
        (Event.enter "k" 2)) (Event.leave 3)).profiler.heap[p]? = some r' ∧
      r'.m_callCount = 0 ∧
      r'.m_callCount ≠ r.m_callCount + 1 := by
  obtain ⟨G, p, r, r', h1, h2, h3, h4, h5, h6, h7, h8, h9⟩ :=
    skipped_state_counts 4294967295
  have e1 : 4294967295 % UINT_RANGE = 4294967295 := by decide
  have e2 : (4294967295 + 1) % UINT_RANGE = 0 := by decide
  rw [e1] at h7
  rw [e2] at h9
  exact ⟨G, p, r, r', h1, h2, h3, h4, h5, h6, h7, h8, h9, by rw [h7, h9]; decide⟩

section

variable [TimeArith]

/-- C19 (amended): in call-graph mode, in a well-formed state whose innermost guard is a
skipped (inert) one and whose stack top is `t` (such states arise with
`omitRecursiveCalls = true`; the value of the flag plays no part), a guard constructed for a region `k` that is not the name of any record
on the stack is instrumented normally: it holds the record `p` that
`getProfile k` resolves, this record is stored under `k` in the child map of
`t` and has the name `k`, its timer is started at the clock reading of the
construction, and it is pushed on the stack; whenever the guard is destroyed
the call count of `p` goes up by one as an `unsigned int`, that is modulo
`2 ^ 32`: it increases by exactly 1 when it is below `2 ^ 32 - 1`, and it
becomes 0 when it is `2 ^ 32 - 1`; and destroying the guard right away gives
back the stack and the guards of before. -/
theorem C19_fresh_region_inside_skipped_activation (s : Exec)
    (paths hist : List (List String)) (cur : List String) (G : List ScopedProfile)
    (k : String) (t : Nat) (now now2 : Int)
    (h : GraphInv s paths hist cur)
    (hskip : s.guards = { m_profile := none } :: G)
    (htop : s.profiler.m_profileStack.getLast? = some t)
    (hk : s.profiler.isInStack k = false) :
    ∃ p : Nat,
      (s.profiler.getProfile .callGraph k).1 = some p ∧
      (step .callGraph s (.enter k now)).guards =
        { m_profile := some p } :: { m_profile := none } :: G ∧
      (step .callGraph s (.enter k now)).profiler.m_profileStack =
        s.profiler.m_profileStack ++ [p] ∧
      (∃ rt, (step .callGraph s (.enter k now)).profiler.heap[t]? = some rt ∧
        rt.m_subProfiles.find k = some p) ∧
      (∃ r, (step .callGraph s (.enter k now)).profiler.heap[p]? = some r ∧
        r.m_name = k ∧ r.m_timer.m_running = true ∧ r.m_timer.m_startTime = now) ∧
      (∀ (P : Profiler) (r : Profile), P.heap[p]? = some r →
        ∃ r', (ScopedProfile.dtor .callGraph { m_profile := some p } P now2).heap[p]? =
            some r' ∧
          r'.m_callCount = (r.m_callCount + 1) % UINT_RANGE ∧
          (r.m_callCount + 1 < UINT_RANGE → r'.m_callCount = r.m_callCount + 1) ∧
          (r.m_callCount + 1 = UINT_RANGE → r'.m_callCount = 0)) ∧
      (step .callGraph (step .callGraph s (.enter k now)) (.leave now2)).guards =
        { m_profile := none } :: G ∧
      (step .callGraph (step .callGraph s (.enter k now))
        (.leave now2)).profiler.m_profileStack = s.profiler.m_profileStack := by
  obtain ⟨p, paths1, h1, h2, h3, h4, h5, h6, h7, h8, _⟩ :=
    fresh_region_skipped s paths hist cur G k t now now2 h hskip htop hk
  refine ⟨p, h1, h2, h3, h4, h5, ?_, h7, h8⟩
  intro P r hr
  obtain ⟨r', hr', hcc⟩ := h6 P r hr
  refine ⟨r', hr', hcc, ?_, ?_⟩
  · intro hlt
    rw [hcc, Nat.mod_eq_of_lt hlt]
  · intro heq
    rw [hcc, heq, Nat.mod_self]

end

theorem C19_fresh_region_inside_skipped_activation_witness :
    (run .callGraph Exec.init [.enter "f" 0, .enter "f" 1]).profiler.m_omitRecursiveCalls =
      true ∧
    (run .callGraph Exec.init [.enter "f" 0, .enter "f" 1]).guards =
      [{ m_profile := none }, { m_profile := some 0 }] ∧
    ∃ p : Nat,
      ((run .callGraph Exec.init [.enter "f" 0, .enter "f" 1]).profiler.getProfile
        .callGraph "g").1 = some p ∧
      (step .callGraph (run .callGraph Exec.init [.enter "f" 0, .enter "f" 1])
        (.enter "g" 2)).profiler.m_profileStack =
        (run .callGraph Exec.init [.enter "f" 0, .enter "f" 1]).profiler.m_profileStack ++ [p] :=
  ⟨rfl, rfl, (graphInv_reach [.enter "f" 0, .enter "f" 1] Exec.init [] [] [] graphInv_init).elim
    fun paths hp => hp.elim fun hist hh => hh.elim fun cur hinv =>
      (C19_fresh_region_inside_skipped_activation
        (run .callGraph Exec.init [.enter "f" 0, .enter "f" 1]) paths hist cur
        [{ m_profile := some 0 }] "g" 0 2 3 hinv rfl rfl rfl).elim
        fun p hp => ⟨p, hp.1, hp.2.2.1⟩⟩

section

variable [TimeArith]

/-- C20: guard construction and destruction are balanced.  In call-graph mode,
for every state and every well-nested sequence of guard constructions and
destructions that closes every guard it opens, whatever the policy flag does
and whether guards are skipped or recursive-marked, the activation stack
after the sequence is the stack before it (and the live guards are the same).
In flat mode, from a state whose map pointers are valid and in which no
record is running, no record is running after such a sequence. -/
theorem C20_construction_destruction_balanced (tr : List Event)
    (hclosed : closes 0 tr = true) :
    (∀ s : Exec,
      (run .callGraph s tr).profiler.m_profileStack = s.profiler.m_profileStack ∧
      (run .callGraph s tr).guards = s.guards) ∧
    (∀ s : Exec,
      (∀ (name : String) (p : Nat), s.profiler.m_profiles.find name = some p →
        p < s.profiler.heap.length) →
      (∀ (a : Nat) (r : Profile), s.profiler.heap[a]? = some r → r.m_timeStarted = false) →
      (run .flat s tr).guards = s.guards ∧
      ∀ (a : Nat) (r : Profile), (run .flat s tr).profiler.heap[a]? = some r →
        r.m_timeStarted = false) := by
  constructor
  · intro s
    have := callGraph_balanced tr s [] s.guards s.profiler.m_profileStack rfl (by simp) hclosed
    exact ⟨this.2, this.1⟩
  · intro s hvalid hidle
    refine flat_balanced tr s [] s.guards rfl ⟨hvalid, ?_, ?_, List.nodup_nil⟩ hclosed
    · intro p hp
      simp at hp
    · intro a r hr
      simp [hidle a r hr]

end

theorem C20_construction_destruction_balanced_witness :
    closes 0 (demoMain (fun i => i)) = true ∧
    (run .callGraph { profiler := witnessResolve, guards := [{ m_profile := some 0 }] }
      (demoMain (fun i => i))).profiler.m_profileStack = witnessResolve.m_profileStack ∧
    (∀ (a : Nat) (r : Profile),
      (run .flat Exec.init (demoMain (fun i => i))).profiler.heap[a]? = some r →
        r.m_timeStarted = false) :=
  ⟨(demoMain_counts _).1,
    ((C20_construction_destruction_balanced (demoMain (fun i => i))
      (demoMain_counts _).1).1
      { profiler := witnessResolve, guards := [{ m_profile := some 0 }] }).1,
    ((C20_construction_destruction_balanced (demoMain (fun i => i))
      (demoMain_counts _).1).2 Exec.init
      (fun name p hp => by simp [Exec.init, Profiler.ctor, ProfileMap.find] at hp)
      (fun a r hr => by simp [Exec.init, Profiler.ctor] at hr)).2⟩

section

variable [TimeArith]

/-- C21: in call-graph mode, in every state reached from the initial one by
guard constructions and destructions (and policy toggles, in any order), the
activation stack is a path in the record tree: every record on the stack is
live; the first one is stored in the root map under its own name, and every
later one is stored under its own name in the child map of the record just
below it on the stack. -/
theorem C21_stack_is_tree_path (tr : List Event) :
    (∀ (i p : Nat), (run .callGraph Exec.init tr).profiler.m_profileStack[i]? = some p →
      ∃ r, (run .callGraph Exec.init tr).profiler.heap[p]? = some r) ∧
    (∀ (p : Nat) (rest : List Nat),
      (run .callGraph Exec.init tr).profiler.m_profileStack = p :: rest →
      ∃ r, (run .callGraph Exec.init tr).profiler.heap[p]? = some r ∧
        (run .callGraph Exec.init tr).profiler.m_profiles.find r.m_name = some p) ∧
    (∀ (i q p : Nat), (run .callGraph Exec.init tr).profiler.m_profileStack[i]? = some q →
      (run .callGraph Exec.init tr).profiler.m_profileStack[i + 1]? = some p →
      ∃ rq r, (run .callGraph Exec.init tr).profiler.heap[q]? = some rq ∧
        (run .callGraph Exec.init tr).profiler.heap[p]? = some r ∧
        rq.m_subProfiles.find r.m_name = some p) := by
  obtain ⟨paths, hist, cur, hinv⟩ := graphInv_reach tr Exec.init [] [] [] graphInv_init
  refine ⟨?_, (stack_is_path hinv).1, (stack_is_path hinv).2⟩
  intro i p hp
  exact treeRep_valid hinv.rep (stackOn_getElem hinv.stack i p hp).2

end

section

variable [TimeArith]

/-- C22: in call-graph mode, if `omitRecursiveCalls` has been true throughout
(it is true initially and no event sets it to false), then in every state
reached from the initial one by guard constructions and destructions the
records on the activation stack are live and their names are pairwise
distinct, and no path of names from the root map to a node of the record tree
contains the same name twice. -/
theorem C22_no_name_twice_while_omitting (tr : List Event) (hk : keepsOmitting tr = true) :
    ((run .callGraph Exec.init tr).profiler.m_profileStack.filterMap
      (run .callGraph Exec.init tr).profiler.nameOf).Nodup ∧
    ((run .callGraph Exec.init tr).profiler.m_profileStack.filterMap
      (run .callGraph Exec.init tr).profiler.nameOf).length =
        (run .callGraph Exec.init tr).profiler.m_profileStack.length ∧
    (∀ (i j p q : Nat) (r r' : Profile),
      (run .callGraph Exec.init tr).profiler.m_profileStack[i]? = some p →
      (run .callGraph Exec.init tr).profiler.m_profileStack[j]? = some q →
      (run .callGraph Exec.init tr).profiler.heap[p]? = some r →
      (run .callGraph Exec.init tr).profiler.heap[q]? = some r' →
      r.m_name = r'.m_name → i = j) ∧
    (∀ (path : List String) (a : Nat),
      (run .callGraph Exec.init tr).profiler.nodeAt path = some a → path.Nodup) := by
  obtain ⟨paths, hist, cur, hinv, _, hcur, hhist⟩ :=
    omitting_run tr Exec.init [] [] [] graphInv_init rfl List.nodup_nil
      (fun π hπ => by cases hπ) hk
  have hnames := stackOn_nameList hinv.rep hinv.stack
  refine ⟨by rw [hnames]; exact hcur, by rw [hnames, stackOn_length hinv.stack], ?_, ?_⟩
  · intro i j p q r r' hp hq hr hr' hname
    obtain ⟨hi, hpi⟩ := stackOn_getElem hinv.stack i p hp
    obtain ⟨hj, hqj⟩ := stackOn_getElem hinv.stack j q hq
    have h1 := hinv.rep.names p r _ hr hpi
    have h2 := hinv.rep.names q r' _ hr' hqj
    have e1 : (cur.take (i + 1)).getLast? = some cur[i] := by
      have ht : cur.take (i + 1) = cur.take i ++ [cur[i]] := by
        rw [List.take_succ, List.getElem?_eq_getElem hi]
        rfl
      rw [ht]
      simp only [List.getLast?_append, List.getLast?_singleton, Option.or]
    have e2 : (cur.take (j + 1)).getLast? = some cur[j] := by
      have ht : cur.take (j + 1) = cur.take j ++ [cur[j]] := by
        rw [List.take_succ, List.getElem?_eq_getElem hj]
        rfl
      rw [ht]
      simp only [List.getLast?_append, List.getLast?_singleton, Option.or]
    rw [e1] at h1
    rw [e2] at h2
    have heq : cur[i] = cur[j] := by
      have a1 := Option.some.inj h1
      have a2 := Option.some.inj h2
      rw [a1, a2, hname]
    exact (List.Nodup.getElem_inj_iff hcur).1 heq
  · intro path a ha
    have hp := (treeRep_nodeAt hinv.rep path a).1 ha
    exact hhist path ((hinv.hist_iff path).1 (List.mem_iff_getElem?.2 ⟨a, hp⟩))

end

theorem C22_no_name_twice_while_omitting_witness :
    keepsOmitting [Event.enter "f" 0, .enter "g" 1, .enter "f" 2, .setOmit true,
      .enter "k" 3, .leave 4] = true ∧
    ((run .callGraph Exec.init [Event.enter "f" 0, .enter "g" 1, .enter "f" 2, .setOmit true,
      .enter "k" 3, .leave 4]).profiler.m_profileStack.filterMap
      (run .callGraph Exec.init [Event.enter "f" 0, .enter "g" 1, .enter "f" 2, .setOmit true,
        .enter "k" 3, .leave 4]).profiler.nameOf).Nodup ∧
    (run .callGraph Exec.init [Event.enter "f" 0, .enter "g" 1, .enter "f" 2, .setOmit true,
      .enter "k" 3, .leave 4]).profiler.nodeAt ["f", "g", "k"] = some 2 ∧
    ["f", "g", "k"].Nodup :=
  ⟨by decide,
    (C22_no_name_twice_while_omitting [Event.enter "f" 0, .enter "g" 1, .enter "f" 2,
      .setOmit true, .enter "k" 3, .leave 4] (by decide)).1,
    by decide,
    (C22_no_name_twice_while_omitting [Event.enter "f" 0, .enter "g" 1, .enter "f" 2,
      .setOmit true, .enter "k" 3, .leave 4] (by decide)).2.2.2 ["f", "g", "k"] 2
      (by decide)⟩

end profiny
